import Mathlib

/-!
# qrng-algorithms: bit generators and statistical test suite

A shallow embedding of `src/src/qrng.cpp` and `src/src/randomness_tester.cpp`.

* Machine integers are `Nat` / `Int` with explicit wrap-around (`% 2^64`, `toInt32`).
* `double` is modelled by `Double`: IEEE-754 binary64 with round-to-nearest-even,
  infinities and NaN.  Finite values carry their exact rational value.
* The C++ standard library (random engines and distributions, `<cmath>`) is not part of
  the repository; it enters as the parameter `StdLib`.
* The clock that `generate_random_bits` reads when the seed is 0 is the explicit
  argument `now`.

Part I holds the definitions, Part II the lemmas and theorems.
-/

/-! ## Part I: definitions -/

/-! ### Machine integers -/

/-- Conversion to the 32-bit `int`: two's complement wrap-around into `[-2^31, 2^31)`. -/
def toInt32 (i : Int) : Int := (i + 2 ^ 31) % 2 ^ 32 - 2 ^ 31

/-- Conversion of a signed value to the 64-bit `size_t` / `uint64_t`. -/
def toSizeT (i : Int) : Nat := (i % 2 ^ 64).toNat

/-- The bound `std::vector<uint8_t>::max_size()` (`PTRDIFF_MAX`). -/
def vector_max_size : Nat := 2 ^ 63 - 1

/-! ### IEEE-754 binary64 -/

/-- Values of the C++ type `double`.  `fin q` is the finite value `q`; the two signed
zeros are identified (no computation of this program depends on the sign of a zero). -/
inductive Double where
  | nan : Double
  | pinf : Double
  | ninf : Double
  | fin (q : ℚ) : Double
deriving DecidableEq

namespace Double

/-- Round a rational to the nearest integer, ties to even. -/
def rne (q : ℚ) : ℤ :=
  if q - ⌊q⌋ < 1 / 2 then ⌊q⌋
  else if 1 / 2 < q - ⌊q⌋ then ⌊q⌋ + 1
  else if ⌊q⌋ % 2 = 0 then ⌊q⌋ else ⌊q⌋ + 1

/-- Exponent of the binade of `q`, clamped at the subnormal range. -/
def binade (q : ℚ) : ℤ := max (Int.log 2 |q|) (-1022)

/-- Unit in the last place of the binade of `q`: 53 significant bits. -/
def ulp (q : ℚ) : ℚ := (2 : ℚ) ^ (binade q - 52)

/-- The nearest multiple of `ulp q` to `q`, ties to the even multiple: round-to-nearest-even
with 53 significant bits and unbounded exponent range above. -/
def rnd (q : ℚ) : ℚ := (rne (q / ulp q) : ℚ) * ulp q

/-- Rounding of an exact result to binary64, round-to-nearest-even; results of
magnitude `2^1024` or more overflow to an infinity. -/
def round (q : ℚ) : Double :=
  if (2 : ℚ) ^ (1024 : ℕ) ≤ |rnd q| then (if 0 < q then pinf else ninf) else fin (rnd q)

/-- Conversion of an unsigned integer (`size_t`, `uint8_t`) to `double`. -/
def ofNat (n : ℕ) : Double := round (n : ℚ)

/-- Conversion of a signed integer (`int`) to `double`. -/
def ofInt (i : ℤ) : Double := round (i : ℚ)

/-- Unary minus. -/
def neg : Double → Double
  | nan => nan
  | pinf => ninf
  | ninf => pinf
  | fin q => fin (-q)

/-- The function `std::abs`. -/
def abs : Double → Double
  | nan => nan
  | pinf => pinf
  | ninf => pinf
  | fin q => fin |q|

/-- Addition. -/
def add : Double → Double → Double
  | nan, _ => nan
  | _, nan => nan
  | pinf, ninf => nan
  | ninf, pinf => nan
  | pinf, _ => pinf
  | _, pinf => pinf
  | ninf, _ => ninf
  | _, ninf => ninf
  | fin a, fin b => round (a + b)

/-- Subtraction. -/
def sub (a b : Double) : Double := add a (neg b)

/-- Sign-directed infinity: the product or quotient of an infinity and a finite factor. -/
def infOfSign (positive : Bool) : Double := if positive then pinf else ninf

/-- Multiplication. -/
def mul : Double → Double → Double
  | nan, _ => nan
  | _, nan => nan
  | pinf, pinf => pinf
  | ninf, ninf => pinf
  | pinf, ninf => ninf
  | ninf, pinf => ninf
  | pinf, fin b => if b = 0 then nan else infOfSign (decide (0 < b))
  | ninf, fin b => if b = 0 then nan else infOfSign (decide (b < 0))
  | fin a, pinf => if a = 0 then nan else infOfSign (decide (0 < a))
  | fin a, ninf => if a = 0 then nan else infOfSign (decide (a < 0))
  | fin a, fin b => round (a * b)

/-- Division.  A zero divisor is taken as `+0`: `0/0` is NaN and `a/0` is an infinity. -/
def div : Double → Double → Double
  | nan, _ => nan
  | _, nan => nan
  | pinf, pinf => nan
  | pinf, ninf => nan
  | ninf, pinf => nan
  | ninf, ninf => nan
  | pinf, fin b => infOfSign (decide (0 ≤ b))
  | ninf, fin b => infOfSign (decide (b < 0))
  | fin _, pinf => fin 0
  | fin _, ninf => fin 0
  | fin a, fin b =>
    if b = 0 then (if a = 0 then nan else infOfSign (decide (0 < a))) else round (a / b)

/-- Comparison `a < b`; false when an operand is NaN. -/
def lt : Double → Double → Bool
  | nan, _ => false
  | _, nan => false
  | pinf, _ => false
  | _, ninf => false
  | ninf, _ => true
  | _, pinf => true
  | fin a, fin b => decide (a < b)

/-- Comparison `a <= b`; false when an operand is NaN. -/
def le : Double → Double → Bool
  | nan, _ => false
  | _, nan => false
  | ninf, _ => true
  | _, pinf => true
  | pinf, _ => false
  | _, ninf => false
  | fin a, fin b => decide (a ≤ b)

/-- Comparison `a == b`; false when an operand is NaN. -/
def eq : Double → Double → Bool
  | nan, _ => false
  | _, nan => false
  | pinf, pinf => true
  | ninf, ninf => true
  | fin a, fin b => decide (a = b)
  | _, _ => false

/-- Comparison `a > b`. -/
def gt (a b : Double) : Bool := lt b a

/-- Comparison `a >= b`. -/
def ge (a b : Double) : Bool := le b a

/-- The function `std::max(a, b)`, which is `(a < b) ? b : a`. -/
def max (a b : Double) : Double := if lt a b then b else a

/-- The value lies in the closed interval `[0, 1]` (in particular it is not NaN). -/
def inUnit : Double → Prop
  | fin q => 0 ≤ q ∧ q ≤ 1
  | _ => False

/-- The value is `+∞` or a non-negative finite number. -/
def NonnegExt (x : Double) : Prop := x = pinf ∨ ∃ q : ℚ, 0 ≤ q ∧ x = fin q

end Double

/-! ### The C++ standard library, as a parameter -/

/-- The parts of the C++ standard library the program calls: the engine
`std::mt19937_64` with the two distributions drawn from it, the `<cmath>` functions, and
the text of the exception a too large `std::vector` raises. -/
structure StdLib where
  /-- State of a `std::mt19937_64`. -/
  Engine : Type
  /-- The constructor `std::mt19937_64(seed)`. -/
  mt_seed : ℕ → Engine
  /-- One call `gen()`: a 64-bit output and the advanced engine. -/
  mt_next : Engine → ℕ × Engine
  /-- One draw of `std::uniform_int_distribution<uint8_t>(0, 1)`. -/
  uniform_int_distribution : Engine → ℕ × Engine
  /-- One draw of `std::uniform_real_distribution<double>(0.0, 1.0)`. -/
  uniform_real_distribution : Engine → Double × Engine
  /-- The function `std::sqrt`. -/
  sqrt : Double → Double
  /-- The function `std::erf`. -/
  erf : Double → Double
  /-- The function `std::erfc`. -/
  erfc : Double → Double
  /-- The function `std::log2`. -/
  log2 : Double → Double
  /-- The function `std::exp`. -/
  exp : Double → Double
  /-- The `what()` text of the `std::length_error` of `std::vector`. -/
  length_error_what : String

/-- The contract of the `<cmath>` functions used by the p-value computations: `sqrt` maps
positive finite values to positive finite values and 0 to 0; `erf` and `erfc` map every
non-negative argument, `+∞` included, into `[0, 1]`. -/
structure MathContract (L : StdLib) : Prop where
  sqrt_pos : ∀ q : ℚ, 0 < q → ∃ r : ℚ, 0 < r ∧ L.sqrt (Double.fin q) = Double.fin r
  sqrt_zero : L.sqrt (Double.fin 0) = Double.fin 0
  erf_unit : ∀ x, Double.NonnegExt x → ∃ r : ℚ, 0 ≤ r ∧ r ≤ 1 ∧ L.erf x = Double.fin r
  erfc_unit : ∀ x, Double.NonnegExt x → ∃ r : ℚ, 0 ≤ r ∧ r ≤ 1 ∧ L.erfc x = Double.fin r

/-! ### The generators of `qrng.cpp` -/

/-- State of the class `Xoshiro256`: the four 64-bit words `s[0..3]`. -/
structure Xoshiro256 where
  s0 : ℕ
  s1 : ℕ
  s2 : ℕ
  s3 : ℕ
deriving DecidableEq

namespace Xoshiro256

/-- The helper `rotl(x, k)` on 64-bit words: `(x << k) | (x >> (64 - k))`. -/
def rotl (x k : ℕ) : ℕ := ((x <<< k) % 2 ^ 64) ||| (x >>> (64 - k))

/-- The constructor `Xoshiro256(seed)`: four successive outputs of a `std::mt19937_64`. -/
def seeded (L : StdLib) (seed : ℕ) : Xoshiro256 :=
  let g0 := L.mt_seed seed
  let r0 := L.mt_next g0
  let r1 := L.mt_next r0.2
  let r2 := L.mt_next r1.2
  let r3 := L.mt_next r2.2
  { s0 := r0.1, s1 := r1.1, s2 := r2.1, s3 := r3.1 }

/-- The call `operator()`: the output and the updated state. -/
def next (g : Xoshiro256) : ℕ × Xoshiro256 :=
  let result := (rotl ((g.s1 * 5) % 2 ^ 64) 7 * 9) % 2 ^ 64
  let t := (g.s1 <<< 17) % 2 ^ 64
  let a2 := g.s2 ^^^ g.s0
  let a3 := g.s3 ^^^ g.s1
  let a1 := g.s1 ^^^ a2
  let a0 := g.s0 ^^^ a3
  let b2 := a2 ^^^ t
  let b3 := rotl a3 45
  (result, { s0 := a0, s1 := a1, s2 := b2, s3 := b3 })

end Xoshiro256

/-- State of the class `PCG`: the 64-bit words `state` and `inc`. -/
structure PCG where
  state : ℕ
  inc : ℕ
deriving DecidableEq

namespace PCG

/-- The call `operator()`: the 32-bit output and the updated generator. -/
def next (g : PCG) : ℕ × PCG :=
  let oldstate := g.state
  let state := (oldstate * 6364136223846793005 + g.inc) % 2 ^ 64
  let xorshifted := (((oldstate >>> 18) ^^^ oldstate) >>> 27) % 2 ^ 32
  let rot := (oldstate >>> 59) % 2 ^ 32
  let out := (xorshifted >>> rot) ||| ((xorshifted <<< (((2 ^ 32 - rot) % 2 ^ 32) &&& 31)) % 2 ^ 32)
  (out, { state := state, inc := g.inc })

/-- The constructor `PCG(seed)`: `state(0)`, `inc((seed << 1) | 1)`, one step, `state += seed`,
one more step. -/
def seeded (seed : ℕ) : PCG :=
  let g0 : PCG := { state := 0, inc := ((seed <<< 1) % 2 ^ 64) ||| 1 }
  let g1 := (next g0).2
  let g2 : PCG := { state := (g1.state + seed) % 2 ^ 64, inc := g1.inc }
  (next g2).2

/-- The local `xorshifted` of `operator()`: `((oldstate >> 18u) ^ oldstate) >> 27u`, stored
in a `uint32_t`. -/
def xorshifted (oldstate : ℕ) : ℕ := (((oldstate >>> 18) ^^^ oldstate) >>> 27) % 2 ^ 32

/-- The local `rot` of `operator()`: `oldstate >> 59u`, stored in a `uint32_t`. -/
def rot (oldstate : ℕ) : ℕ := (oldstate >>> 59) % 2 ^ 32

/-- Rotation of the 32-bit word `x` to the right by `r < 32` places, as the spec words it:
the low `r` bits move to the top. -/
def rotr32 (x r : ℕ) : ℕ := (x / 2 ^ r) + (x % 2 ^ r) * 2 ^ (32 - r)

end PCG

/-- The enumeration `AlgorithmType`. -/
inductive AlgorithmType where
  | MERSENNE_TWISTER
  | XOSHIRO
  | PCG
  | QUANTUM_SIMULATED
deriving DecidableEq

/-- The structure `QRNGConfig` with its default member values; `num_qubits` and `num_shots`
are `int`, `seed` is `uint64_t`. -/
structure QRNGConfig where
  num_qubits : ℤ := 1
  num_shots : ℤ := 1000
  seed : ℕ := 0
  algorithm : AlgorithmType := AlgorithmType.MERSENNE_TWISTER

/-- A loop `for (i = 0; i < count; ++i) bits[i] = step(rng)`: the bits written, in order. -/
def fill {S : Type} (step : S → ℕ × S) : ℕ → S → List ℕ
  | 0, _ => []
  | n + 1, s => (step s).1 :: fill step n (step s).2

/-- One iteration of the `QUANTUM_SIMULATED` loop: `p = 0.5 + (dist(rng) - 0.5) * 0.1`, then
`dist(rng) < p ? 1 : 0`. -/
def quantum_step (L : StdLib) (g : L.Engine) : ℕ × L.Engine :=
  let r1 := L.uniform_real_distribution g
  let p := Double.add (Double.fin (1 / 2))
    (Double.mul (Double.sub r1.1 (Double.fin (1 / 2))) (Double.round (1 / 10)))
  let r2 := L.uniform_real_distribution r1.2
  ((if Double.lt r2.1 p then 1 else 0), r2.2)

/-- The acceptance probability `p = 0.5 + (r1 - 0.5) * 0.1` that the `QUANTUM_SIMULATED` loop
computes from its first draw `r1`. -/
def quantum_p (r1 : Double) : Double :=
  Double.add (Double.fin (1 / 2))
    (Double.mul (Double.sub r1 (Double.fin (1 / 2))) (Double.round (1 / 10)))

/-- The sum `std::accumulate(bits.begin(), bits.end(), 0)`: the accumulator is an `int`. -/
def accumulate_int (bits : List ℕ) : ℤ :=
  List.foldl (fun (acc : ℤ) (b : ℕ) => toInt32 (acc + (b : ℤ))) 0 bits

/-- The sum `std::accumulate(bits.begin(), bits.end(), 0.0)`: the accumulator is a `double`. -/
def accumulate_double (bits : List ℕ) : Double :=
  List.foldl (fun (acc : Double) (b : ℕ) => Double.add acc (Double.ofNat b)) (Double.fin 0) bits

/-- The run counter of `runs_test`: 1 plus the number of positions `i ≥ 1` with
`bits[i] != bits[i-1]`. -/
def count_changes : List ℕ → ℕ
  | a :: b :: rest => (if b ≠ a then 1 else 0) + count_changes (b :: rest)
  | _ => 0

/-- The chi-square statistic that both `chi_square_test` methods compute, by the same
statements, before taking the p-value. -/
def chi_square_statistic (bits : List ℕ) : Double :=
  let counts0 : ℕ := (bits.filter (fun b => b &&& 1 = 0)).length
  let counts1 : ℕ := (bits.filter (fun b => b &&& 1 = 1)).length
  let expected := Double.div (Double.ofNat bits.length) (Double.fin 2)
  let diff0 := Double.sub (Double.ofNat counts0) expected
  let chi0 := Double.add (Double.fin 0) (Double.div (Double.mul diff0 diff0) expected)
  let diff1 := Double.sub (Double.ofNat counts1) expected
  Double.add chi0 (Double.div (Double.mul diff1 diff1) expected)

/-- The local `z` of both `frequency_test` methods, computed by the same statements:
`z = (p_hat - p) / std::sqrt(p * (1 - p) / n)` with `p_hat = static_cast<double>(ones) / n`,
`ones` the `int` sum of the bits stored in a `size_t`, and `p = 0.5`. -/
def frequency_z (L : StdLib) (bits : List ℕ) : Double :=
  let ones : ℕ := toSizeT (accumulate_int bits)
  let n : ℕ := bits.length
  let p_hat := Double.div (Double.ofNat ones) (Double.ofNat n)
  let p := Double.fin (1 / 2)
  Double.div (Double.sub p_hat p)
    (L.sqrt (Double.div (Double.mul p (Double.sub (Double.ofInt 1) p)) (Double.ofNat n)))

/-- The local `variance` of both `runs_test` methods, computed by the same statements:
`(expected_runs - 1.0) * (expected_runs - 2.0) / (n - 1.0)` with
`expected_runs = 2.0 * n * p * q + 1.0`, `p = ones / n`, `q = 1.0 - p`. -/
def runs_variance (bits : List ℕ) : Double :=
  let n : ℕ := bits.length
  let ones := Double.ofInt (accumulate_int bits)
  let p := Double.div ones (Double.ofNat n)
  let q := Double.sub (Double.fin 1) p
  let expected_runs := Double.add
    (Double.mul (Double.mul (Double.mul (Double.fin 2) (Double.ofNat n)) p) q) (Double.fin 1)
  Double.div
    (Double.mul (Double.sub expected_runs (Double.fin 1)) (Double.sub expected_runs (Double.fin 2)))
    (Double.sub (Double.ofNat n) (Double.fin 1))

/-- The structure `QRNGResult` with its default member values (the field
`generation_time_ms`, a wall-clock measurement, is left out). -/
structure QRNGResult where
  random_bits : List ℕ := []
  error_message : String := ""
  ones : ℕ := 0
  zeros : ℕ := 0
  chi_square : Double := Double.fin 0
  runs_pvalue : Double := Double.fin 0
  shannon_entropy : Double := Double.fin 0
  min_entropy : Double := Double.fin 0
  all_tests_passed : Bool := false

/-- The class `QRNG`: its only member is the configuration. -/
structure QRNG where
  config_ : QRNGConfig := {}

namespace QRNG

/-- The constructor `QRNG(const QRNGConfig&)`; an error is the thrown
`std::invalid_argument`. -/
def create (config : QRNGConfig) : Except String QRNG :=
  if config.num_qubits ≤ 0 then Except.error "Number of qubits must be at least 1"
  else if config.num_shots ≤ 0 then Except.error "Number of shots must be at least 1"
  else Except.ok { config_ := config }

/-- The method `generate_random_bits(count)`.  `now` is the clock reading used when the
configured seed is 0; an error is the exception of `std::vector<uint8_t> bits(count)`. -/
def generate_random_bits (L : StdLib) (q : QRNG) (now : ℕ) (count : ℕ) :
    Except String (List ℕ) :=
  if vector_max_size < count then Except.error L.length_error_what
  else
    let seed := if q.config_.seed ≠ 0 then q.config_.seed else now
    match q.config_.algorithm with
    | AlgorithmType.MERSENNE_TWISTER =>
      Except.ok (fill L.uniform_int_distribution count (L.mt_seed seed))
    | AlgorithmType.XOSHIRO =>
      Except.ok (fill (fun g => ((Xoshiro256.next g).1 &&& 1, (Xoshiro256.next g).2)) count
        (Xoshiro256.seeded L seed))
    | AlgorithmType.PCG =>
      Except.ok (fill (fun g => ((PCG.next g).1 &&& 1, (PCG.next g).2)) count (PCG.seeded seed))
    | AlgorithmType.QUANTUM_SIMULATED =>
      Except.ok (fill (quantum_step L) count (L.mt_seed seed))

/-- The method `frequency_test`. -/
def frequency_test (L : StdLib) (bits : List ℕ) : Double :=
  let ones : ℕ := toSizeT (accumulate_int bits)
  let n : ℕ := bits.length
  let p_hat := Double.div (Double.ofNat ones) (Double.ofNat n)
  let p := Double.fin (1 / 2)
  let z := Double.div (Double.sub p_hat p)
    (L.sqrt (Double.div (Double.mul p (Double.sub (Double.ofInt 1) p)) (Double.ofNat n)))
  Double.mul (Double.fin 2) (Double.sub (Double.fin 1)
    (Double.mul (Double.fin (1 / 2))
      (Double.add (Double.fin 1) (L.erf (Double.div (Double.abs z) (L.sqrt (Double.fin 2)))))))

/-- The method `runs_test`. -/
def runs_test (L : StdLib) (bits : List ℕ) : Double :=
  let n : ℕ := bits.length
  if n < 10 then Double.fin 0
  else
    let runs : ℕ := 1 + count_changes bits
    let ones := Double.ofInt (accumulate_int bits)
    let p := Double.div ones (Double.ofNat n)
    let q := Double.sub (Double.fin 1) p
    let expected_runs := Double.add
      (Double.mul (Double.mul (Double.mul (Double.fin 2) (Double.ofNat n)) p) q) (Double.fin 1)
    let variance := Double.div
      (Double.mul (Double.sub expected_runs (Double.fin 1)) (Double.sub expected_runs (Double.fin 2)))
      (Double.sub (Double.ofNat n) (Double.fin 1))
    if Double.eq variance (Double.fin 0) then Double.fin 0
    else
      let z := Double.div (Double.sub (Double.ofNat runs) expected_runs) (L.sqrt variance)
      Double.mul (Double.fin 2) (Double.sub (Double.fin 1)
        (Double.mul (Double.fin (1 / 2))
          (Double.add (Double.fin 1) (L.erf (Double.div (Double.abs z) (L.sqrt (Double.fin 2)))))))

/-- The method `chi_square_test`. -/
def chi_square_test (L : StdLib) (bits : List ℕ) : Double :=
  L.erfc (L.sqrt (Double.div (chi_square_statistic bits) (Double.fin 2)))

/-- The method `calculate_shannon_entropy`. -/
def calculate_shannon_entropy (L : StdLib) (bits : List ℕ) : Double :=
  if bits.isEmpty then Double.fin 0
  else
    let p1 := Double.div (accumulate_double bits) (Double.ofNat bits.length)
    let p0 := Double.sub (Double.fin 1) p1
    let e0 := Double.fin 0
    let e1 := if Double.gt p0 (Double.fin 0) then Double.sub e0 (Double.mul p0 (L.log2 p0)) else e0
    if Double.gt p1 (Double.fin 0) then Double.sub e1 (Double.mul p1 (L.log2 p1)) else e1

/-- The method `calculate_min_entropy`. -/
def calculate_min_entropy (L : StdLib) (bits : List ℕ) : Double :=
  if bits.isEmpty then Double.fin 0
  else
    let ones : ℕ := toSizeT (accumulate_int bits)
    let max_p := Double.max (Double.div (Double.ofNat ones) (Double.ofNat bits.length))
      (Double.sub (Double.fin 1) (Double.div (Double.ofNat ones) (Double.ofNat bits.length)))
    Double.neg (L.log2 max_p)

/-- The method `generate()`.  The `try` block either completes, or the exception of
`generate_random_bits` leaves every other member at its default value. -/
def generate (L : StdLib) (q : QRNG) (now : ℕ) : QRNGResult :=
  match generate_random_bits L q now
      (toSizeT (toInt32 (q.config_.num_shots * q.config_.num_qubits))) with
  | Except.error what =>
    { error_message := "QRNG generation failed: " ++ what, all_tests_passed := false }
  | Except.ok bits =>
    { random_bits := bits
      all_tests_passed := true
      ones := toSizeT (accumulate_int bits)
      zeros := (bits.length + (2 ^ 64 - toSizeT (accumulate_int bits))) % 2 ^ 64
      chi_square := chi_square_test L bits
      runs_pvalue := runs_test L bits
      shannon_entropy := calculate_shannon_entropy L bits
      min_entropy := calculate_min_entropy L bits }

/-- The method `generate(qubits, shots)`: a temporary `QRNG` is constructed from the stored
configuration with the two counts replaced, and asked to generate. -/
def generate_with (L : StdLib) (q : QRNG) (now : ℕ) (qubits shots : ℤ) :
    Except String QRNGResult :=
  match create { q.config_ with num_qubits := qubits, num_shots := shots } with
  | Except.error e => Except.error e
  | Except.ok temp_qrng => Except.ok (generate L temp_qrng now)

end QRNG

/-! ### The threshold-based tester of `randomness_tester.cpp` -/

/-- Modelled from the spec: the structure `RandomnessTestConfig` is declared in the header
`randomness_tester.h`, which is missing; the members are the three the constructor reads
(the significance level `alpha`, a `double`; `block_size`; `template_length`). -/
structure RandomnessTestConfig where
  alpha : Double
  block_size : ℕ
  template_length : ℤ

/-- Modelled from the spec: the structure `RandomnessTestResult` is declared in the missing
header `randomness_tester.h`; the members are the six that `test` assigns. -/
structure RandomnessTestResult where
  frequency_pvalue : Double
  frequency_test_passed : Bool
  runs_pvalue : Double
  runs_test_passed : Bool
  chi_square_pvalue : Double
  chi_square_test_passed : Bool

/-- The class `RandomnessTester`: its only member is the configuration. -/
structure RandomnessTester where
  config_ : RandomnessTestConfig

namespace RandomnessTester

/-- The constructor `RandomnessTester(const RandomnessTestConfig&)`; an error is the thrown
`std::invalid_argument`. -/
def create (config : RandomnessTestConfig) : Except String RandomnessTester :=
  if Double.le config.alpha (Double.fin 0) || Double.ge config.alpha (Double.fin 1) then
    Except.error "Significance level alpha must be between 0 and 1"
  else if config.block_size = 0 then Except.error "Block size must be at least 1"
  else if config.template_length < 2 then Except.error "Template length must be at least 2"
  else Except.ok { config_ := config }

/-- The method `normal_cdf`. -/
def normal_cdf (L : StdLib) (x : Double) : Double :=
  Double.mul (Double.fin (1 / 2)) (Double.add (Double.fin 1) (L.erf (Double.div x (L.sqrt (Double.fin 2)))))

/-- The method `erfc` of the tester: `1.0 - std::erf(x)`. -/
def erfc (L : StdLib) (x : Double) : Double := Double.sub (Double.fin 1) (L.erf x)

/-- The method `calculate_p_value`. -/
def calculate_p_value (L : StdLib) (chi_square : Double) (degrees_of_freedom : ℕ) : Double :=
  if degrees_of_freedom = 1 then erfc L (L.sqrt (Double.div chi_square (Double.fin 2)))
  else L.exp (Double.div (Double.neg chi_square) (Double.fin 2))

/-- The method `frequency_test`. -/
def frequency_test (L : StdLib) (bits : List ℕ) : Double :=
  if bits.isEmpty then Double.fin 0
  else
    let ones : ℕ := toSizeT (accumulate_int bits)
    let n : ℕ := bits.length
    let p_hat := Double.div (Double.ofNat ones) (Double.ofNat n)
    let p := Double.fin (1 / 2)
    let z := Double.div (Double.sub p_hat p)
      (L.sqrt (Double.div (Double.mul p (Double.sub (Double.ofInt 1) p)) (Double.ofNat n)))
    Double.mul (Double.fin 2) (Double.sub (Double.fin 1) (normal_cdf L (Double.abs z)))

/-- The method `runs_test`. -/
def runs_test (L : StdLib) (bits : List ℕ) : Double :=
  let n : ℕ := bits.length
  if n < 10 then Double.fin 0
  else
    let runs : ℕ := 1 + count_changes bits
    let ones := Double.ofInt (accumulate_int bits)
    let p := Double.div ones (Double.ofNat n)
    let q := Double.sub (Double.fin 1) p
    let expected_runs := Double.add
      (Double.mul (Double.mul (Double.mul (Double.fin 2) (Double.ofNat n)) p) q) (Double.fin 1)
    let variance := Double.div
      (Double.mul (Double.sub expected_runs (Double.fin 1)) (Double.sub expected_runs (Double.fin 2)))
      (Double.sub (Double.ofNat n) (Double.fin 1))
    if Double.eq variance (Double.fin 0) then Double.fin 0
    else
      let z := Double.div (Double.sub (Double.ofNat runs) expected_runs) (L.sqrt variance)
      Double.mul (Double.fin 2) (Double.sub (Double.fin 1) (normal_cdf L (Double.abs z)))

/-- The method `chi_square_test`. -/
def chi_square_test (L : StdLib) (bits : List ℕ) : Double :=
  calculate_p_value L (chi_square_statistic bits) 1

/-- The static method `calculate_shannon_entropy` of the tester. -/
def calculate_shannon_entropy (L : StdLib) (bits : List ℕ) : Double :=
  if bits.isEmpty then Double.fin 0
  else
    let p1 := Double.div (accumulate_double bits) (Double.ofNat bits.length)
    let p0 := Double.sub (Double.fin 1) p1
    let e0 := Double.fin 0
    let e1 := if Double.gt p0 (Double.fin 0) then Double.sub e0 (Double.mul p0 (L.log2 p0)) else e0
    if Double.gt p1 (Double.fin 0) then Double.sub e1 (Double.mul p1 (L.log2 p1)) else e1

/-- The static method `calculate_min_entropy` of the tester. -/
def calculate_min_entropy (L : StdLib) (bits : List ℕ) : Double :=
  if bits.isEmpty then Double.fin 0
  else
    let ones : ℕ := toSizeT (accumulate_int bits)
    let max_p := Double.max (Double.div (Double.ofNat ones) (Double.ofNat bits.length))
      (Double.sub (Double.fin 1) (Double.div (Double.ofNat ones) (Double.ofNat bits.length)))
    Double.neg (L.log2 max_p)

/-- The method `test`: the three p-values, each compared with `alpha`. -/
def test (L : StdLib) (t : RandomnessTester) (bits : List ℕ) : RandomnessTestResult :=
  { frequency_pvalue := frequency_test L bits
    frequency_test_passed := Double.ge (frequency_test L bits) t.config_.alpha
    runs_pvalue := runs_test L bits
    runs_test_passed := Double.ge (runs_test L bits) t.config_.alpha
    chi_square_pvalue := chi_square_test L bits
    chi_square_test_passed := Double.ge (chi_square_test L bits) t.config_.alpha }

end RandomnessTester

/-! ### A concrete standard library -/

/-- A small concrete standard library: a 64-bit congruential engine and coarse `<cmath>`
functions that are exact at the few arguments named in the theorems below.  It instantiates
the library parameter in the examples. -/
def sampleLib : StdLib where
  Engine := ℕ
  mt_seed := fun seed => seed % 2 ^ 64
  mt_next := fun g =>
    ((g * 6364136223846793005 + 1442695040888963407) % 2 ^ 64,
     (g * 6364136223846793005 + 1442695040888963407) % 2 ^ 64)
  uniform_int_distribution := fun g =>
    (((g * 6364136223846793005 + 1442695040888963407) % 2 ^ 64) / 2 ^ 63,
     (g * 6364136223846793005 + 1442695040888963407) % 2 ^ 64)
  uniform_real_distribution := fun g =>
    (Double.fin ((((g * 6364136223846793005 + 1442695040888963407) % 2 ^ 64 / 2 ^ 11 : ℕ) : ℚ)
        / 2 ^ 53),
     (g * 6364136223846793005 + 1442695040888963407) % 2 ^ 64)
  sqrt := fun x =>
    match x with
    | Double.fin q => if q < 0 then Double.nan else if q = 0 then Double.fin 0
        else Double.fin ((q + 1) / 2)
    | Double.pinf => Double.pinf
    | _ => Double.nan
  erf := fun x =>
    match x with
    | Double.fin q => if q = 0 then Double.fin 0 else if 0 < q then Double.fin 1
        else Double.fin (-1)
    | Double.pinf => Double.fin 1
    | Double.ninf => Double.fin (-1)
    | Double.nan => Double.nan
  erfc := fun x =>
    match x with
    | Double.fin q => if q = 0 then Double.fin 1 else if 0 < q then Double.fin 0
        else Double.fin 2
    | Double.pinf => Double.fin 0
    | Double.ninf => Double.fin 2
    | Double.nan => Double.nan
  log2 := fun x =>
    match x with
    | Double.fin q => if q < 0 then Double.nan else if q = 0 then Double.ninf
        else Double.fin (Int.log 2 q)
    | Double.pinf => Double.pinf
    | _ => Double.nan
  exp := fun x =>
    match x with
    | Double.fin q => if q = 0 then Double.fin 1 else if 0 < q then Double.fin 3
        else Double.fin (1 / 3)
    | Double.pinf => Double.pinf
    | Double.ninf => Double.fin 0
    | Double.nan => Double.nan
  length_error_what := "cannot create std::vector larger than max_size()"

/-! ### A standard library with an IEEE square root and saturating tails -/

/-- The correctly rounded square root that IEEE 754 prescribes for `std::sqrt`, on a positive
rational `q`: the `double` nearest to `√q`.  With `e = ⌊log2 √q⌋` the result is
`m * 2^(e - 52)`, where `m` is the integer nearest to `√t`, `t = q / 4^(e - 52)`: the integer
square root `m0` of `⌊t⌋`, or `m0 + 1` when `t > (m0 + 1/2)^2`. -/
def Double.sqrtPos (q : ℚ) : ℚ :=
  let e : ℤ := Int.log 2 q / 2
  let t : ℚ := q / ((2 : ℚ) ^ (e - 52)) ^ 2
  let m0 : ℕ := Nat.sqrt ⌊t⌋₊
  let m : ℕ := if (m0 : ℚ) ^ 2 + m0 + 1 / 4 < t then m0 + 1 else m0
  (m : ℚ) * (2 : ℚ) ^ (e - 52)

/-- A second concrete standard library, which behaves in the tails as a C library does in
binary64: `std::sqrt` is the correctly rounded square root; `std::erf` returns exactly 1 from
6 on (there `1 - erf(x) < 2^-54`), while `std::erfc` is still positive up to 27 (a C library
returns `erfc(x)` itself there, about `1.3e-57` at `x = 11.3`; the least positive `double`
stands for it).  Between `-6` and `6` the two functions are coarse: a straight line.  The
engine, `log2` and `exp` are those of `sampleLib`. -/
def tailLib : StdLib where
  Engine := sampleLib.Engine
  mt_seed := sampleLib.mt_seed
  mt_next := sampleLib.mt_next
  uniform_int_distribution := sampleLib.uniform_int_distribution
  uniform_real_distribution := sampleLib.uniform_real_distribution
  sqrt := fun x =>
    match x with
    | Double.fin q => if q < 0 then Double.nan else if q = 0 then Double.fin 0
        else Double.fin (Double.sqrtPos q)
    | Double.pinf => Double.pinf
    | _ => Double.nan
  erf := fun x =>
    match x with
    | Double.fin q => if 6 ≤ q then Double.fin 1 else if q ≤ -6 then Double.fin (-1)
        else Double.round (q / 6)
    | Double.pinf => Double.fin 1
    | Double.ninf => Double.fin (-1)
    | Double.nan => Double.nan
  erfc := fun x =>
    match x with
    | Double.fin q => if 27 ≤ q then Double.fin 0 else if 6 ≤ q then Double.fin (1 / 2 ^ 1074)
        else if q ≤ -6 then Double.fin 2 else Double.round (1 - q / 6)
    | Double.pinf => Double.fin 0
    | Double.ninf => Double.fin 2
    | Double.nan => Double.nan
  log2 := sampleLib.log2
  exp := sampleLib.exp
  length_error_what := sampleLib.length_error_what

/-! ### A standard library with an accurate base-2 logarithm -/

/-- A rational approximation of `log2 q` for a positive rational `q`: with `k` such that
`q / 2^k` lies in `[3/4, 3/2)` and `t = 1 - q / 2^k`, eight terms of the series
`-ln(1 - t) = t + t^2/2 + t^3/3 + ...`, scaled by `1.442695` for `1 / ln 2`.  The value is
exact at the powers of 2, and within `10^-5` of `log2 q` where `|t| ≤ 1/5`. -/
def Double.log2Approx (q : ℚ) : ℚ :=
  let k : ℤ := Int.log 2 (q * 4 / 3)
  let t : ℚ := 1 - q / (2 : ℚ) ^ k
  (k : ℚ) - (∑ i ∈ Finset.range 8, t ^ (i + 1) / ((i : ℚ) + 1)) * (1442695 / 1000000)

/-- A third concrete standard library: `tailLib` with `std::log2` replaced by the rounded
value of `Double.log2Approx`, which is accurate to better than `10^-3` on `[0.4, 0.6]` (a C
library is accurate to about `10^-16`). -/
def logLib : StdLib where
  Engine := tailLib.Engine
  mt_seed := tailLib.mt_seed
  mt_next := tailLib.mt_next
  uniform_int_distribution := tailLib.uniform_int_distribution
  uniform_real_distribution := tailLib.uniform_real_distribution
  sqrt := tailLib.sqrt
  erf := tailLib.erf
  erfc := tailLib.erfc
  log2 := fun x =>
    match x with
    | Double.fin q => if q < 0 then Double.nan else if q = 0 then Double.ninf
        else Double.round (Double.log2Approx q)
    | Double.pinf => Double.pinf
    | _ => Double.nan
  exp := tailLib.exp
  length_error_what := tailLib.length_error_what

/-- The accuracy that the entropy bound asks of `std::log2`: on every argument between `0.4`
and `0.6` the result is finite and within `10^-3` of the base-2 logarithm. -/
def Log2Accurate (L : StdLib) : Prop :=
  ∀ x : ℚ, 2 / 5 ≤ x → x ≤ 3 / 5 →
    ∃ l : ℚ, L.log2 (Double.fin x) = Double.fin l ∧ |(l : ℝ) - Real.logb 2 (x : ℝ)| ≤ 1 / 1000

/-! ### The accuracy asked of `std::sqrt` -/

/-- The accuracy that the comparison of the two test statistics asks of `std::sqrt`: on every
positive `double` `q` the result `s` is positive and finite with `|s * s - q| ≤ q / 2^51`.
The correctly rounded square root of IEEE 754 meets it, since `|s - √q| ≤ √q / 2^53`. -/
def SqrtAccurate (L : StdLib) : Prop :=
  ∀ q : ℚ, 0 < q → Double.rnd q = q →
    ∃ s : ℚ, 0 < s ∧ L.sqrt (Double.fin q) = Double.fin s ∧ |s * s - q| ≤ q / 2 ^ 51

/-! ## Part II: lemmas and theorems -/

/-! ### Rounding to binary64 -/

namespace Double

theorem rne_intCast (z : ℤ) : rne (z : ℚ) = z := by
  unfold rne
  simp

theorem rne_floor_le (q : ℚ) : ⌊q⌋ ≤ rne q := by
  unfold rne
  split_ifs <;> omega

theorem rne_le_floor_succ (q : ℚ) : rne q ≤ ⌊q⌋ + 1 := by
  unfold rne
  split_ifs <;> omega

theorem rne_mono {a b : ℚ} (h : a ≤ b) : rne a ≤ rne b := by
  have hf : ⌊a⌋ ≤ ⌊b⌋ := Int.floor_mono h
  rcases hf.lt_or_eq with hlt | heq
  · calc rne a ≤ ⌊a⌋ + 1 := rne_le_floor_succ a
      _ ≤ ⌊b⌋ := hlt
      _ ≤ rne b := rne_floor_le b
  · unfold rne
    rw [heq]
    have hab : a - ⌊b⌋ ≤ b - ⌊b⌋ := by linarith
    split_ifs <;> first | omega | linarith

theorem rne_sub_abs_le (q : ℚ) : |(rne q : ℚ) - q| ≤ 1 / 2 := by
  have h1 := Int.floor_le q
  have h2 := Int.lt_floor_add_one q
  unfold rne
  rw [abs_le]
  split_ifs <;> push_cast <;> constructor <;> linarith

theorem rne_neg (q : ℚ) : rne (-q) = - rne q := by
  unfold rne
  by_cases hq : (⌊q⌋ : ℚ) = q
  · have h1 : ⌊-q⌋ = -⌊q⌋ := by
      rw [← hq]; rw [← Int.cast_neg, Int.floor_intCast, Int.floor_intCast]
    rw [h1]
    have h2 : q - ⌊q⌋ = 0 := by linarith
    have h3 : -q - ((-⌊q⌋ : ℤ) : ℚ) = 0 := by push_cast; linarith
    rw [h2, h3]
    norm_num
  · have hlt : (⌊q⌋ : ℚ) < q := lt_of_le_of_ne (Int.floor_le q) hq
    have h2 := Int.lt_floor_add_one q
    have h1 : ⌊-q⌋ = -⌊q⌋ - 1 := by
      rw [Int.floor_eq_iff]
      push_cast
      constructor <;> linarith
    rw [h1]
    have h3 : -q - ((-⌊q⌋ - 1 : ℤ) : ℚ) = 1 - (q - ⌊q⌋) := by push_cast; ring
    rw [h3]
    split_ifs <;> first | omega | linarith

theorem two_cast : ((2 : ℕ) : ℚ) = 2 := by norm_num

theorem log_le_iff {x : ℤ} {r : ℚ} (hr : 0 < r) : (2 : ℚ) ^ x ≤ r ↔ x ≤ Int.log 2 r := by
  have h := @Int.zpow_le_iff_le_log ℚ _ _ 2 (by norm_num) x r hr
  rwa [two_cast] at h

theorem lt_iff_log {x : ℤ} {r : ℚ} (hr : 0 < r) : r < (2 : ℚ) ^ x ↔ Int.log 2 r < x := by
  have h := @Int.lt_zpow_iff_log_lt ℚ _ _ 2 (by norm_num) x r hr
  rwa [two_cast] at h

theorem binade_ge (q : ℚ) : -1022 ≤ binade q := le_max_right _ _

theorem log_le_binade (q : ℚ) : Int.log 2 |q| ≤ binade q := le_max_left _ _

theorem ulp_pos (q : ℚ) : 0 < ulp q := zpow_pos (by norm_num) _

theorem binade_neg (q : ℚ) : binade (-q) = binade q := by
  unfold binade; rw [abs_neg]

theorem ulp_neg (q : ℚ) : ulp (-q) = ulp q := by
  unfold ulp; rw [binade_neg]

theorem abs_lt_zpow_binade (q : ℚ) : |q| < (2 : ℚ) ^ (binade q + 1) := by
  have h := @Int.lt_zpow_succ_log_self ℚ _ _ 2 (by norm_num) |q|
  rw [two_cast] at h
  exact lt_of_lt_of_le h (zpow_le_zpow_right₀ (by norm_num) (by have := log_le_binade q; omega))

theorem binade_eq_log {q : ℚ} (h : (2 : ℚ) ^ (-1022 : ℤ) ≤ |q|) : binade q = Int.log 2 |q| := by
  have hpos : 0 < |q| := lt_of_lt_of_le (zpow_pos (by norm_num) _) h
  have := (log_le_iff hpos).1 h
  unfold binade
  exact max_eq_left this

theorem zpow_binade_le {q : ℚ} (h : (2 : ℚ) ^ (-1022 : ℤ) ≤ |q|) : (2 : ℚ) ^ binade q ≤ |q| := by
  have hpos : 0 < |q| := lt_of_lt_of_le (zpow_pos (by norm_num) _) h
  rw [binade_eq_log h]
  exact (log_le_iff hpos).2 le_rfl

theorem binade_of_small {q : ℚ} (hq : q ≠ 0) (h : |q| < (2 : ℚ) ^ (-1022 : ℤ)) :
    binade q = -1022 := by
  unfold binade
  apply max_eq_right
  have := (lt_iff_log (abs_pos.2 hq)).1 h
  omega

theorem binade_eq_of_bounds {q : ℚ} {e : ℤ} (he : -1022 ≤ e) (h1 : (2 : ℚ) ^ e ≤ |q|)
    (h2 : |q| < (2 : ℚ) ^ (e + 1)) : binade q = e := by
  have hpos : 0 < |q| := lt_of_lt_of_le (zpow_pos (by norm_num) _) h1
  have a1 := (log_le_iff hpos).1 h1
  have a2 := (lt_iff_log hpos).1 h2
  unfold binade
  rw [max_eq_left (by omega)]
  omega

theorem binade_mono {a b : ℚ} (ha : 0 < |a|) (h : |a| ≤ |b|) : binade a ≤ binade b := by
  unfold binade
  exact max_le_max (Int.log_mono_right ha h) le_rfl

theorem rnd_zero : rnd 0 = 0 := by
  unfold rnd
  simp [rne]

theorem rnd_neg (q : ℚ) : rnd (-q) = - rnd q := by
  unfold rnd
  rw [ulp_neg, neg_div, rne_neg]
  push_cast
  ring

theorem rnd_nonneg {q : ℚ} (h : 0 ≤ q) : 0 ≤ rnd q := by
  unfold rnd
  have h1 : 0 ≤ q / ulp q := div_nonneg h (ulp_pos q).le
  have h2 : rne 0 ≤ rne (q / ulp q) := rne_mono h1
  have h0 : rne (0 : ℚ) = 0 := by simpa using rne_intCast 0
  rw [h0] at h2
  exact mul_nonneg (by exact_mod_cast h2) (ulp_pos q).le

theorem rnd_nonpos {q : ℚ} (h : q ≤ 0) : rnd q ≤ 0 := by
  have := rnd_nonneg (neg_nonneg.2 h)
  rw [rnd_neg] at this
  linarith

theorem ulp_mul_two_pow (q : ℚ) (k : ℕ) : ulp q * 2 ^ k = (2 : ℚ) ^ (binade q - 52 + k) := by
  unfold ulp
  rw [zpow_add₀ (by norm_num), zpow_natCast]

/-- A non-negative rational rounds to at most the upper end of its binade. -/
theorem rnd_le_zpow {q : ℚ} (h : 0 ≤ q) : rnd q ≤ (2 : ℚ) ^ (binade q + 1) := by
  have hlt := abs_lt_zpow_binade q
  rw [abs_of_nonneg h] at hlt
  have hu := ulp_pos q
  have e1 : (2 : ℚ) ^ (binade q + 1) = ulp q * 2 ^ 53 := by
    rw [ulp_mul_two_pow]; congr 1; push_cast; ring
  have h1 : q / ulp q ≤ ((2 ^ 53 : ℤ) : ℚ) := by
    rw [div_le_iff₀ hu]; push_cast; rw [e1] at hlt; linarith
  have h2 := rne_mono h1
  rw [rne_intCast] at h2
  unfold rnd
  rw [e1]
  have h3 : (rne (q / ulp q) : ℚ) ≤ 2 ^ 53 := by exact_mod_cast h2
  nlinarith

/-- A rational in the normal range rounds to at least the lower end of its binade. -/
theorem zpow_le_rnd {q : ℚ} (h : (2 : ℚ) ^ (-1022 : ℤ) ≤ q) : (2 : ℚ) ^ binade q ≤ rnd q := by
  have hq : 0 ≤ q := le_trans (zpow_pos (by norm_num) _).le h
  have hle := zpow_binade_le (q := q) (by rwa [abs_of_nonneg hq])
  rw [abs_of_nonneg hq] at hle
  have hu := ulp_pos q
  have e1 : (2 : ℚ) ^ binade q = ulp q * 2 ^ 52 := by
    rw [ulp_mul_two_pow]; congr 1; push_cast; ring
  have h1 : ((2 ^ 52 : ℤ) : ℚ) ≤ q / ulp q := by
    rw [le_div_iff₀ hu]; push_cast; rw [e1] at hle; linarith
  have h2 := rne_mono h1
  rw [rne_intCast] at h2
  unfold rnd
  rw [e1]
  have h3 : (2 ^ 52 : ℚ) ≤ (rne (q / ulp q) : ℚ) := by exact_mod_cast h2
  nlinarith

theorem rnd_mono_nonneg {a b : ℚ} (ha : 0 ≤ a) (h : a ≤ b) : rnd a ≤ rnd b := by
  rcases eq_or_lt_of_le ha with h0 | hpos
  · rw [← h0, rnd_zero]; exact rnd_nonneg (le_trans ha h)
  have hb : 0 ≤ b := le_trans ha h
  have hbin : binade a ≤ binade b :=
    binade_mono (by rwa [abs_of_nonneg ha]) (by rwa [abs_of_nonneg ha, abs_of_nonneg hb])
  rcases hbin.lt_or_eq with hlt | heq
  · have hbn : (2 : ℚ) ^ (-1022 : ℤ) ≤ b := by
      by_contra hcon
      push_neg at hcon
      have := binade_of_small (q := b) (by linarith) (by rwa [abs_of_nonneg hb])
      have := binade_ge a
      omega
    calc rnd a ≤ (2 : ℚ) ^ (binade a + 1) := rnd_le_zpow ha
      _ ≤ (2 : ℚ) ^ binade b := zpow_le_zpow_right₀ (by norm_num) (by omega)
      _ ≤ rnd b := zpow_le_rnd hbn
  · unfold rnd ulp
    rw [heq]
    have hu : (0 : ℚ) < (2 : ℚ) ^ (binade b - 52) := zpow_pos (by norm_num) _
    have h1 : a / (2 : ℚ) ^ (binade b - 52) ≤ b / (2 : ℚ) ^ (binade b - 52) :=
      div_le_div_of_nonneg_right h hu.le
    have h2 := rne_mono h1
    have h3 : (rne (a / (2 : ℚ) ^ (binade b - 52)) : ℚ) ≤ rne (b / (2 : ℚ) ^ (binade b - 52)) := by
      exact_mod_cast h2
    exact mul_le_mul_of_nonneg_right h3 hu.le

/-- Rounding is monotone. -/
theorem rnd_mono {a b : ℚ} (h : a ≤ b) : rnd a ≤ rnd b := by
  rcases le_total 0 a with ha | ha
  · exact rnd_mono_nonneg ha h
  · rcases le_total 0 b with hb | hb
    · exact le_trans (rnd_nonpos ha) (rnd_nonneg hb)
    · have := rnd_mono_nonneg (neg_nonneg.2 hb) (neg_le_neg h)
      rw [rnd_neg, rnd_neg] at this
      linarith

/-- Every `m * 2^x` with a significand of fewer than 54 bits and an exponent within the
subnormal limit is a fixed point of rounding. -/
theorem rnd_exact (m x : ℤ) (hm : |m| < 2 ^ 53) (hx : -1074 ≤ x) :
    rnd ((m : ℚ) * (2 : ℚ) ^ x) = (m : ℚ) * (2 : ℚ) ^ x := by
  by_cases hm0 : m = 0
  · subst hm0; simp [rnd_zero]
  have h2x : (0 : ℚ) < (2 : ℚ) ^ x := zpow_pos (by norm_num) _
  have hmq : |(m : ℚ)| < 2 ^ 53 := by exact_mod_cast hm
  have hqpos : 0 < |(m : ℚ) * (2 : ℚ) ^ x| := by
    rw [abs_pos]; exact mul_ne_zero (by exact_mod_cast hm0) h2x.ne'
  have hlt : |(m : ℚ) * (2 : ℚ) ^ x| < (2 : ℚ) ^ (x + 53) := by
    rw [abs_mul, abs_of_pos h2x, zpow_add₀ (by norm_num), mul_comm]
    have : ((2 : ℚ) ^ (53 : ℤ)) = 2 ^ 53 := by norm_num
    rw [this]
    exact mul_lt_mul_of_pos_left hmq h2x
  have hlog := (lt_iff_log hqpos).1 hlt
  have hb : binade ((m : ℚ) * (2 : ℚ) ^ x) ≤ x + 52 := by
    unfold binade
    exact max_le (by omega) (by omega)
  obtain ⟨k, hk⟩ : ∃ k : ℕ, x = binade ((m : ℚ) * (2 : ℚ) ^ x) - 52 + k :=
    ⟨(x - (binade ((m : ℚ) * (2 : ℚ) ^ x) - 52)).toNat, by omega⟩
  have hdiv : (m : ℚ) * (2 : ℚ) ^ x / ulp ((m : ℚ) * (2 : ℚ) ^ x) = ((m * 2 ^ k : ℤ) : ℚ) := by
    have hu := ulp_pos ((m : ℚ) * (2 : ℚ) ^ x)
    rw [div_eq_iff hu.ne']
    push_cast
    rw [mul_assoc, mul_comm ((2 : ℚ) ^ k), ulp_mul_two_pow, ← hk]
  unfold rnd
  rw [hdiv, rne_intCast, ← hdiv]
  exact div_mul_cancel₀ _ (ulp_pos _).ne'

theorem rnd_natCast (n : ℕ) (h : n < 2 ^ 53) : rnd (n : ℚ) = n := by
  have := rnd_exact (n : ℤ) 0 (by rw [abs_of_nonneg (by positivity)]; exact_mod_cast h) (by norm_num)
  simpa using this

theorem rnd_intCast (i : ℤ) (h : |i| < 2 ^ 53) : rnd (i : ℚ) = i := by
  have := rnd_exact i 0 h (by norm_num)
  simpa using this

theorem rnd_abs_sub_le (q : ℚ) : |rnd q - q| ≤ ulp q / 2 := by
  have hu := ulp_pos q
  have h := rne_sub_abs_le (q / ulp q)
  have e : rnd q - q = ((rne (q / ulp q) : ℚ) - q / ulp q) * ulp q := by
    unfold rnd
    field_simp
  rw [e, abs_mul, abs_of_pos hu]
  nlinarith

theorem ulp_le_of_normal {q : ℚ} (h : (2 : ℚ) ^ (-1022 : ℤ) ≤ |q|) :
    ulp q ≤ |q| / 2 ^ 52 := by
  have h1 := zpow_binade_le h
  unfold ulp
  rw [zpow_sub₀ (by norm_num)]
  have : ((2 : ℚ) ^ (52 : ℤ)) = 2 ^ 52 := by norm_num
  rw [this]
  exact div_le_div_of_nonneg_right h1 (by positivity)

/-- Relative error of rounding in the normal range: at most `2^-53`. -/
theorem rnd_rel_error {q : ℚ} (h : (2 : ℚ) ^ (-1022 : ℤ) ≤ |q|) :
    |rnd q - q| ≤ |q| / 2 ^ 53 := by
  have h1 := rnd_abs_sub_le q
  have h2 := ulp_le_of_normal h
  have e : |q| / 2 ^ 53 = |q| / 2 ^ 52 / 2 := by ring
  rw [e]
  linarith

theorem binade_two_mul {q : ℚ} (h : (2 : ℚ) ^ (-1022 : ℤ) ≤ |q|) :
    binade (2 * q) = binade q + 1 := by
  have h1 := zpow_binade_le h
  have h2 := abs_lt_zpow_binade q
  have hb := binade_ge q
  apply binade_eq_of_bounds (by omega)
  · rw [abs_mul, zpow_add₀ (by norm_num), mul_comm]
    simp only [zpow_one, abs_two]
    linarith
  · rw [abs_mul, zpow_add₀ (by norm_num : (2 : ℚ) ≠ 0) (binade q + 1) 1, mul_comm]
    simp only [zpow_one, abs_two]
    linarith

/-- In the normal range rounding commutes with doubling. -/
theorem rnd_two_mul {q : ℚ} (h : (2 : ℚ) ^ (-1022 : ℤ) ≤ |q|) : rnd (2 * q) = 2 * rnd q := by
  have hu : ulp (2 * q) = 2 * ulp q := by
    unfold ulp
    rw [binade_two_mul h]
    have : binade q + 1 - 52 = (binade q - 52) + 1 := by ring
    rw [this, zpow_add₀ (by norm_num)]
    simp only [zpow_one]
    ring
  unfold rnd
  rw [hu]
  have : 2 * q / (2 * ulp q) = q / ulp q := by
    have := ulp_pos q
    field_simp
    ring
  rw [this]
  ring

theorem round_ne_nan (q : ℚ) : round q ≠ nan := by
  unfold round
  split_ifs <;> simp

theorem round_of_lt {q : ℚ} (h : |rnd q| < 2 ^ 1024) : round q = fin (rnd q) := by
  unfold round
  rw [if_neg (not_le.2 h)]

theorem round_exact {q : ℚ} (hq : rnd q = q) (h : |q| < 2 ^ 1024) : round q = fin q := by
  have := round_of_lt (q := q) (by rwa [hq])
  rwa [hq] at this

/-- Rounding keeps a value between two representable bounds. -/
theorem round_between {a b q : ℚ} (ha : rnd a = a) (hb : rnd b = b) (hab : a ≤ q) (hqb : q ≤ b)
    (hla : -(2 ^ 1024) < a) (hlb : b < 2 ^ 1024) :
    round q = fin (rnd q) ∧ a ≤ rnd q ∧ rnd q ≤ b := by
  have h1 : a ≤ rnd q := by have := rnd_mono hab; rwa [ha] at this
  have h2 : rnd q ≤ b := by have := rnd_mono hqb; rwa [hb] at this
  refine ⟨round_of_lt ?_, h1, h2⟩
  rw [abs_lt]
  constructor <;> linarith

theorem round_zero : round 0 = fin 0 := by
  have := round_exact (q := 0) rnd_zero (by norm_num)
  exact this

theorem ofNat_exact (n : ℕ) (h : n < 2 ^ 53) : ofNat n = fin n := by
  unfold ofNat
  apply round_exact (rnd_natCast n h)
  rw [abs_of_nonneg (by positivity)]
  have : (n : ℚ) < 2 ^ 53 := by exact_mod_cast h
  linarith [show (2 : ℚ) ^ 53 < 2 ^ 1024 by norm_num]

theorem ofInt_exact (i : ℤ) (h : |i| < 2 ^ 53) : ofInt i = fin i := by
  unfold ofInt
  apply round_exact (rnd_intCast i h)
  have : |(i : ℚ)| < 2 ^ 53 := by exact_mod_cast h
  linarith [show (2 : ℚ) ^ 53 < 2 ^ 1024 by norm_num]

/-- A dyadic rational `m / 2^k` with `|m| < 2^53` and `k ≤ 1074` is a `double`. -/
theorem rnd_dyadic (m : ℤ) (k : ℕ) (hm : |m| < 2 ^ 53) (hk : k ≤ 1074) :
    rnd ((m : ℚ) / 2 ^ k) = (m : ℚ) / 2 ^ k := by
  have := rnd_exact m (-(k : ℤ)) hm (by omega)
  rw [zpow_neg, zpow_natCast] at this
  simpa [div_eq_mul_inv] using this

theorem round_dyadic (m : ℤ) (k : ℕ) (hm : |m| < 2 ^ 53) (hk : k ≤ 1074) :
    round ((m : ℚ) / 2 ^ k) = fin ((m : ℚ) / 2 ^ k) := by
  apply round_exact (rnd_dyadic m k hm hk)
  have h1 : |(m : ℚ)| < 2 ^ 53 := by exact_mod_cast hm
  rw [abs_div, abs_of_pos (by positivity : (0 : ℚ) < 2 ^ k)]
  have h2 : (1 : ℚ) ≤ 2 ^ k := one_le_pow₀ (by norm_num)
  have h3 : |(m : ℚ)| / 2 ^ k ≤ |(m : ℚ)| := div_le_self (abs_nonneg _) h2
  linarith [show (2 : ℚ) ^ 53 < 2 ^ 1024 by norm_num]

end Double

/-! ### Loops and integer sums -/

theorem fill_length {S : Type} (step : S → ℕ × S) (n : ℕ) (s : S) :
    (fill step n s).length = n := by
  induction n generalizing s with
  | zero => rfl
  | succ k ih => simp [fill, ih]

theorem fill_le_one {S : Type} (step : S → ℕ × S) (hstep : ∀ s, (step s).1 ≤ 1) (n : ℕ) (s : S) :
    ∀ b ∈ fill step n s, b ≤ 1 := by
  induction n generalizing s with
  | zero => intro b hb; simp [fill] at hb
  | succ k ih =>
    intro b hb
    simp only [fill, List.mem_cons] at hb
    rcases hb with h | h
    · rw [h]; exact hstep s
    · exact ih _ b h

theorem quantum_step_le_one (L : StdLib) (g : L.Engine) : (quantum_step L g).1 ≤ 1 := by
  unfold quantum_step
  dsimp only
  split <;> omega

theorem toInt32_of_range (i : ℤ) (h0 : -(2 ^ 31) ≤ i) (h1 : i < 2 ^ 31) : toInt32 i = i := by
  unfold toInt32
  omega

theorem toInt32_range (i : ℤ) : -(2 ^ 31) ≤ toInt32 i ∧ toInt32 i < 2 ^ 31 := by
  unfold toInt32
  omega

theorem toInt32_add_toInt32 (a b : ℤ) : toInt32 (toInt32 a + b) = toInt32 (a + b) := by
  unfold toInt32
  omega

theorem foldl_toInt32 (bits : List ℕ) (a : ℤ) :
    List.foldl (fun (acc : ℤ) (b : ℕ) => toInt32 (acc + (b : ℤ))) (toInt32 a) bits
      = toInt32 (a + ((bits.sum : ℕ) : ℤ)) := by
  induction bits generalizing a with
  | nil => simp
  | cons x xs ih =>
    simp only [List.foldl_cons, List.sum_cons, toInt32_add_toInt32]
    rw [ih]
    congr 1
    push_cast
    ring

theorem accumulate_int_eq (bits : List ℕ) : accumulate_int bits = toInt32 ((bits.sum : ℕ) : ℤ) := by
  unfold accumulate_int
  have h := foldl_toInt32 bits 0
  have h0 : toInt32 0 = 0 := by decide
  rw [h0] at h
  simpa using h

theorem sum_eq_count_one (bits : List ℕ) (h : ∀ b ∈ bits, b ≤ 1) : bits.sum = bits.count 1 := by
  induction bits with
  | nil => rfl
  | cons x xs ih =>
    have hx : x ≤ 1 := h x (List.mem_cons_self _ _)
    have hxs : ∀ b ∈ xs, b ≤ 1 := fun b hb => h b (List.mem_cons_of_mem _ hb)
    rw [List.sum_cons, ih hxs, List.count_cons]
    interval_cases x <;> simp
    omega

theorem count_zero_add_count_one (bits : List ℕ) (h : ∀ b ∈ bits, b ≤ 1) :
    bits.count 0 + bits.count 1 = bits.length := by
  induction bits with
  | nil => rfl
  | cons x xs ih =>
    have hx : x ≤ 1 := h x (List.mem_cons_self _ _)
    have hxs : ∀ b ∈ xs, b ≤ 1 := fun b hb => h b (List.mem_cons_of_mem _ hb)
    have := ih hxs
    rw [List.count_cons, List.count_cons, List.length_cons]
    interval_cases x <;> simp <;> omega

/-! ### The generator: length, bit values, counts, validation, determinism -/

theorem generate_random_bits_ok (L : StdLib) (q : QRNG) (now count : ℕ)
    (h : count ≤ vector_max_size) :
    ∃ bits, QRNG.generate_random_bits L q now count = Except.ok bits ∧ bits.length = count ∧
      ((∀ g, (L.uniform_int_distribution g).1 ≤ 1) → ∀ b ∈ bits, b ≤ 1) := by
  unfold QRNG.generate_random_bits
  rw [if_neg (by omega)]
  cases q.config_.algorithm
  · exact ⟨_, rfl, fill_length _ _ _, fun hL => fill_le_one _ hL _ _⟩
  · exact ⟨_, rfl, fill_length _ _ _, fun _ => fill_le_one _ (fun s => Nat.and_le_right) _ _⟩
  · exact ⟨_, rfl, fill_length _ _ _, fun _ => fill_le_one _ (fun s => Nat.and_le_right) _ _⟩
  · exact ⟨_, rfl, fill_length _ _ _, fun _ => fill_le_one _ (quantum_step_le_one L) _ _⟩

theorem generate_random_bits_error (L : StdLib) (q : QRNG) (now count : ℕ)
    (h : vector_max_size < count) :
    QRNG.generate_random_bits L q now count = Except.error L.length_error_what := by
  unfold QRNG.generate_random_bits
  rw [if_pos h]

theorem toSizeT_toInt32_cases (i : ℤ) :
    (0 ≤ toInt32 i ∧ toSizeT (toInt32 i) < 2 ^ 31 ∧ ((toSizeT (toInt32 i) : ℕ) : ℤ) = toInt32 i) ∨
      (toInt32 i < 0 ∧ vector_max_size < toSizeT (toInt32 i)) := by
  unfold toSizeT vector_max_size
  have h := toInt32_range i
  omega

/-- Within the range of `int` the generator delivers what the configuration asks for: when
`num_qubits * num_shots < 2^31`, the report of a valid configuration holds exactly
`num_qubits * num_shots` bits, each 0 or 1, and no error message. -/
theorem generate_length_of_product_lt (L : StdLib)
    (hL : ∀ g, (L.uniform_int_distribution g).1 ≤ 1) (cfg : QRNGConfig) (q : QRNG)
    (hq : QRNG.create cfg = Except.ok q) (hprod : cfg.num_qubits * cfg.num_shots < 2 ^ 31)
    (now : ℕ) :
    ((QRNG.generate L q now).random_bits.length : ℤ) = cfg.num_qubits * cfg.num_shots ∧
      (∀ b ∈ (QRNG.generate L q now).random_bits, b = 0 ∨ b = 1) ∧
      (QRNG.generate L q now).error_message = "" := by
  unfold QRNG.create at hq
  split at hq
  · cases hq
  · split at hq
    · cases hq
    · rename_i h1 h2
      injection hq with hq
      subst hq
      have hpos : 0 ≤ cfg.num_shots * cfg.num_qubits := by nlinarith
      have hlt : cfg.num_shots * cfg.num_qubits < 2 ^ 31 := by nlinarith
      have hw : toInt32 (cfg.num_shots * cfg.num_qubits) = cfg.num_shots * cfg.num_qubits :=
        toInt32_of_range _ (by omega) hlt
      have hc : toSizeT (toInt32 (cfg.num_shots * cfg.num_qubits)) ≤ vector_max_size := by
        rw [hw]; unfold toSizeT vector_max_size; omega
      obtain ⟨bits, hb, hlen, hbit⟩ := generate_random_bits_ok L { config_ := cfg } now _ hc
      unfold QRNG.generate
      simp only [hb]
      refine ⟨?_, ?_, ?_⟩
      · rw [hlen, hw]; unfold toSizeT; rw [mul_comm cfg.num_qubits]; omega
      · intro b hb'
        have := hbit hL b hb'
        omega
      · trivial

/-- C1 (evaluation at the failing input): the configuration `num_qubits = 65536`,
`num_shots = 65536` passes the constructor, the `int` product `num_shots * num_qubits`
wraps to 0, and `generate()` returns an empty bit sequence with no error message and
`all_tests_passed = true`, for every algorithm, seed and clock reading; the requested
length `65536 * 65536` is not delivered. -/
theorem C1_generate_int_product_overflow (L : StdLib) (now seed : ℕ) (alg : AlgorithmType) :
    ∃ q, QRNG.create { num_qubits := 65536, num_shots := 65536, seed := seed, algorithm := alg }
        = Except.ok q ∧
      (QRNG.generate L q now).random_bits = [] ∧
      (QRNG.generate L q now).error_message = "" ∧
      (QRNG.generate L q now).all_tests_passed = true := by
  refine ⟨⟨⟨65536, 65536, seed, alg⟩⟩, rfl, ?_⟩
  have hc : toSizeT (toInt32 ((65536 : ℤ) * 65536)) = 0 := by decide
  unfold QRNG.generate
  simp only [hc]
  unfold QRNG.generate_random_bits
  rw [if_neg (by decide)]
  cases alg <;> simp [fill]

/-- C2: for every report that `generate()` returns (on every configuration, in particular
on every valid one), `ones` is the number of 1-bits of the returned sequence, `zeros` the
number of 0-bits (both are unsigned counts, hence non-negative), and `ones + zeros` is the
length of the returned sequence.  The library distribution on `{0, 1}` is assumed to return
0 or 1. -/
theorem C2_ones_zeros_count (L : StdLib) (hL : ∀ g, (L.uniform_int_distribution g).1 ≤ 1)
    (q : QRNG) (now : ℕ) :
    (QRNG.generate L q now).ones = (QRNG.generate L q now).random_bits.count 1 ∧
      (QRNG.generate L q now).zeros = (QRNG.generate L q now).random_bits.count 0 ∧
      0 ≤ (QRNG.generate L q now).ones ∧ 0 ≤ (QRNG.generate L q now).zeros ∧
      (QRNG.generate L q now).ones + (QRNG.generate L q now).zeros
        = (QRNG.generate L q now).random_bits.length := by
  unfold QRNG.generate
  rcases toSizeT_toInt32_cases (q.config_.num_shots * q.config_.num_qubits) with ⟨_, h2, _⟩ | ⟨_, h2⟩
  · have hc : toSizeT (toInt32 (q.config_.num_shots * q.config_.num_qubits)) ≤ vector_max_size := by
      unfold vector_max_size; omega
    obtain ⟨bits, hb, hlen, hbit⟩ := generate_random_bits_ok L q now _ hc
    simp only [hb]
    have h01 := hbit hL
    have hsum := sum_eq_count_one bits h01
    have hcnt := count_zero_add_count_one bits h01
    have hle : bits.count 1 < 2 ^ 31 := by omega
    have hacc : accumulate_int bits = ((bits.count 1 : ℕ) : ℤ) := by
      rw [accumulate_int_eq, hsum]
      exact toInt32_of_range _ (by omega) (by omega)
    have hones : toSizeT (accumulate_int bits) = bits.count 1 := by
      rw [hacc]; unfold toSizeT; omega
    rw [hones]
    refine ⟨rfl, ?_, Nat.zero_le _, Nat.zero_le _, ?_⟩ <;> omega
  · rw [generate_random_bits_error L q now _ h2]
    simp

/-- C3: the constructor fails exactly when `num_qubits <= 0` or `num_shots <= 0` (an error
carries no report, so no sequence is produced), and `generate(qubits, shots)` fails in
exactly the same cases of its two arguments; otherwise it returns the report of the
temporary generator built from them. -/
theorem C3_validation :
    (∀ cfg : QRNGConfig, (∃ e, QRNG.create cfg = Except.error e) ↔
        (cfg.num_qubits ≤ 0 ∨ cfg.num_shots ≤ 0)) ∧
    (∀ (L : StdLib) (q : QRNG) (now : ℕ) (qubits shots : ℤ),
        ((∃ e, QRNG.generate_with L q now qubits shots = Except.error e) ↔
          (qubits ≤ 0 ∨ shots ≤ 0)) ∧
        (¬ (qubits ≤ 0 ∨ shots ≤ 0) →
          QRNG.generate_with L q now qubits shots = Except.ok (QRNG.generate L
            { config_ := { q.config_ with num_qubits := qubits, num_shots := shots } } now))) := by
  refine ⟨?_, ?_⟩
  · intro cfg
    unfold QRNG.create
    by_cases h1 : cfg.num_qubits ≤ 0
    · simp [h1]
    · by_cases h2 : cfg.num_shots ≤ 0
      · simp [h1, h2]
      · simp [h1, h2]
  · intro L q now qubits shots
    unfold QRNG.generate_with QRNG.create
    by_cases h1 : qubits ≤ 0
    · simp [h1]
    · by_cases h2 : shots ≤ 0
      · simp [h1, h2]
      · simp [h1, h2]

/-- C4: with a non-zero seed the bit sequence is a function of algorithm, seed and
requested length only: two generators with the same non-zero seed and the same algorithm
produce identical results for the same length, whatever the clock reads and whatever the
rest of their configurations. -/
theorem C4_determinism (L : StdLib) (q1 q2 : QRNG) (now1 now2 count : ℕ)
    (hseed : q1.config_.seed ≠ 0) (hs : q1.config_.seed = q2.config_.seed)
    (ha : q1.config_.algorithm = q2.config_.algorithm) :
    QRNG.generate_random_bits L q1 now1 count = QRNG.generate_random_bits L q2 now2 count := by
  have hseed2 : q2.config_.seed ≠ 0 := hs ▸ hseed
  unfold QRNG.generate_random_bits
  simp only [ha, hs, if_pos hseed2, ne_eq, not_false_eq_true]

theorem C4_determinism_witness :
    QRNG.generate_random_bits sampleLib { config_ := { seed := 42 } } 7 3
      = QRNG.generate_random_bits sampleLib { config_ := { seed := 42, num_shots := 5 } } 8 3 :=
  C4_determinism sampleLib { config_ := { seed := 42 } }
    { config_ := { seed := 42, num_shots := 5 } } 7 8 3 (by decide) rfl rfl

theorem sampleLib_uniform_int (g : sampleLib.Engine) :
    (sampleLib.uniform_int_distribution g).1 ≤ 1 := by
  have h : ∀ x : ℕ, ((x * 6364136223846793005 + 1442695040888963407) % 2 ^ 64) / 2 ^ 63 ≤ 1 := by
    intro x; omega
  exact h g

theorem C2_ones_zeros_count_witness :
    (∀ g, (sampleLib.uniform_int_distribution g).1 ≤ 1) ∧
    ((QRNG.generate sampleLib { config_ := { seed := 42, num_shots := 8 } } 0).ones
        = (QRNG.generate sampleLib { config_ := { seed := 42, num_shots := 8 } } 0).random_bits.count 1 ∧
      (QRNG.generate sampleLib { config_ := { seed := 42, num_shots := 8 } } 0).zeros
        = (QRNG.generate sampleLib { config_ := { seed := 42, num_shots := 8 } } 0).random_bits.count 0 ∧
      0 ≤ (QRNG.generate sampleLib { config_ := { seed := 42, num_shots := 8 } } 0).ones ∧
      0 ≤ (QRNG.generate sampleLib { config_ := { seed := 42, num_shots := 8 } } 0).zeros ∧
      (QRNG.generate sampleLib { config_ := { seed := 42, num_shots := 8 } } 0).ones
          + (QRNG.generate sampleLib { config_ := { seed := 42, num_shots := 8 } } 0).zeros
        = (QRNG.generate sampleLib { config_ := { seed := 42, num_shots := 8 } } 0).random_bits.length) :=
  ⟨sampleLib_uniform_int,
    C2_ones_zeros_count sampleLib sampleLib_uniform_int { config_ := { seed := 42, num_shots := 8 } } 0⟩

/-- C8: on every bit sequence of fewer than 10 bits, the empty one included, `runs_test`
returns the p-value 0, in the generator and in the threshold-based tester. -/
theorem C8_runs_test_short (L : StdLib) (bits : List ℕ) (h : bits.length < 10) :
    QRNG.runs_test L bits = Double.fin 0 ∧ RandomnessTester.runs_test L bits = Double.fin 0 := by
  unfold QRNG.runs_test RandomnessTester.runs_test
  simp [h]

theorem C8_runs_test_short_witness :
    [1, 0, 1].length < 10 ∧ (QRNG.runs_test sampleLib [1, 0, 1] = Double.fin 0 ∧
      RandomnessTester.runs_test sampleLib [1, 0, 1] = Double.fin 0) :=
  ⟨by decide, C8_runs_test_short sampleLib [1, 0, 1] (by decide)⟩

/-! ### Validation of the significance level -/

/-- Every significance level that is a number (finite or infinite) outside the open interval
`(0, 1)` is rejected by the constructor of the tester, with the message for `alpha`. -/
theorem create_rejects_numbers_outside (cfg : RandomnessTestConfig)
    (h : (∃ a : ℚ, cfg.alpha = Double.fin a ∧ (a ≤ 0 ∨ 1 ≤ a)) ∨ cfg.alpha = Double.pinf ∨
      cfg.alpha = Double.ninf) :
    RandomnessTester.create cfg
      = Except.error "Significance level alpha must be between 0 and 1" := by
  unfold RandomnessTester.create
  rcases h with ⟨a, ha, h | h⟩ | h | h
  · simp [ha, Double.le, Double.ge, h]
  · simp [ha, Double.le, Double.ge, h]
  · simp [h, Double.le, Double.ge]
  · simp [h, Double.le, Double.ge]

/-- C10 (evaluation at the failing input): the significance level NaN does not lie inside
`(0, 1)`, yet both comparisons `alpha <= 0.0` and `alpha >= 1.0` are false for it and the
constructor accepts the configuration. -/
theorem C10_create_accepts_nan :
    RandomnessTester.create { alpha := Double.nan, block_size := 1, template_length := 2 }
      = Except.ok { config_ := { alpha := Double.nan, block_size := 1, template_length := 2 } } := by
  simp [RandomnessTester.create, Double.le, Double.ge]

/-! ### Arithmetic on finite values -/

namespace Double

theorem add_fin (a b : ℚ) : add (fin a) (fin b) = round (a + b) := rfl

theorem sub_fin (a b : ℚ) : sub (fin a) (fin b) = round (a - b) := by
  unfold sub neg add
  rw [sub_eq_add_neg]

theorem mul_fin (a b : ℚ) : mul (fin a) (fin b) = round (a * b) := rfl

theorem div_fin (a b : ℚ) (hb : b ≠ 0) : div (fin a) (fin b) = round (a / b) := by
  show (if b = 0 then (if a = 0 then nan else infOfSign (decide (0 < a))) else round (a / b))
    = round (a / b)
  rw [if_neg hb]

theorem div_zero_zero : div (fin 0) (fin 0) = nan := by
  simp [div]

theorem abs_rne_le (q : ℚ) : |rne (q / ulp q)| ≤ 2 ^ 53 := by
  have hu := ulp_pos q
  have hlt := abs_lt_zpow_binade q
  have e1 : (2 : ℚ) ^ (binade q + 1) = ulp q * 2 ^ 53 := by
    rw [ulp_mul_two_pow]; congr 1; push_cast; ring
  rw [e1, abs_lt] at hlt
  have h1 : q / ulp q ≤ ((2 ^ 53 : ℤ) : ℚ) := by
    rw [div_le_iff₀ hu]; push_cast; linarith
  have h2 : ((-(2 ^ 53) : ℤ) : ℚ) ≤ q / ulp q := by
    rw [le_div_iff₀ hu]; push_cast; linarith
  have h3 := rne_mono h1
  have h4 := rne_mono h2
  rw [rne_intCast] at h3 h4
  rw [abs_le]
  constructor <;> omega

/-- Rounding is idempotent: a rounded value is a fixed point. -/
theorem rnd_idem (q : ℚ) : rnd (rnd q) = rnd q := by
  have hm := abs_rne_le q
  have hb := binade_ge q
  rcases hm.lt_or_eq with hlt | heq
  · exact rnd_exact (rne (q / ulp q)) (binade q - 52) hlt (by omega)
  · have hcases : rne (q / ulp q) = 2 ^ 53 ∨ rne (q / ulp q) = -(2 ^ 53) := by
      rcases abs_cases (rne (q / ulp q)) with ⟨h, _⟩ | ⟨h, _⟩ <;> [left; right] <;> omega
    have key : ∀ s : ℤ, |s| < 2 ^ 53 → rne (q / ulp q) = s * 2 ^ 53 →
        rnd ((s : ℚ) * (2 : ℚ) ^ (binade q + 1)) = (s : ℚ) * (2 : ℚ) ^ (binade q + 1) →
        rnd (rnd q) = rnd q := by
      intro s _ hs hfix
      have e53 : (2 : ℚ) ^ (binade q + 1) = ulp q * 2 ^ 53 := by
        rw [ulp_mul_two_pow]; congr 1; push_cast; ring
      have e : rnd q = (s : ℚ) * (2 : ℚ) ^ (binade q + 1) := by
        unfold rnd
        rw [hs, e53]
        push_cast
        ring
      rw [e, hfix]
    rcases hcases with h | h
    · exact key 1 (by norm_num) (by rw [h]; norm_num) (rnd_exact 1 _ (by norm_num) (by omega))
    · exact key (-1) (by norm_num) (by rw [h]; norm_num) (rnd_exact (-1) _ (by norm_num) (by omega))

theorem one_le_zpow_neg : (2 : ℚ) ^ (-1022 : ℤ) ≤ 1 := by
  rw [zpow_neg]
  exact inv_le_one_of_one_le₀ (one_le_zpow₀ (by norm_num) (by norm_num))

/-- Conversion of a count `1 ≤ k ≤ 2^63` to `double`: the result is finite, between 1 and
`2^63`, a fixed point of rounding, and doubling the count doubles it. -/
theorem ofNat_count (k : ℕ) (h1 : 1 ≤ k) (h2 : k ≤ 2 ^ 63) :
    ofNat k = fin (rnd k) ∧ 1 ≤ rnd (k : ℚ) ∧ rnd (k : ℚ) ≤ 2 ^ 63 ∧
      ofNat (2 * k) = fin (2 * rnd k) := by
  have r1 : rnd (1 : ℚ) = 1 := by simpa using rnd_natCast 1 (by norm_num)
  have r63 : rnd ((2 : ℚ) ^ 63) = 2 ^ 63 := by
    have := rnd_exact 1 63 (by norm_num) (by norm_num)
    have e : ((1 : ℤ) : ℚ) * (2 : ℚ) ^ (63 : ℤ) = 2 ^ 63 := by norm_num
    rwa [e] at this
  have hk1 : (1 : ℚ) ≤ k := by exact_mod_cast h1
  have hk2 : (k : ℚ) ≤ 2 ^ 63 := by exact_mod_cast h2
  obtain ⟨e1, e2, e3⟩ := round_between r1 r63 hk1 hk2 (by norm_num) (by norm_num)
  refine ⟨e1, e2, e3, ?_⟩
  have hnorm : (2 : ℚ) ^ (-1022 : ℤ) ≤ |(k : ℚ)| := by
    rw [abs_of_nonneg (by positivity)]
    exact le_trans one_le_zpow_neg hk1
  have e4 : rnd (((2 * k : ℕ)) : ℚ) = 2 * rnd k := by
    push_cast
    exact rnd_two_mul hnorm
  unfold ofNat
  rw [round_of_lt, e4]
  rw [e4, abs_of_nonneg (by linarith)]
  linarith [show (2 : ℚ) * 2 ^ 63 < 2 ^ 1024 by norm_num]

end Double

/-! ### The chi-square test on balanced sequences -/

theorem filter_and_one (bits : List ℕ) :
    (bits.filter (fun b => b &&& 1 = 0)).length + (bits.filter (fun b => b &&& 1 = 1)).length
      = bits.length := by
  induction bits with
  | nil => rfl
  | cons x xs ih =>
    simp only [Nat.and_one_is_mod] at ih ⊢
    have hx : x % 2 = 0 ∨ x % 2 = 1 := by omega
    rcases hx with h | h <;> simp [List.filter_cons, h] <;> omega

/-- On a non-empty sequence in which the two counters of `chi_square_test` agree, the
chi-square statistic is exactly 0. -/
theorem chi_square_statistic_balanced (bits : List ℕ) (hne : bits ≠ [])
    (hlen : bits.length ≤ vector_max_size)
    (hbal : (bits.filter (fun b => b &&& 1 = 0)).length
      = (bits.filter (fun b => b &&& 1 = 1)).length) :
    chi_square_statistic bits = Double.fin 0 := by
  have hsum := filter_and_one bits
  have hpos : 0 < bits.length := List.length_pos.2 hne
  set k := (bits.filter (fun b => b &&& 1 = 1)).length with hk
  have hn : bits.length = 2 * k := by omega
  have hk1 : 1 ≤ k := by omega
  have hk2 : k ≤ 2 ^ 63 := by unfold vector_max_size at hlen; omega
  obtain ⟨e1, e2, e3, e4⟩ := Double.ofNat_count k hk1 hk2
  have hr0 : Double.rnd (k : ℚ) ≠ 0 := by linarith
  have hfin : |Double.rnd (k : ℚ)| < 2 ^ 1024 := by
    rw [abs_of_nonneg (by linarith)]
    linarith [show (2 : ℚ) ^ 63 < 2 ^ 1024 by norm_num]
  have hexp : Double.div (Double.ofNat bits.length) (Double.fin 2) = Double.fin (Double.rnd k) := by
    rw [hn, e4, Double.div_fin _ _ (by norm_num)]
    have : 2 * Double.rnd (k : ℚ) / 2 = Double.rnd k := by ring
    rw [this]
    exact Double.round_exact (Double.rnd_idem _) hfin
  unfold chi_square_statistic
  simp only [hbal, ← hk, hexp, e1, Double.sub_fin, sub_self, Double.round_zero, Double.mul_fin,
    mul_zero, Double.div_fin _ _ hr0, zero_div, Double.add_fin, add_zero]

theorem filter_eq_count (bits : List ℕ) (h01 : ∀ b ∈ bits, b ≤ 1) :
    (bits.filter (fun b => b &&& 1 = 0)).length = bits.count 0 ∧
      (bits.filter (fun b => b &&& 1 = 1)).length = bits.count 1 := by
  induction bits with
  | nil => exact ⟨rfl, rfl⟩
  | cons x xs ih =>
    have hx : x ≤ 1 := h01 x (List.mem_cons_self _ _)
    have hxs : ∀ b ∈ xs, b ≤ 1 := fun b hb => h01 b (List.mem_cons_of_mem _ hb)
    obtain ⟨i0, i1⟩ := ih hxs
    simp only [Nat.and_one_is_mod] at i0 i1 ⊢
    interval_cases x <;> simp [List.filter_cons, List.count_cons, i0, i1]

/-- C9 (counterexample): the empty sequence has equal numbers of 0s and 1s, but the expected
count is 0 and `0.0 / 0.0` makes the chi-square statistic NaN, not 0. -/
theorem C9_chi_square_empty_nan :
    ([] : List ℕ).count 0 = ([] : List ℕ).count 1 ∧ chi_square_statistic [] = Double.nan ∧
      chi_square_statistic [] ≠ Double.fin 0 := by
  have h : chi_square_statistic [] = Double.nan := by
    have h0 : Double.ofNat 0 = Double.fin 0 := by simpa using Double.ofNat_exact 0 (by norm_num)
    unfold chi_square_statistic
    simp only [List.filter_nil, List.length_nil, h0, Double.div_fin _ _ (two_ne_zero), zero_div,
      Double.round_zero, Double.sub_fin, sub_self, Double.mul_fin, mul_zero, Double.div_zero_zero]
    rfl
  refine ⟨rfl, h, ?_⟩
  rw [h]
  simp

/-- C9 (amended): on every non-empty perfectly balanced bit sequence the chi-square statistic
is exactly 0 and `chi_square_test` returns the p-value exactly 1, in the generator (through
`std::erfc`) and in the tester (through `1.0 - std::erf`), for a math library with
`sqrt(0) = 0`, `erfc(0) = 1` and `erf(0) = 0`. -/
theorem C9_chi_square_balanced (L : StdLib) (bits : List ℕ) (hne : bits ≠ [])
    (hlen : bits.length ≤ vector_max_size) (h01 : ∀ b ∈ bits, b ≤ 1)
    (hbal : bits.count 0 = bits.count 1)
    (hsqrt : L.sqrt (Double.fin 0) = Double.fin 0) (herfc : L.erfc (Double.fin 0) = Double.fin 1)
    (herf : L.erf (Double.fin 0) = Double.fin 0) :
    chi_square_statistic bits = Double.fin 0 ∧ QRNG.chi_square_test L bits = Double.fin 1 ∧
      RandomnessTester.chi_square_test L bits = Double.fin 1 := by
  obtain ⟨f0, f1⟩ := filter_eq_count bits h01
  have hstat := chi_square_statistic_balanced bits hne hlen (by rw [f0, f1, hbal])
  have r1 : Double.round 1 = Double.fin 1 := by
    simpa using Double.round_dyadic 1 0 (by norm_num) (by norm_num)
  refine ⟨hstat, ?_, ?_⟩
  · unfold QRNG.chi_square_test
    rw [hstat, Double.div_fin _ _ two_ne_zero, zero_div, Double.round_zero, hsqrt, herfc]
  · unfold RandomnessTester.chi_square_test RandomnessTester.calculate_p_value
      RandomnessTester.erfc
    rw [if_pos rfl, hstat, Double.div_fin _ _ two_ne_zero, zero_div, Double.round_zero, hsqrt,
      herf, Double.sub_fin, sub_zero, r1]

theorem C9_chi_square_balanced_witness :
    chi_square_statistic [0, 1] = Double.fin 0 ∧
      QRNG.chi_square_test sampleLib [0, 1] = Double.fin 1 ∧
      RandomnessTester.chi_square_test sampleLib [0, 1] = Double.fin 1 :=
  C9_chi_square_balanced sampleLib [0, 1] (by simp) (by unfold vector_max_size; simp)
    (by decide) (by decide) (by simp [sampleLib]) (by simp [sampleLib]) (by simp [sampleLib])

/-! ### Entropy of balanced sequences -/

theorem foldl_add_exact (bits : List ℕ) (a : ℕ) (h : a + bits.sum < 2 ^ 53) :
    List.foldl (fun (acc : Double) (b : ℕ) => Double.add acc (Double.ofNat b))
      (Double.fin (a : ℚ)) bits = Double.fin ((a + bits.sum : ℕ) : ℚ) := by
  induction bits generalizing a with
  | nil => simp
  | cons x xs ih =>
    rw [List.sum_cons] at h
    have hx : Double.ofNat x = Double.fin x := Double.ofNat_exact x (by omega)
    have hax : Double.round (((a + x : ℕ)) : ℚ) = Double.fin ((a + x : ℕ) : ℚ) := by
      have := Double.ofNat_exact (a + x) (by omega)
      exact this
    simp only [List.foldl_cons, hx, Double.add_fin]
    have e : (a : ℚ) + (x : ℚ) = ((a + x : ℕ) : ℚ) := by push_cast; ring
    rw [e, hax, ih (a + x) (by omega), List.sum_cons]
    congr 2
    omega

theorem accumulate_double_exact (bits : List ℕ) (h : bits.sum < 2 ^ 53) :
    accumulate_double bits = Double.fin (bits.sum : ℚ) := by
  have := foldl_add_exact bits 0 (by omega)
  unfold accumulate_double
  simpa using this

theorem Double.round_half : Double.round (1 / 2) = Double.fin (1 / 2) := by
  simpa using Double.round_dyadic 1 1 (by norm_num) (by norm_num)

theorem Double.round_neg_half : Double.round (-(1 / 2)) = Double.fin (-(1 / 2)) := by
  have := Double.round_dyadic (-1) 1 (by norm_num) (by norm_num)
  have e : (((-1 : ℤ)) : ℚ) / 2 ^ 1 = -(1 / 2) := by norm_num
  rwa [e] at this

theorem Double.round_one : Double.round 1 = Double.fin 1 := by
  simpa using Double.round_dyadic 1 0 (by norm_num) (by norm_num)

/-- The Shannon entropy step shared by both classes, at `p0 = p1 = 1/2`. -/
theorem shannon_at_half (L : StdLib) (hlog : L.log2 (Double.fin (1 / 2)) = Double.fin (-1)) :
    Double.sub (Double.sub (Double.fin 0) (Double.mul (Double.fin (1 / 2)) (L.log2 (Double.fin (1 / 2)))))
      (Double.mul (Double.fin (1 / 2)) (L.log2 (Double.fin (1 / 2)))) = Double.fin 1 := by
  have e1 : (1 / 2 : ℚ) * (-1) = -(1 / 2) := by norm_num
  rw [hlog, Double.mul_fin, e1, Double.round_neg_half, Double.sub_fin]
  have e2 : (0 : ℚ) - -(1 / 2) = 1 / 2 := by norm_num
  rw [e2, Double.round_half, Double.sub_fin]
  have e3 : (1 / 2 : ℚ) - -(1 / 2) = 1 := by norm_num
  rw [e3, Double.round_one]

/-- Within the range of the accumulators, every exactly balanced 0/1 sequence of even length
at least 2 has Shannon entropy and min-entropy exactly 1, in the generator and in the
tester, for a math library with `log2(0.5) = -1`.  The range: fewer than `2^31` ones, so
that the `int` accumulator of `calculate_min_entropy` does not overflow. -/
theorem entropy_balanced_of_lt (L : StdLib) (bits : List ℕ) (h01 : ∀ b ∈ bits, b ≤ 1)
    (hbal : bits.count 0 = bits.count 1) (hlen : 2 ≤ bits.length)
    (hsmall : bits.count 1 < 2 ^ 31)
    (hlog : L.log2 (Double.fin (1 / 2)) = Double.fin (-1)) :
    QRNG.calculate_shannon_entropy L bits = Double.fin 1 ∧
      QRNG.calculate_min_entropy L bits = Double.fin 1 ∧
      RandomnessTester.calculate_shannon_entropy L bits = Double.fin 1 ∧
      RandomnessTester.calculate_min_entropy L bits = Double.fin 1 := by
  have hcnt := count_zero_add_count_one bits h01
  have hsum := sum_eq_count_one bits h01
  set k := bits.count 1 with hk
  have hn : bits.length = 2 * k := by omega
  have hk1 : 1 ≤ k := by omega
  have hne : bits.isEmpty = false := by
    cases bits with
    | nil => simp at hlen
    | cons x xs => rfl
  have hacc : accumulate_double bits = Double.fin (k : ℚ) := by
    rw [accumulate_double_exact bits (by omega), hsum]
  have hones : toSizeT (accumulate_int bits) = k := by
    rw [accumulate_int_eq, hsum, toInt32_of_range _ (by omega) (by omega)]
    unfold toSizeT; omega
  have hN : Double.ofNat bits.length = Double.fin ((2 * k : ℕ) : ℚ) := by
    rw [hn]; exact Double.ofNat_exact _ (by omega)
  have hK : Double.ofNat k = Double.fin (k : ℚ) := Double.ofNat_exact _ (by omega)
  have hkq : ((2 * k : ℕ) : ℚ) ≠ 0 := by
    have : (0 : ℚ) < ((2 * k : ℕ) : ℚ) := by exact_mod_cast (by omega : 0 < 2 * k)
    exact this.ne'
  have hdiv : Double.div (Double.fin (k : ℚ)) (Double.fin ((2 * k : ℕ) : ℚ))
      = Double.fin (1 / 2) := by
    rw [Double.div_fin _ _ hkq]
    have e : (k : ℚ) / ((2 * k : ℕ) : ℚ) = 1 / 2 := by
      have : (k : ℚ) ≠ 0 := by
        have : (0 : ℚ) < (k : ℚ) := by exact_mod_cast hk1
        exact this.ne'
      push_cast
      field_simp
      ring
    rw [e, Double.round_half]
  have hsub : Double.sub (Double.fin 1) (Double.fin (1 / 2)) = Double.fin (1 / 2) := by
    rw [Double.sub_fin]
    have e : (1 : ℚ) - 1 / 2 = 1 / 2 := by norm_num
    rw [e, Double.round_half]
  have hgt : Double.gt (Double.fin (1 / 2)) (Double.fin 0) = true := by
    simp [Double.gt, Double.lt]
  have hmax : Double.max (Double.fin (1 / 2)) (Double.fin (1 / 2)) = Double.fin (1 / 2) := by
    simp [Double.max, Double.lt]
  have hsh := shannon_at_half L hlog
  have hneg : Double.neg (Double.fin (-1)) = Double.fin 1 := by simp [Double.neg]
  refine ⟨?_, ?_, ?_, ?_⟩
  · unfold QRNG.calculate_shannon_entropy
    simp only [hne, hacc, hN, hdiv, hsub, hgt, if_true, hsh, Bool.false_eq_true, if_false]
  · unfold QRNG.calculate_min_entropy
    simp only [hne, hones, hN, hK, hdiv, hsub, hmax, hlog, hneg, Bool.false_eq_true, if_false]
  · unfold RandomnessTester.calculate_shannon_entropy
    simp only [hne, hacc, hN, hdiv, hsub, hgt, if_true, hsh, Bool.false_eq_true, if_false]
  · unfold RandomnessTester.calculate_min_entropy
    simp only [hne, hones, hN, hK, hdiv, hsub, hmax, hlog, hneg, Bool.false_eq_true, if_false]

/-! ### The `int` accumulator beyond `2^31` ones -/

theorem accumulate_int_replicate_ones (n zeros : ℕ) (hn : n = 2 ^ 31) :
    accumulate_int (List.replicate n 1 ++ List.replicate zeros 0) = -(2 ^ 31) := by
  rw [accumulate_int_eq]
  simp only [List.sum_append, List.sum_replicate, smul_eq_mul, mul_one, mul_zero, add_zero]
  rw [hn]
  unfold toInt32
  norm_num

theorem ofNat_wrapped_ones : Double.ofNat (2 ^ 64 - 2 ^ 31) = Double.fin (2 ^ 64 - 2 ^ 31) := by
  have h := Double.rnd_exact (2 ^ 33 - 1) 31 (by norm_num) (by norm_num)
  have e : (((2 ^ 33 - 1 : ℤ)) : ℚ) * (2 : ℚ) ^ (31 : ℤ) = 2 ^ 64 - 2 ^ 31 := by norm_num
  rw [e] at h
  have hc : (((2 ^ 64 - 2 ^ 31 : ℕ)) : ℚ) = 2 ^ 64 - 2 ^ 31 := by norm_num
  unfold Double.ofNat
  rw [hc]
  exact Double.round_exact h (by norm_num)

theorem toSizeT_wrapped_ones : toSizeT (-(2 ^ 31)) = 2 ^ 64 - 2 ^ 31 := by
  unfold toSizeT; omega

theorem isEmpty_replicate_append (n m a b : ℕ) (hn : 0 < n) :
    (List.replicate n a ++ List.replicate m b).isEmpty = false := by
  cases n with
  | zero => omega
  | succ k => rfl

theorem min_entropy_all_ones (L : StdLib) (n : ℕ) (hn : n = 2 ^ 31) :
    QRNG.calculate_min_entropy L (List.replicate n 1)
      = Double.neg (L.log2 (Double.fin 8589934591)) := by
  have hacc := accumulate_int_replicate_ones n 0 hn
  simp only [List.replicate_zero, List.append_nil] at hacc
  have hne : (List.replicate n 1 : List ℕ).isEmpty = false := by
    have := isEmpty_replicate_append n 0 1 0 (by omega)
    simpa using this
  have hN : Double.ofNat (List.replicate n 1 : List ℕ).length = Double.fin (2 ^ 31) := by
    rw [List.length_replicate, hn]
    have := Double.ofNat_exact (2 ^ 31) (by norm_num)
    simpa using this
  have hdiv : Double.div (Double.fin (2 ^ 64 - 2 ^ 31)) (Double.fin (2 ^ 31))
      = Double.fin 8589934591 := by
    rw [Double.div_fin _ _ (by norm_num)]
    have e : ((2 : ℚ) ^ 64 - 2 ^ 31) / 2 ^ 31 = ((8589934591 : ℤ) : ℚ) / 2 ^ 0 := by norm_num
    rw [e, Double.round_dyadic 8589934591 0 (by norm_num) (by norm_num)]
    norm_num
  have hsub : Double.sub (Double.fin 1) (Double.fin 8589934591) = Double.fin (-8589934590) := by
    rw [Double.sub_fin]
    have e : (1 : ℚ) - 8589934591 = ((-8589934590 : ℤ) : ℚ) / 2 ^ 0 := by norm_num
    rw [e, Double.round_dyadic (-8589934590) 0 (by norm_num) (by norm_num)]
    norm_num
  have hmax : Double.max (Double.fin 8589934591) (Double.fin (-8589934590))
      = Double.fin 8589934591 := by
    simp [Double.max, Double.lt]
    norm_num
  unfold QRNG.calculate_min_entropy
  simp only [hne, hacc, toSizeT_wrapped_ones, ofNat_wrapped_ones, hN, hdiv, hsub, hmax,
    Bool.false_eq_true, if_false]

theorem min_entropy_ones_zeros (L : StdLib) (n : ℕ) (hn : n = 2 ^ 31) :
    QRNG.calculate_min_entropy L (List.replicate n 1 ++ List.replicate n 0)
      = Double.neg (L.log2 (Double.fin (8589934591 / 2))) := by
  have hacc := accumulate_int_replicate_ones n n hn
  have hne := isEmpty_replicate_append n n 1 0 (by omega)
  have hN : Double.ofNat (List.replicate n 1 ++ List.replicate n 0 : List ℕ).length
      = Double.fin (2 ^ 32) := by
    rw [List.length_append, List.length_replicate, List.length_replicate, hn]
    have := Double.ofNat_exact (2 ^ 31 + 2 ^ 31) (by norm_num)
    rw [this]
    norm_num
  have hdiv : Double.div (Double.fin (2 ^ 64 - 2 ^ 31)) (Double.fin (2 ^ 32))
      = Double.fin (8589934591 / 2) := by
    rw [Double.div_fin _ _ (by norm_num)]
    have e : ((2 : ℚ) ^ 64 - 2 ^ 31) / 2 ^ 32 = ((8589934591 : ℤ) : ℚ) / 2 ^ 1 := by norm_num
    rw [e, Double.round_dyadic 8589934591 1 (by norm_num) (by norm_num)]
    norm_num
  have hsub : Double.sub (Double.fin 1) (Double.fin (8589934591 / 2))
      = Double.fin (-8589934589 / 2) := by
    rw [Double.sub_fin]
    have e : (1 : ℚ) - 8589934591 / 2 = ((-8589934589 : ℤ) : ℚ) / 2 ^ 1 := by norm_num
    rw [e, Double.round_dyadic (-8589934589) 1 (by norm_num) (by norm_num)]
    norm_num
  have hmax : Double.max (Double.fin (8589934591 / 2)) (Double.fin (-8589934589 / 2))
      = Double.fin (8589934591 / 2) := by
    simp [Double.max, Double.lt]
    norm_num
  unfold QRNG.calculate_min_entropy
  simp only [hne, hacc, toSizeT_wrapped_ones, ofNat_wrapped_ones, hN, hdiv, hsub, hmax,
    Bool.false_eq_true, if_false]

/-- C5 (evaluation at the failing input): on the sequence of `2^31` ones the `int` accumulator
of `calculate_min_entropy` wraps to `-2^31`, which becomes `ones = 2^64 - 2^31` as `size_t`;
the proportion is computed as `8589934591` instead of 1 and the function returns
`-log2(8589934591)`, about `-33`, outside `[0, 1]`. -/
theorem C5_min_entropy_accumulator_overflow (L : StdLib) :
    (∀ b ∈ List.replicate (2 ^ 31) 1, b = 0 ∨ b = 1) ∧
      1 ≤ (List.replicate (2 ^ 31) 1).length ∧
      QRNG.calculate_min_entropy L (List.replicate (2 ^ 31) 1)
        = Double.neg (L.log2 (Double.fin 8589934591)) := by
  refine ⟨?_, ?_, min_entropy_all_ones L (2 ^ 31) rfl⟩
  · intro b hb
    right
    exact (List.mem_replicate.1 hb).2
  · rw [List.length_replicate]
    norm_num

/-- C6 (evaluation at the failing input): the sequence of `2^31` ones followed by `2^31` zeros
is exactly balanced and of even length, but the `int` accumulator of `calculate_min_entropy`
wraps to `-2^31`; the proportion of ones is computed as `4294967295.5` and the function
returns `-log2(4294967295.5)`, about `-32`, not 1. -/
theorem C6_min_entropy_accumulator_overflow (L : StdLib) :
    (∀ b ∈ List.replicate (2 ^ 31) 1 ++ List.replicate (2 ^ 31) 0, b = 0 ∨ b = 1) ∧
      (List.replicate (2 ^ 31) 1 ++ List.replicate (2 ^ 31) 0).count 0
        = (List.replicate (2 ^ 31) 1 ++ List.replicate (2 ^ 31) 0).count 1 ∧
      (List.replicate (2 ^ 31) 1 ++ List.replicate (2 ^ 31) 0).length = 2 * 2 ^ 31 ∧
      QRNG.calculate_min_entropy L (List.replicate (2 ^ 31) 1 ++ List.replicate (2 ^ 31) 0)
        = Double.neg (L.log2 (Double.fin (8589934591 / 2))) := by
  refine ⟨?_, ?_, ?_, min_entropy_ones_zeros L (2 ^ 31) rfl⟩
  · intro b hb
    rcases List.mem_append.1 hb with h | h
    · right; exact (List.mem_replicate.1 h).2
    · left; exact (List.mem_replicate.1 h).2
  · rw [List.count_append, List.count_append, List.count_replicate, List.count_replicate,
      List.count_replicate, List.count_replicate]
    decide
  · rw [List.length_append, List.length_replicate, List.length_replicate]
    omega

/-! ### P-values stay in the unit interval -/

namespace Double

theorem rnd_two_pow (K : ℕ) : rnd ((2 : ℚ) ^ K) = 2 ^ K := by
  have := rnd_exact 1 K (by norm_num) (by omega)
  simpa using this

theorem two_pow_lt_max {K : ℕ} (hK : K ≤ 1023) : (2 : ℚ) ^ K < 2 ^ 1024 :=
  pow_lt_pow_right₀ (by norm_num) (by omega)

theorem round_abs_le {q : ℚ} {K : ℕ} (hK : K ≤ 1023) (h : |q| ≤ 2 ^ K) :
    round q = fin (rnd q) ∧ |rnd q| ≤ 2 ^ K := by
  rw [abs_le] at h
  have h1 := rnd_mono h.2
  have h2 := rnd_mono h.1
  rw [rnd_two_pow] at h1
  rw [rnd_neg, rnd_two_pow] at h2
  have h3 : |rnd q| ≤ 2 ^ K := abs_le.2 ⟨h2, h1⟩
  exact ⟨round_of_lt (lt_of_le_of_lt h3 (two_pow_lt_max hK)), h3⟩

theorem round_cases (q : ℚ) : round q = fin (rnd q) ∨ round q = pinf ∨ round q = ninf := by
  unfold round
  split_ifs <;> simp

theorem round_nonneg {q : ℚ} (h : 0 ≤ q) : NonnegExt (round q) := by
  unfold round
  split_ifs with h1 h2
  · left; rfl
  · exfalso
    have hq : q = 0 := le_antisymm (not_lt.1 h2) h
    rw [hq, rnd_zero] at h1
    norm_num at h1
  · right; exact ⟨rnd q, rnd_nonneg h, rfl⟩

theorem abs_nonnegExt {x : Double} (h : x ≠ nan) : NonnegExt (abs x) := by
  cases x with
  | nan => exact absurd rfl h
  | pinf => left; rfl
  | ninf => left; rfl
  | fin q => right; exact ⟨|q|, abs_nonneg q, rfl⟩

theorem sub_fin_ne_nan {x : Double} (h : x ≠ nan) (b : ℚ) : sub x (fin b) ≠ nan := by
  cases x with
  | nan => exact absurd rfl h
  | pinf => simp [sub, neg, add]
  | ninf => simp [sub, neg, add]
  | fin q => rw [sub_fin]; exact round_ne_nan _

theorem div_fin_ne_nan {x : Double} (h : x ≠ nan) {f : ℚ} (hf : f ≠ 0) : div x (fin f) ≠ nan := by
  cases x with
  | nan => exact absurd rfl h
  | pinf => simp only [div, infOfSign]; split_ifs <;> simp
  | ninf => simp only [div, infOfSign]; split_ifs <;> simp
  | fin q => rw [div_fin _ _ hf]; exact round_ne_nan _

theorem div_nonnegExt {x : Double} (h : NonnegExt x) {g : ℚ} (hg : 0 < g) :
    NonnegExt (div x (fin g)) := by
  rcases h with h | ⟨q, hq, h⟩
  · left
    rw [h]
    simp [div, infOfSign, hg.le]
  · rw [h, div_fin _ _ hg.ne']
    exact round_nonneg (div_nonneg hq hg.le)

theorem inUnit_fin {q : ℚ} (h0 : 0 ≤ q) (h1 : q ≤ 1) : inUnit (fin q) := ⟨h0, h1⟩

end Double

/-- The common tail of `frequency_test` and `runs_test`,
`2.0 * (1.0 - 0.5 * (1.0 + erf(|z| / sqrt(2.0))))`, lies in `[0, 1]` whenever `z` is not NaN. -/
theorem two_tailed_inUnit (L : StdLib) (hL : MathContract L) (z : Double) (hz : z ≠ Double.nan) :
    Double.inUnit (Double.mul (Double.fin 2) (Double.sub (Double.fin 1)
      (Double.mul (Double.fin (1 / 2))
        (Double.add (Double.fin 1) (L.erf (Double.div (Double.abs z) (L.sqrt (Double.fin 2)))))))) := by
  obtain ⟨g, hg, hsq⟩ := hL.sqrt_pos 2 (by norm_num)
  obtain ⟨r, hr0, hr1, herf⟩ :=
    hL.erf_unit _ (Double.div_nonnegExt (Double.abs_nonnegExt hz) hg)
  rw [hsq, herf, Double.add_fin]
  have r1 : Double.rnd (1 : ℚ) = 1 := by simpa using Double.rnd_two_pow 0
  have r2 : Double.rnd (2 : ℚ) = 2 := by simpa using Double.rnd_two_pow 1
  have rh : Double.rnd (1 / 2 : ℚ) = 1 / 2 := by
    simpa using Double.rnd_dyadic 1 1 (by norm_num) (by norm_num)
  obtain ⟨e1, a1, b1⟩ := Double.round_between (q := 1 + r) r1 r2 (by linarith) (by linarith)
    (by norm_num) (by norm_num)
  rw [e1, Double.mul_fin]
  obtain ⟨e2, a2, b2⟩ := Double.round_between (q := 1 / 2 * Double.rnd (1 + r)) rh r1
    (by linarith) (by linarith) (by norm_num) (by norm_num)
  rw [e2, Double.sub_fin]
  obtain ⟨e3, a3, b3⟩ := Double.round_between (q := 1 - Double.rnd (1 / 2 * Double.rnd (1 + r)))
    Double.rnd_zero rh (by linarith) (by linarith) (by norm_num) (by norm_num)
  rw [e3, Double.mul_fin]
  obtain ⟨e4, a4, b4⟩ := Double.round_between
    (q := 2 * Double.rnd (1 - Double.rnd (1 / 2 * Double.rnd (1 + r))))
    Double.rnd_zero r1 (by linarith) (by linarith) (by norm_num) (by norm_num)
  rw [e4]
  exact ⟨a4, b4⟩

theorem Double.round_nonneg_le {q : ℚ} {K : ℕ} (hK : K ≤ 1023) (h0 : 0 ≤ q) (h : q ≤ 2 ^ K) :
    Double.round q = Double.fin (Double.rnd q) ∧ 0 ≤ Double.rnd q ∧ Double.rnd q ≤ 2 ^ K := by
  obtain ⟨e, hb⟩ := Double.round_abs_le hK (q := q) (by rw [abs_of_nonneg h0]; exact h)
  exact ⟨e, Double.rnd_nonneg h0, (abs_le.1 hb).2⟩

theorem Double.ofNat_length (bits : List ℕ) (hne : bits ≠ [])
    (hlen : bits.length ≤ vector_max_size) :
    Double.ofNat bits.length = Double.fin (Double.rnd bits.length) ∧
      1 ≤ Double.rnd (bits.length : ℚ) ∧ Double.rnd (bits.length : ℚ) ≤ 2 ^ 63 := by
  have hpos : 0 < bits.length := List.length_pos.2 hne
  obtain ⟨e1, e2, e3, _⟩ := Double.ofNat_count bits.length hpos
    (by unfold vector_max_size at hlen; omega)
  exact ⟨e1, e2, e3⟩

theorem Double.ofNat_ne_nan (n : ℕ) : Double.ofNat n ≠ Double.nan := Double.round_ne_nan _

/-- The p-value of `frequency_test` lies in `[0, 1]` on every non-empty sequence. -/
theorem frequency_test_inUnit (L : StdLib) (hL : MathContract L) (bits : List ℕ)
    (hne : bits ≠ []) (hlen : bits.length ≤ vector_max_size) :
    Double.inUnit (QRNG.frequency_test L bits) := by
  obtain ⟨hN, hb1, hb2⟩ := Double.ofNat_length bits hne hlen
  have h1 : Double.ofInt 1 = Double.fin 1 := by
    simpa using Double.ofInt_exact 1 (by norm_num)
  have hsub : Double.sub (Double.fin 1) (Double.fin (1 / 2)) = Double.fin (1 / 2) := by
    rw [Double.sub_fin]
    have e : (1 : ℚ) - 1 / 2 = 1 / 2 := by norm_num
    rw [e, Double.round_half]
  have hmul : Double.mul (Double.fin (1 / 2)) (Double.fin (1 / 2)) = Double.fin (1 / 4) := by
    rw [Double.mul_fin]
    have e : (1 / 2 : ℚ) * (1 / 2) = ((1 : ℤ) : ℚ) / 2 ^ 2 := by norm_num
    rw [e, Double.round_dyadic 1 2 (by norm_num) (by norm_num)]
    norm_num
  have hbpos : (0 : ℚ) < Double.rnd (bits.length : ℚ) := by linarith
  have rlo : Double.rnd ((1 : ℚ) / 2 ^ 65) = 1 / 2 ^ 65 := by
    simpa using Double.rnd_dyadic 1 65 (by norm_num) (by norm_num)
  have rhi : Double.rnd ((1 : ℚ) / 4) = 1 / 4 := by
    have := Double.rnd_dyadic 1 2 (by norm_num) (by norm_num)
    norm_num at this ⊢
    exact this
  have hq1 : (1 : ℚ) / 2 ^ 65 ≤ 1 / 4 / Double.rnd (bits.length : ℚ) := by
    rw [le_div_iff₀ hbpos]
    have : (1 : ℚ) / 2 ^ 65 * Double.rnd (bits.length : ℚ) ≤ 1 / 2 ^ 65 * 2 ^ 63 :=
      mul_le_mul_of_nonneg_left hb2 (by positivity)
    linarith [show (1 : ℚ) / 2 ^ 65 * 2 ^ 63 = 1 / 4 by norm_num]
  have hq2 : (1 : ℚ) / 4 / Double.rnd (bits.length : ℚ) ≤ 1 / 4 := by
    rw [div_le_iff₀ hbpos]
    nlinarith
  obtain ⟨ed, ad, _⟩ := Double.round_between rlo rhi hq1 hq2 (by norm_num) (by norm_num)
  have hdiv : Double.div (Double.fin (1 / 4)) (Double.fin (Double.rnd (bits.length : ℚ)))
      = Double.fin (Double.rnd (1 / 4 / Double.rnd (bits.length : ℚ))) := by
    rw [Double.div_fin _ _ hbpos.ne', ed]
  have hepos : (0 : ℚ) < Double.rnd (1 / 4 / Double.rnd (bits.length : ℚ)) :=
    lt_of_lt_of_le (by positivity) ad
  obtain ⟨f, hf, hsq⟩ := hL.sqrt_pos _ hepos
  unfold QRNG.frequency_test
  dsimp only
  rw [hN, h1, hsub, hmul, hdiv, hsq]
  apply two_tailed_inUnit L hL
  apply Double.div_fin_ne_nan _ hf.ne'
  apply Double.sub_fin_ne_nan
  exact Double.div_fin_ne_nan (Double.ofNat_ne_nan _) hbpos.ne'

/-- The chi-square statistic of a non-empty sequence is a non-negative finite number. -/
theorem chi_square_statistic_nonneg (bits : List ℕ) (hne : bits ≠ [])
    (hlen : bits.length ≤ vector_max_size) :
    ∃ s : ℚ, 0 ≤ s ∧ s ≤ 2 ^ 130 ∧ chi_square_statistic bits = Double.fin s := by
  obtain ⟨hN, hb1, hb2⟩ := Double.ofNat_length bits hne hlen
  have hcount : ∀ f : ℕ → Bool, ∃ c : ℚ, |c| ≤ 2 ^ 63 ∧
      Double.ofNat (bits.filter f).length = Double.fin c := by
    intro f
    have hle : (bits.filter f).length ≤ bits.length := List.length_filter_le _ _
    have hc : |(((bits.filter f).length : ℕ) : ℚ)| ≤ 2 ^ 63 := by
      rw [abs_of_nonneg (by positivity)]
      have : (bits.filter f).length ≤ 2 ^ 63 := by unfold vector_max_size at hlen; omega
      exact_mod_cast this
    obtain ⟨e, hb⟩ := Double.round_abs_le (K := 63) (by norm_num) hc
    exact ⟨_, hb, e⟩
  have rh : Double.rnd (1 / 2 : ℚ) = 1 / 2 := by
    simpa using Double.rnd_dyadic 1 1 (by norm_num) (by norm_num)
  obtain ⟨eE, aE, bE⟩ := Double.round_between (q := Double.rnd (bits.length : ℚ) / 2) rh
    (Double.rnd_two_pow 62) (by linarith) (by linarith) (by norm_num) (by norm_num)
  set E := Double.rnd (Double.rnd (bits.length : ℚ) / 2) with hE
  have hEpos : 0 < E := by linarith
  have hexp : Double.div (Double.ofNat bits.length) (Double.fin 2) = Double.fin E := by
    rw [hN, Double.div_fin _ _ two_ne_zero, eE]
  have hterm : ∀ c : ℚ, |c| ≤ 2 ^ 63 → ∃ t : ℚ, 0 ≤ t ∧ t ≤ 2 ^ 129 ∧
      Double.div (Double.mul (Double.sub (Double.fin c) (Double.fin E))
        (Double.sub (Double.fin c) (Double.fin E))) (Double.fin E) = Double.fin t := by
    intro c hc
    have hd : |c - E| ≤ 2 ^ 64 := by
      rw [abs_le] at hc ⊢
      constructor <;> linarith
    obtain ⟨ed, bd⟩ := Double.round_abs_le (K := 64) (by norm_num) hd
    set d := Double.rnd (c - E)
    have hsq : d * d ≤ 2 ^ 128 := by
      have := abs_le.1 bd
      nlinarith
    obtain ⟨em, am, bm⟩ := Double.round_nonneg_le (K := 128) (by norm_num)
      (mul_self_nonneg d) hsq
    set m := Double.rnd (d * d)
    have hq0 : 0 ≤ m / E := div_nonneg am hEpos.le
    have hq1 : m / E ≤ 2 ^ 129 := by
      rw [div_le_iff₀ hEpos]
      nlinarith
    obtain ⟨et, at', bt⟩ := Double.round_nonneg_le (K := 129) (by norm_num) hq0 hq1
    refine ⟨_, at', bt, ?_⟩
    rw [Double.sub_fin, ed, Double.mul_fin, em, Double.div_fin _ _ hEpos.ne', et]
  obtain ⟨c0, hc0, e0⟩ := hcount (fun b => b &&& 1 = 0)
  obtain ⟨c1, hc1, e1⟩ := hcount (fun b => b &&& 1 = 1)
  obtain ⟨t0, a0, b0, f0⟩ := hterm c0 hc0
  obtain ⟨t1, a1, b1, f1⟩ := hterm c1 hc1
  obtain ⟨eu, au, bu⟩ := Double.round_nonneg_le (K := 129) (q := 0 + t0) (by norm_num)
    (by linarith) (by linarith)
  obtain ⟨es, as', bs⟩ := Double.round_nonneg_le (K := 130) (q := Double.rnd (0 + t0) + t1)
    (by norm_num) (by linarith) (by linarith)
  refine ⟨_, as', bs, ?_⟩
  unfold chi_square_statistic
  dsimp only
  rw [hexp, e0, e1, f0, f1, Double.add_fin, eu, Double.add_fin, es]

/-- The p-value of `chi_square_test` lies in `[0, 1]` on every non-empty sequence. -/
theorem chi_square_test_inUnit (L : StdLib) (hL : MathContract L) (bits : List ℕ)
    (hne : bits ≠ []) (hlen : bits.length ≤ vector_max_size) :
    Double.inUnit (QRNG.chi_square_test L bits) := by
  obtain ⟨s, hs0, hs1, hs⟩ := chi_square_statistic_nonneg bits hne hlen
  obtain ⟨ev, av, _⟩ := Double.round_nonneg_le (K := 130) (q := s / 2) (by norm_num)
    (by linarith) (by linarith)
  have hsqrt : Double.NonnegExt (L.sqrt (Double.fin (Double.rnd (s / 2)))) := by
    rcases av.eq_or_lt with h0 | hpos
    · rw [← h0, hL.sqrt_zero]
      exact Or.inr ⟨0, le_rfl, rfl⟩
    · obtain ⟨f, hf, hsq⟩ := hL.sqrt_pos _ hpos
      rw [hsq]
      exact Or.inr ⟨f, hf.le, rfl⟩
  obtain ⟨r, hr0, hr1, herfc⟩ := hL.erfc_unit _ hsqrt
  unfold QRNG.chi_square_test
  rw [hs, Double.div_fin _ _ two_ne_zero, ev, herfc]
  exact ⟨hr0, hr1⟩

/-! ### The variance of the runs test is never negative -/

namespace Double

theorem normal_of_ge {q : ℚ} (h : (1 : ℚ) / 2 ^ 64 ≤ q) : (2 : ℚ) ^ (-1022 : ℤ) ≤ |q| := by
  have h1 : (2 : ℚ) ^ (-1022 : ℤ) ≤ (2 : ℚ) ^ (-64 : ℤ) :=
    zpow_le_zpow_right₀ (by norm_num) (by norm_num)
  have h2 : (2 : ℚ) ^ (-64 : ℤ) = 1 / 2 ^ 64 := by
    rw [zpow_neg, one_div]
    norm_cast
  have hq : 0 ≤ q := le_trans (by positivity) h
  rw [abs_of_nonneg hq]
  calc (2 : ℚ) ^ (-1022 : ℤ) ≤ (2 : ℚ) ^ (-64 : ℤ) := h1
    _ = 1 / 2 ^ 64 := h2
    _ ≤ q := h

theorem rnd_ge_of_pos {q : ℚ} (h : (1 : ℚ) / 2 ^ 64 ≤ q) : q * (1 - 1 / 2 ^ 53) ≤ rnd q := by
  have hq : 0 ≤ q := le_trans (by positivity) h
  have := rnd_rel_error (normal_of_ge h)
  rw [abs_of_nonneg hq, abs_le] at this
  linarith [this.1]

theorem rnd_le_of_pos {q : ℚ} (h : (1 : ℚ) / 2 ^ 64 ≤ q) : rnd q ≤ q * (1 + 1 / 2 ^ 53) := by
  have hq : 0 ≤ q := le_trans (by positivity) h
  have := rnd_rel_error (normal_of_ge h)
  rw [abs_of_nonneg hq, abs_le] at this
  linarith [this.2]

theorem rnd_one : rnd (1 : ℚ) = 1 := by simpa using rnd_two_pow 0

theorem rnd_half : rnd (1 / 2 : ℚ) = 1 / 2 := by
  simpa using rnd_dyadic 1 1 (by norm_num) (by norm_num)

theorem rnd_quarter : rnd (1 / 4 : ℚ) = 1 / 4 := by
  have := rnd_dyadic 1 2 (by norm_num) (by norm_num)
  norm_num at this ⊢
  exact this

theorem rnd_three_quarters : rnd (3 / 4 : ℚ) = 3 / 4 := by
  have := rnd_dyadic 3 2 (by norm_num) (by norm_num)
  norm_num at this ⊢
  exact this

theorem rnd_five : rnd (5 : ℚ) = 5 := by simpa using rnd_natCast 5 (by norm_num)

theorem rnd_pred_two : rnd ((2 : ℚ) - 1 / 2 ^ 52) = 2 - 1 / 2 ^ 52 := by
  have := rnd_dyadic (2 ^ 53 - 1) 52 (by norm_num) (by norm_num)
  have e : (((2 ^ 53 - 1 : ℤ)) : ℚ) / 2 ^ 52 = 2 - 1 / 2 ^ 52 := by norm_num
  rwa [e] at this

/-- Two lower bounds on exact factors give a lower bound on the rounded factors. -/
theorem product_of_bounds {a c A Q k : ℚ} (ha : rnd a = a) (hc : rnd c = c) (hA : a ≤ A)
    (hQ : c ≤ Q) (ha0 : 0 ≤ a) (hc0 : 0 ≤ c) (h : k ≤ a * c) : k ≤ rnd A * rnd Q := by
  have h1 : a ≤ rnd A := by have := rnd_mono hA; rwa [ha] at this
  have h2 : c ≤ rnd Q := by have := rnd_mono hQ; rwa [hc] at this
  calc k ≤ a * c := h
    _ ≤ rnd A * c := mul_le_mul_of_nonneg_right h1 hc0
    _ ≤ rnd A * rnd Q := mul_le_mul_of_nonneg_left h2 (le_trans ha0 h1)

/-- Case `P ≤ 1/4` of the runs product. -/
theorem runs_product_case1 {b w x P : ℚ} (hb : 0 < b) (hw : 1 ≤ w) (hx : x * b = w)
    (hPlow : x * (1 - 1 / 2 ^ 53) ≤ P) (hP : P ≤ 1 / 4) :
    5 / 4 ≤ rnd (2 * b * P) * rnd (1 - P) := by
  have h1 : 2 - 1 / 2 ^ 52 ≤ 2 * b * P := by
    have h2 : 2 * b * (x * (1 - 1 / 2 ^ 53)) ≤ 2 * b * P :=
      mul_le_mul_of_nonneg_left hPlow (by positivity)
    have e : 2 * b * (x * (1 - 1 / 2 ^ 53)) = 2 * w * (1 - 1 / 2 ^ 53) := by
      rw [← hx]; ring
    rw [e] at h2
    have h3 : 2 * 1 * (1 - 1 / 2 ^ 53) ≤ 2 * w * (1 - 1 / 2 ^ 53) :=
      mul_le_mul_of_nonneg_right (by linarith) (by norm_num)
    have e2 : (2 : ℚ) * 1 * (1 - 1 / 2 ^ 53) = 2 - 1 / 2 ^ 52 := by norm_num
    linarith
  exact product_of_bounds rnd_pred_two rnd_three_quarters h1 (by linarith) (by norm_num)
    (by norm_num) (by norm_num)

/-- Case `1/4 < P ≤ 1/2` of the runs product. -/
theorem runs_product_case2 {b P : ℚ} (hb : 10 ≤ b) (hP4 : 1 / 4 < P) (hP : P ≤ 1 / 2) :
    5 / 4 ≤ rnd (2 * b * P) * rnd (1 - P) := by
  have h1 : (5 : ℚ) ≤ 2 * b * P := by
    have : 2 * 10 * (1 / 4) ≤ 2 * b * P :=
      mul_le_mul (by linarith) hP4.le (by norm_num) (by linarith)
    linarith
  exact product_of_bounds rnd_five rnd_half h1 (by linarith) (by norm_num) (by norm_num)
    (by norm_num)

/-- Case `1/2 < P < 3/4` of the runs product. -/
theorem runs_product_case3 {b P : ℚ} (hb : 10 ≤ b) (hbr : rnd b = b) (hP2 : 1 / 2 < P)
    (hP : P < 3 / 4) : 5 / 4 ≤ rnd (2 * b * P) * rnd (1 - P) := by
  have h1 : b ≤ 2 * b * P := by
    have : 2 * b * (1 / 2) ≤ 2 * b * P := mul_le_mul_of_nonneg_left hP2.le (by linarith)
    linarith
  exact product_of_bounds hbr rnd_quarter h1 (by linarith) (by linarith) (by norm_num)
    (by linarith)

/-- Case `3/4 ≤ P` of the runs product: the length is exact and below `2^32`. -/
theorem runs_product_case4 {b P : ℚ} (hb0 : 0 < b) (hb32 : b < 2 ^ 32)
    (h3b : rnd (3 * b / 2) = 3 * b / 2) (hy : 1 / b - 1 / 2 ^ 53 ≤ 1 - P) (hP : 3 / 4 ≤ P) :
    5 / 4 ≤ rnd (2 * b * P) * rnd (1 - P) := by
  have hA : 3 * b / 2 ≤ rnd (2 * b * P) := by
    have h1 : 3 * b / 2 ≤ 2 * b * P := by
      have : 2 * b * (3 / 4) ≤ 2 * b * P := mul_le_mul_of_nonneg_left hP (by linarith)
      linarith
    have := rnd_mono h1
    rwa [h3b] at this
  have hinv : 1 / (2 : ℚ) ^ 32 < 1 / b := one_div_lt_one_div_of_lt hb0 hb32
  have hypos : (0 : ℚ) < 1 / b - 1 / 2 ^ 53 := by
    linarith [show (1 : ℚ) / 2 ^ 53 < 1 / 2 ^ 32 by norm_num]
  have hQlow : (1 : ℚ) / 2 ^ 64 ≤ 1 - P := by
    linarith [show (1 : ℚ) / 2 ^ 64 ≤ 1 / 2 ^ 32 - 1 / 2 ^ 53 by norm_num]
  have hQ : (1 / b - 1 / 2 ^ 53) * (1 - 1 / 2 ^ 53) ≤ rnd (1 - P) := by
    have h1 := rnd_ge_of_pos hQlow
    have h2 : (1 / b - 1 / 2 ^ 53) * (1 - 1 / 2 ^ 53) ≤ (1 - P) * (1 - 1 / 2 ^ 53) :=
      mul_le_mul_of_nonneg_right hy (by norm_num)
    linarith
  have hprod : 5 / 4 ≤ 3 * b / 2 * ((1 / b - 1 / 2 ^ 53) * (1 - 1 / 2 ^ 53)) := by
    have e : 3 * b / 2 * ((1 / b - 1 / 2 ^ 53) * (1 - 1 / 2 ^ 53))
        = 3 / 2 * (1 - b / 2 ^ 53) * (1 - 1 / 2 ^ 53) := by
      field_simp
      ring
    rw [e]
    have hbs : b / 2 ^ 53 ≤ 1 / 2 ^ 21 := by
      rw [div_le_iff₀ (by positivity)]
      linarith [show (1 : ℚ) / 2 ^ 21 * 2 ^ 53 = 2 ^ 32 by norm_num]
    have h4 : 3 / 2 * (1 - 1 / 2 ^ 21) * (1 - 1 / 2 ^ 53)
        ≤ 3 / 2 * (1 - b / 2 ^ 53) * (1 - 1 / 2 ^ 53) :=
      mul_le_mul_of_nonneg_right (by linarith) (by norm_num)
    linarith [show (5 / 4 : ℚ) ≤ 3 / 2 * (1 - 1 / 2 ^ 21) * (1 - 1 / 2 ^ 53) by norm_num]
  have hQpos : 0 ≤ (1 / b - 1 / 2 ^ 53) * (1 - 1 / 2 ^ 53) :=
    mul_nonneg hypos.le (by norm_num)
  calc (5 / 4 : ℚ) ≤ 3 * b / 2 * ((1 / b - 1 / 2 ^ 53) * (1 - 1 / 2 ^ 53)) := hprod
    _ ≤ rnd (2 * b * P) * ((1 / b - 1 / 2 ^ 53) * (1 - 1 / 2 ^ 53)) :=
      mul_le_mul_of_nonneg_right hA hQpos
    _ ≤ rnd (2 * b * P) * rnd (1 - P) :=
      mul_le_mul_of_nonneg_left hQ (le_trans (by positivity) hA)

end Double

namespace Double

theorem rnd_five_quarters : rnd (5 / 4 : ℚ) = 5 / 4 := by
  have := rnd_dyadic 5 2 (by norm_num) (by norm_num)
  norm_num at this ⊢
  exact this

/-- The rounded product `fl(fl(2 b P) Q)` of the runs test, with `b` the converted length,
`P = fl(w / b)` and `Q = fl(1 - P)`, is at least `5/4` whenever the sum `w` satisfies
`1 ≤ w < n`. -/
theorem runs_product_ge (n : ℕ) (w : ℤ) (hn10 : 10 ≤ n) (hn63 : n ≤ 2 ^ 63)
    (hw1 : 1 ≤ w) (hwn : w < n) (hw31 : w < 2 ^ 31) :
    5 / 4 ≤ rnd (rnd (2 * rnd (n : ℚ) * rnd ((w : ℚ) / rnd (n : ℚ)))
      * rnd (1 - rnd ((w : ℚ) / rnd (n : ℚ)))) := by
  have hnq10 : (10 : ℚ) ≤ n := by exact_mod_cast hn10
  have hnq63 : (n : ℚ) ≤ 2 ^ 63 := by exact_mod_cast hn63
  have r10 : rnd (10 : ℚ) = 10 := by simpa using rnd_natCast 10 (by norm_num)
  have hb10 : (10 : ℚ) ≤ rnd (n : ℚ) := by have := rnd_mono hnq10; rwa [r10] at this
  have hb63 : rnd (n : ℚ) ≤ 2 ^ 63 := by have := rnd_mono hnq63; rwa [rnd_two_pow] at this
  have hbr : rnd (rnd (n : ℚ)) = rnd (n : ℚ) := rnd_idem _
  generalize hb : rnd (n : ℚ) = b at hb10 hb63 hbr ⊢
  have hbpos : (0 : ℚ) < b := by linarith
  have hwq1 : (1 : ℚ) ≤ w := by exact_mod_cast hw1
  have hwq31 : (w : ℚ) ≤ 2 ^ 31 := by exact_mod_cast hw31.le
  have hxb : (w : ℚ) / b * b = w := by field_simp
  have hxlow : (1 : ℚ) / 2 ^ 64 ≤ (w : ℚ) / b := by
    rw [div_le_div_iff₀ (by positivity) hbpos]
    have : (1 : ℚ) * b ≤ 1 * 2 ^ 63 := by linarith
    nlinarith
  have hPlow := rnd_ge_of_pos hxlow
  have hPup := rnd_le_of_pos hxlow
  generalize hP : rnd ((w : ℚ) / b) = P at hPlow hPup ⊢
  suffices h : 5 / 4 ≤ rnd (2 * b * P) * rnd (1 - P) by
    have := rnd_mono h
    rwa [rnd_five_quarters] at this
  rcases le_or_lt P (1 / 4) with hP4 | hP4
  · exact runs_product_case1 hbpos hwq1 hxb hPlow hP4
  rcases le_or_lt P (1 / 2) with hP2 | hP2
  · exact runs_product_case2 hb10 hP4 hP2
  rcases lt_or_le P (3 / 4) with hP3 | hP3
  · exact runs_product_case3 hb10 hbr hP2 hP3
  -- 3/4 ≤ P: the length is below 2^32 and is converted exactly
  have hb32 : b < 2 ^ 32 := by
    by_contra hcon
    push_neg at hcon
    have hx2 : (w : ℚ) / b ≤ 1 / 2 := by
      rw [div_le_iff₀ hbpos]
      linarith
    have := rnd_mono hx2
    rw [rnd_half, hP] at this
    linarith
  have hn53 : n < 2 ^ 53 := by
    by_contra hcon
    push_neg at hcon
    have h1 : (2 : ℚ) ^ 53 ≤ n := by exact_mod_cast hcon
    have := rnd_mono h1
    rw [rnd_two_pow, hb] at this
    linarith [show (2 : ℚ) ^ 32 < 2 ^ 53 by norm_num]
  have hbn : b = n := by rw [← hb]; exact rnd_natCast n hn53
  have hn32 : n < 2 ^ 32 := by
    have : (n : ℚ) < 2 ^ 32 := by rw [← hbn]; exact hb32
    exact_mod_cast this
  have hwn' : (w : ℚ) ≤ b - 1 := by
    rw [hbn]
    have : w ≤ (n : ℤ) - 1 := by omega
    exact_mod_cast this
  have hx1 : (w : ℚ) / b ≤ 1 - 1 / b := by
    rw [div_le_iff₀ hbpos]
    have : (1 - 1 / b) * b = b - 1 := by field_simp
    rw [this]
    exact hwn'
  have hy : 1 / b - 1 / 2 ^ 53 ≤ 1 - P := by
    have hinv : (0 : ℚ) < 1 / b := by positivity
    have hx1' : (w : ℚ) / b ≤ 1 := by linarith
    have : (w : ℚ) / b * (1 + 1 / 2 ^ 53) ≤ (w : ℚ) / b + 1 / 2 ^ 53 := by
      have : (w : ℚ) / b * (1 / 2 ^ 53) ≤ 1 * (1 / 2 ^ 53) :=
        mul_le_mul_of_nonneg_right hx1' (by norm_num)
      linarith
    linarith
  have h3b : rnd (3 * b / 2) = 3 * b / 2 := by
    rw [hbn]
    have hlt : |(3 * (n : ℤ))| < 2 ^ 53 := by
      rw [abs_of_nonneg (by positivity)]
      omega
    have := rnd_dyadic (3 * (n : ℤ)) 1 hlt (by norm_num)
    push_cast at this
    simpa using this
  exact runs_product_case4 hbpos hb32 h3b hy hP3

/-- The rounded product `fl(fl(2 b P) Q)` of the runs test is at least 1 whenever the sum `w`
satisfies `1 ≤ w < n`. -/
theorem runs_product_ge_one (n : ℕ) (w : ℤ) (hn10 : 10 ≤ n) (hn63 : n ≤ 2 ^ 63)
    (hw1 : 1 ≤ w) (hwn : w < n) (hw31 : w < 2 ^ 31) :
    1 ≤ rnd (rnd (2 * rnd (n : ℚ) * rnd ((w : ℚ) / rnd (n : ℚ)))
      * rnd (1 - rnd ((w : ℚ) / rnd (n : ℚ)))) :=
  le_trans (by norm_num) (runs_product_ge n w hn10 hn63 hw1 hwn hw31)

/-- The product `(E - 1)(E - 2)` in the variance is never negative when the rounded `2 n p q`
is at most 0 or at least 1. -/
theorem runs_uv_nonneg {X : ℚ} (h : X ≤ 0 ∨ 1 ≤ X) :
    0 ≤ rnd (rnd (X + 1) - 1) * rnd (rnd (X + 1) - 2) := by
  have r2 : rnd (2 : ℚ) = 2 := by simpa using rnd_two_pow 1
  rcases h with h | h
  · have hE : rnd (X + 1) ≤ 1 := by
      have := rnd_mono (show X + 1 ≤ 1 by linarith)
      rwa [rnd_one] at this
    exact mul_nonneg_of_nonpos_of_nonpos (rnd_nonpos (by linarith)) (rnd_nonpos (by linarith))
  · have hE : 2 ≤ rnd (X + 1) := by
      have := rnd_mono (show (2 : ℚ) ≤ X + 1 by linarith)
      rwa [r2] at this
    exact mul_nonneg (rnd_nonneg (by linarith)) (rnd_nonneg (by linarith))

/-- The rounded `2 n p q` of the runs test is at most 0 or at least 1, for every `int` sum
`w` of a 0/1 sequence of length `n`: `w ≤ 0` (wrapped sums included), `w = n`, or
`1 ≤ w < n`. -/
theorem runs_product_cases (n : ℕ) (w : ℤ) (hn10 : 10 ≤ n) (hn63 : n ≤ 2 ^ 63)
    (hwn : w ≤ n) (hw31 : w < 2 ^ 31) :
    rnd (rnd (2 * rnd (n : ℚ) * rnd ((w : ℚ) / rnd (n : ℚ)))
        * rnd (1 - rnd ((w : ℚ) / rnd (n : ℚ)))) ≤ 0 ∨
      1 ≤ rnd (rnd (2 * rnd (n : ℚ) * rnd ((w : ℚ) / rnd (n : ℚ)))
        * rnd (1 - rnd ((w : ℚ) / rnd (n : ℚ)))) := by
  have hnq10 : (10 : ℚ) ≤ n := by exact_mod_cast hn10
  have r10 : rnd (10 : ℚ) = 10 := by simpa using rnd_natCast 10 (by norm_num)
  have hb10 : (10 : ℚ) ≤ rnd (n : ℚ) := by have := rnd_mono hnq10; rwa [r10] at this
  have hbpos : (0 : ℚ) < rnd (n : ℚ) := by linarith
  rcases le_or_lt w 0 with hw0 | hw0
  · left
    have hwq : (w : ℚ) ≤ 0 := by exact_mod_cast hw0
    have hP : rnd ((w : ℚ) / rnd (n : ℚ)) ≤ 0 :=
      rnd_nonpos (div_nonpos_of_nonpos_of_nonneg hwq hbpos.le)
    have hQ : 0 ≤ rnd (1 - rnd ((w : ℚ) / rnd (n : ℚ))) := rnd_nonneg (by linarith)
    have hA : rnd (2 * rnd (n : ℚ) * rnd ((w : ℚ) / rnd (n : ℚ))) ≤ 0 :=
      rnd_nonpos (mul_nonpos_of_nonneg_of_nonpos (by linarith) hP)
    exact rnd_nonpos (mul_nonpos_of_nonpos_of_nonneg hA hQ)
  · rcases hwn.lt_or_eq with hlt | heq
    · right
      exact runs_product_ge_one n w hn10 hn63 (by omega) hlt hw31
    · left
      have hn53 : n < 2 ^ 53 := by omega
      have hbn : rnd (n : ℚ) = n := rnd_natCast n hn53
      have hwq : (w : ℚ) = n := by exact_mod_cast heq
      have hx : (w : ℚ) / rnd (n : ℚ) = 1 := by
        rw [hbn, hwq]
        exact div_self (by linarith [hbn ▸ hbpos])
      rw [hx, rnd_one, sub_self, rnd_zero, mul_zero, rnd_zero]

end Double

namespace Double

theorem mul_fin_bound {a c : ℚ} {i j : ℕ} (hij : i + j ≤ 1023) (ha : |a| ≤ 2 ^ i)
    (hc : |c| ≤ 2 ^ j) :
    mul (fin a) (fin c) = fin (rnd (a * c)) ∧ |rnd (a * c)| ≤ 2 ^ (i + j) := by
  have h : |a * c| ≤ 2 ^ (i + j) := by
    rw [abs_mul, pow_add]
    exact mul_le_mul ha hc (abs_nonneg _) (by positivity)
  obtain ⟨e, hb⟩ := round_abs_le hij h
  exact ⟨by rw [mul_fin, e], hb⟩

theorem add_fin_bound {a c : ℚ} {i : ℕ} (hi : i + 1 ≤ 1023) (ha : |a| ≤ 2 ^ i)
    (hc : |c| ≤ 2 ^ i) :
    add (fin a) (fin c) = fin (rnd (a + c)) ∧ |rnd (a + c)| ≤ 2 ^ (i + 1) := by
  have h : |a + c| ≤ 2 ^ (i + 1) := by
    rw [pow_succ]
    have := abs_add a c
    linarith
  obtain ⟨e, hb⟩ := round_abs_le hi h
  exact ⟨by rw [add_fin, e], hb⟩

theorem sub_fin_bound {a c : ℚ} {i : ℕ} (hi : i + 1 ≤ 1023) (ha : |a| ≤ 2 ^ i)
    (hc : |c| ≤ 2 ^ i) :
    sub (fin a) (fin c) = fin (rnd (a - c)) ∧ |rnd (a - c)| ≤ 2 ^ (i + 1) := by
  have h : |a - c| ≤ 2 ^ (i + 1) := by
    rw [pow_succ]
    have := abs_sub a c
    linarith
  obtain ⟨e, hb⟩ := round_abs_le hi h
  exact ⟨by rw [sub_fin, e], hb⟩

theorem div_fin_bound {a c : ℚ} {i : ℕ} (hi : i ≤ 1023) (ha : |a| ≤ 2 ^ i) (hc : 1 ≤ c) :
    div (fin a) (fin c) = fin (rnd (a / c)) ∧ |rnd (a / c)| ≤ 2 ^ i := by
  have hc0 : 0 < c := by linarith
  have h : |a / c| ≤ 2 ^ i := by
    rw [abs_div, abs_of_pos hc0]
    exact le_trans (div_le_self (abs_nonneg _) hc) ha
  obtain ⟨e, hb⟩ := round_abs_le hi h
  exact ⟨by rw [div_fin _ _ hc0.ne', e], hb⟩

theorem eq_fin_zero {v : ℚ} : Double.eq (fin v) (fin 0) = true ↔ v = 0 := by
  simp [Double.eq]

theorem abs_le_pow_of_le {a : ℚ} {i j : ℕ} (h : |a| ≤ 2 ^ i) (hij : i ≤ j) : |a| ≤ 2 ^ j :=
  le_trans h (pow_le_pow_right₀ (by norm_num) hij)

end Double

theorem accumulate_int_le_length (bits : List ℕ) (h01 : ∀ b ∈ bits, b ≤ 1) :
    -(2 ^ 31) ≤ accumulate_int bits ∧ accumulate_int bits < 2 ^ 31 ∧
      accumulate_int bits ≤ bits.length := by
  have hsum := sum_eq_count_one bits h01
  have hcnt := count_zero_add_count_one bits h01
  rw [accumulate_int_eq, hsum]
  have hr := toInt32_range ((bits.count 1 : ℕ) : ℤ)
  refine ⟨hr.1, hr.2, ?_⟩
  unfold toInt32 at hr ⊢
  omega

/-- The p-value of `runs_test` lies in `[0, 1]` on every 0/1 sequence. -/
theorem runs_test_inUnit (L : StdLib) (hL : MathContract L) (bits : List ℕ)
    (h01 : ∀ b ∈ bits, b ≤ 1) (hlen : bits.length ≤ vector_max_size) :
    Double.inUnit (QRNG.runs_test L bits) := by
  unfold QRNG.runs_test
  dsimp only
  by_cases hshort : bits.length < 10
  · rw [if_pos hshort]
    exact ⟨le_rfl, zero_le_one⟩
  rw [if_neg hshort]
  have hn10 : 10 ≤ bits.length := by omega
  have hn63 : bits.length ≤ 2 ^ 63 := by unfold vector_max_size at hlen; omega
  have hne : bits ≠ [] := by
    intro h
    rw [h] at hn10
    simp at hn10
  obtain ⟨hw0, hw1, hwn⟩ := accumulate_int_le_length bits h01
  obtain ⟨hN, _, hb63⟩ := Double.ofNat_length bits hne hlen
  have hnq10 : (10 : ℚ) ≤ bits.length := by exact_mod_cast hn10
  have r10 : Double.rnd (10 : ℚ) = 10 := by simpa using Double.rnd_natCast 10 (by norm_num)
  have hb10 : (10 : ℚ) ≤ Double.rnd (bits.length : ℚ) := by
    have := Double.rnd_mono hnq10; rwa [r10] at this
  have hbabs : |Double.rnd (bits.length : ℚ)| ≤ 2 ^ 63 := by
    rw [abs_of_nonneg (by linarith)]; exact hb63
  have hW : Double.ofInt (accumulate_int bits) = Double.fin (accumulate_int bits) :=
    Double.ofInt_exact _ (by rw [abs_lt]; constructor <;> omega)
  have hwabs : |((accumulate_int bits : ℤ) : ℚ)| ≤ 2 ^ 31 := by
    rw [abs_le]
    constructor
    · exact_mod_cast hw0
    · exact_mod_cast hw1.le
  have h1abs : |(1 : ℚ)| ≤ 2 ^ 31 := by norm_num
  obtain ⟨hp, hpb⟩ := Double.div_fin_bound (i := 31) (by norm_num) hwabs
    (show (1 : ℚ) ≤ Double.rnd (bits.length : ℚ) by linarith)
  obtain ⟨hq, hqb⟩ := Double.sub_fin_bound (i := 31) (by norm_num) h1abs hpb
  have h2b : Double.mul (Double.fin 2) (Double.fin (Double.rnd (bits.length : ℚ)))
      = Double.fin (2 * Double.rnd (bits.length : ℚ)) := by
    rw [Double.mul_fin]
    apply Double.round_exact
    · rw [Double.rnd_two_mul (Double.normal_of_ge (by linarith [show (1 : ℚ) / 2 ^ 64 ≤ 10 by norm_num])),
        Double.rnd_idem]
    · rw [abs_of_nonneg (by linarith)]
      linarith [show (2 : ℚ) * 2 ^ 63 < 2 ^ 1024 by norm_num]
  have h2babs : |2 * Double.rnd (bits.length : ℚ)| ≤ 2 ^ 64 := by
    rw [abs_of_nonneg (by linarith)]
    linarith [show (2 : ℚ) * 2 ^ 63 = 2 ^ 64 by norm_num]
  obtain ⟨hA, hAb⟩ := Double.mul_fin_bound (i := 64) (j := 31) (by norm_num) h2babs hpb
  obtain ⟨hX, hXb⟩ := Double.mul_fin_bound (i := 64 + 31) (j := 31 + 1) (by norm_num) hAb hqb
  obtain ⟨hE, hEb⟩ := Double.add_fin_bound (i := 64 + 31 + (31 + 1)) (by norm_num) hXb
    (show |(1 : ℚ)| ≤ 2 ^ (64 + 31 + (31 + 1)) by norm_num)
  obtain ⟨hU, hUb⟩ := Double.sub_fin_bound (i := 64 + 31 + (31 + 1) + 1) (by norm_num) hEb
    (show |(1 : ℚ)| ≤ 2 ^ (64 + 31 + (31 + 1) + 1) by norm_num)
  obtain ⟨hV, hVb⟩ := Double.sub_fin_bound (i := 64 + 31 + (31 + 1) + 1) (by norm_num) hEb
    (show |(2 : ℚ)| ≤ 2 ^ (64 + 31 + (31 + 1) + 1) by norm_num)
  obtain ⟨hM, hMb⟩ := Double.mul_fin_bound (i := 64 + 31 + (31 + 1) + 1 + 1)
    (j := 64 + 31 + (31 + 1) + 1 + 1) (by norm_num) hUb hVb
  have r9 : Double.rnd (9 : ℚ) = 9 := by simpa using Double.rnd_natCast 9 (by norm_num)
  obtain ⟨eD, aD, _⟩ := Double.round_between (q := Double.rnd (bits.length : ℚ) - 1) r9
    (Double.rnd_two_pow 63) (by linarith) (by linarith) (by norm_num) (by norm_num)
  have hD : Double.sub (Double.fin (Double.rnd (bits.length : ℚ))) (Double.fin 1)
      = Double.fin (Double.rnd (Double.rnd (bits.length : ℚ) - 1)) := by
    rw [Double.sub_fin, eD]
  obtain ⟨hVar, _⟩ := Double.div_fin_bound
    (i := 64 + 31 + (31 + 1) + 1 + 1 + (64 + 31 + (31 + 1) + 1 + 1)) (by norm_num) hMb
    (show (1 : ℚ) ≤ Double.rnd (Double.rnd (bits.length : ℚ) - 1) by linarith)
  -- the variance is not negative
  have hcases := Double.runs_product_cases bits.length (accumulate_int bits) hn10 hn63 hwn hw1
  have huv := Double.runs_uv_nonneg hcases
  have hMpos := Double.rnd_nonneg huv
  have hVarpos := Double.rnd_nonneg (div_nonneg hMpos
    (show (0 : ℚ) ≤ Double.rnd (Double.rnd (bits.length : ℚ) - 1) by linarith))
  simp only [hN, hW, hp, hq, h2b, hA, hX, hE, hU, hV, hM, hD, hVar]
  split_ifs with hzero
  · exact ⟨le_rfl, zero_le_one⟩
  · have hne0 := mt Double.eq_fin_zero.2 hzero
    obtain ⟨f, hf, hsq⟩ := hL.sqrt_pos _ (lt_of_le_of_ne hVarpos (Ne.symm hne0))
    rw [hsq]
    apply two_tailed_inUnit L hL
    apply Double.div_fin_ne_nan _ hf.ne'
    apply Double.sub_fin_ne_nan
    exact Double.ofNat_ne_nan _

/-- C7: on every non-empty sequence of 0/1 values, each of the three p-value functions
`frequency_test`, `runs_test` and `chi_square_test` returns a finite value within `[0, 1]`
(never NaN), for every math library that meets `MathContract`.  The `int` accumulator may
wrap: the statement covers every length a `std::vector` can have. -/
theorem C7_p_values_in_unit_interval (L : StdLib) (hL : MathContract L) (bits : List ℕ)
    (hne : bits ≠ []) (h01 : ∀ b ∈ bits, b = 0 ∨ b = 1)
    (hlen : bits.length ≤ vector_max_size) :
    Double.inUnit (QRNG.frequency_test L bits) ∧ Double.inUnit (QRNG.runs_test L bits) ∧
      Double.inUnit (QRNG.chi_square_test L bits) := by
  have h01' : ∀ b ∈ bits, b ≤ 1 := by
    intro b hb
    rcases h01 b hb with h | h <;> omega
  exact ⟨frequency_test_inUnit L hL bits hne hlen, runs_test_inUnit L hL bits h01' hlen,
    chi_square_test_inUnit L hL bits hne hlen⟩

theorem sampleLib_contract : MathContract sampleLib where
  sqrt_pos := by
    intro q hq
    refine ⟨(q + 1) / 2, by positivity, ?_⟩
    simp [sampleLib, not_lt.2 hq.le, hq.ne']
  sqrt_zero := by simp [sampleLib]
  erf_unit := by
    intro x hx
    rcases hx with h | ⟨q, hq, h⟩
    · exact ⟨1, by norm_num, le_rfl, by rw [h]; rfl⟩
    · rcases hq.eq_or_lt with h0 | hpos
      · exact ⟨0, le_rfl, by norm_num, by rw [h, ← h0]; simp [sampleLib]⟩
      · exact ⟨1, by norm_num, le_rfl, by rw [h]; simp [sampleLib, hpos.ne', hpos]⟩
  erfc_unit := by
    intro x hx
    rcases hx with h | ⟨q, hq, h⟩
    · exact ⟨0, le_rfl, by norm_num, by rw [h]; rfl⟩
    · rcases hq.eq_or_lt with h0 | hpos
      · exact ⟨1, by norm_num, le_rfl, by rw [h, ← h0]; simp [sampleLib]⟩
      · exact ⟨0, le_rfl, by norm_num, by rw [h]; simp [sampleLib, hpos.ne', hpos]⟩

theorem C7_p_values_in_unit_interval_witness :
    MathContract sampleLib ∧ [1, 0, 1, 1, 0, 0, 1, 0, 1, 0, 0, 1] ≠ ([] : List ℕ) ∧
      (∀ b ∈ [1, 0, 1, 1, 0, 0, 1, 0, 1, 0, 0, 1], b = 0 ∨ b = 1) ∧
      [1, 0, 1, 1, 0, 0, 1, 0, 1, 0, 0, 1].length ≤ vector_max_size ∧
      (Double.inUnit (QRNG.frequency_test sampleLib [1, 0, 1, 1, 0, 0, 1, 0, 1, 0, 0, 1]) ∧
        Double.inUnit (QRNG.runs_test sampleLib [1, 0, 1, 1, 0, 0, 1, 0, 1, 0, 0, 1]) ∧
        Double.inUnit (QRNG.chi_square_test sampleLib [1, 0, 1, 1, 0, 0, 1, 0, 1, 0, 0, 1])) :=
  ⟨sampleLib_contract, by simp, by decide, by unfold vector_max_size; simp,
    C7_p_values_in_unit_interval sampleLib sampleLib_contract [1, 0, 1, 1, 0, 0, 1, 0, 1, 0, 0, 1]
      (by simp) (by decide) (by unfold vector_max_size; simp)⟩

/-! ### The pass flags of the tester and the flag of the generator -/

/-- C11: for every bit sequence and every tester (in particular every tester the constructor
accepts), `test` sets each of the three pass flags to the outcome of the comparison
`p_value >= alpha` on the p-value it reports; for a finite p-value `p` and a finite
significance level `a` the flag is true exactly when `a ≤ p`, and it is false when the
p-value or `alpha` is NaN. -/
theorem C11_pass_flags (L : StdLib) (t : RandomnessTester) (bits : List ℕ) :
    ((RandomnessTester.test L t bits).frequency_test_passed
        = Double.ge (RandomnessTester.test L t bits).frequency_pvalue t.config_.alpha ∧
      (RandomnessTester.test L t bits).runs_test_passed
        = Double.ge (RandomnessTester.test L t bits).runs_pvalue t.config_.alpha ∧
      (RandomnessTester.test L t bits).chi_square_test_passed
        = Double.ge (RandomnessTester.test L t bits).chi_square_pvalue t.config_.alpha) ∧
    (∀ p a : ℚ, Double.ge (Double.fin p) (Double.fin a) = true ↔ a ≤ p) ∧
    (∀ x : Double, Double.ge Double.nan x = false ∧ Double.ge x Double.nan = false) := by
  refine ⟨⟨rfl, rfl, rfl⟩, ?_, ?_⟩
  · intro p a
    simp [Double.ge, Double.le]
  · intro x
    cases x <;> simp [Double.ge, Double.le]

/-- In every report of `generate()` the flag `all_tests_passed` is false only together with a
populated error message, and true only together with an empty one. -/
theorem generate_flag_iff_no_error (L : StdLib) (q : QRNG) (now : ℕ) :
    ((QRNG.generate L q now).all_tests_passed = true ↔ (QRNG.generate L q now).error_message = "") ∧
      ((QRNG.generate L q now).all_tests_passed = false →
        (QRNG.generate L q now).error_message ≠ "") := by
  have hne : ∀ what : String, "QRNG generation failed: " ++ what ≠ "" := by
    intro what h
    have h2 := congrArg String.data h
    rw [String.data_append] at h2
    exact absurd (List.append_eq_nil.1 h2).1 (by decide)
  unfold QRNG.generate
  cases hgen : QRNG.generate_random_bits L q now
      (toSizeT (toInt32 (q.config_.num_shots * q.config_.num_qubits))) with
  | error what => simp [hne what]
  | ok bits => simp

/-- Within the range of `int` (`num_qubits * num_shots < 2^31`) the report of a valid
configuration has `all_tests_passed = true` and an empty error message. -/
theorem generate_flag_of_product_lt (L : StdLib) (cfg : QRNGConfig) (q : QRNG)
    (hq : QRNG.create cfg = Except.ok q) (hprod : cfg.num_qubits * cfg.num_shots < 2 ^ 31)
    (now : ℕ) :
    (QRNG.generate L q now).all_tests_passed = true ∧
      (QRNG.generate L q now).error_message = "" := by
  unfold QRNG.create at hq
  split at hq
  · cases hq
  · split at hq
    · cases hq
    · rename_i h1 h2
      injection hq with hq
      subst hq
      have hpos : 0 ≤ cfg.num_shots * cfg.num_qubits := by nlinarith
      have hlt : cfg.num_shots * cfg.num_qubits < 2 ^ 31 := by nlinarith
      have hw : toInt32 (cfg.num_shots * cfg.num_qubits) = cfg.num_shots * cfg.num_qubits :=
        toInt32_of_range _ (by omega) hlt
      have hc : toSizeT (toInt32 (cfg.num_shots * cfg.num_qubits)) ≤ vector_max_size := by
        rw [hw]; unfold toSizeT vector_max_size; omega
      obtain ⟨bits, hb, _, _⟩ := generate_random_bits_ok L { config_ := cfg } now _ hc
      unfold QRNG.generate
      simp only [hb]
      exact ⟨trivial, trivial⟩

/-- When the `size_t` count exceeds `max_size()`, `generate()` returns the default report with
the error message set and `all_tests_passed = false`. -/
theorem generate_of_count_too_large (L : StdLib) (q : QRNG) (now : ℕ)
    (h : vector_max_size < toSizeT (toInt32 (q.config_.num_shots * q.config_.num_qubits))) :
    QRNG.generate L q now
      = { error_message := "QRNG generation failed: " ++ L.length_error_what,
          all_tests_passed := false } := by
  unfold QRNG.generate
  rw [generate_random_bits_error L q now _ h]

/-- C12 (evaluation at the failing input): the configuration `num_qubits = 46341`,
`num_shots = 46341` passes the constructor, the `int` product wraps to a negative value, the
`size_t` count exceeds `max_size()`, the `std::length_error` of the vector is caught, and the
report has `all_tests_passed = false` with a populated error message and no bits. -/
theorem C12_generate_valid_config_fails (L : StdLib) (now seed : ℕ) (alg : AlgorithmType) :
    ∃ q, QRNG.create { num_qubits := 46341, num_shots := 46341, seed := seed, algorithm := alg }
        = Except.ok q ∧
      (QRNG.generate L q now).all_tests_passed = false ∧
      (QRNG.generate L q now).error_message
        = "QRNG generation failed: " ++ L.length_error_what ∧
      (QRNG.generate L q now).random_bits = [] := by
  refine ⟨⟨⟨46341, 46341, seed, alg⟩⟩, rfl, ?_⟩
  have hc : vector_max_size < toSizeT (toInt32 ((46341 : ℤ) * 46341)) := by
    unfold vector_max_size toSizeT toInt32
    omega
  rw [generate_of_count_too_large L ⟨⟨46341, 46341, seed, alg⟩⟩ now hc]
  exact ⟨rfl, rfl, rfl⟩

/-! ### The PermutedCongruential generator -/

theorem or_of_shifted (a b i : ℕ) (hb : b < 2 ^ i) : a * 2 ^ i ||| b = a * 2 ^ i + b := by
  rw [Nat.mul_comm a]
  exact (Nat.mul_add_lt_is_or hb a).symm

theorem rot_amount_mask : ∀ r : ℕ, r < 32 → ((2 ^ 32 - r) % 2 ^ 32) &&& 31 = (32 - r) % 32 := by
  decide

/-- The expression `(x >> rot) | (x << ((-rot) & 31))` on `uint32_t` is the rotation of `x` to
the right by `rot` places. -/
theorem rotate_expr_eq_rotr32 (x r : ℕ) (hx : x < 2 ^ 32) (hr : r < 32) :
    (x >>> r) ||| ((x <<< (((2 ^ 32 - r) % 2 ^ 32) &&& 31)) % 2 ^ 32) = PCG.rotr32 x r := by
  rw [rot_amount_mask r hr]
  unfold PCG.rotr32
  rcases Nat.eq_zero_or_pos r with h0 | hpos
  · subst h0
    have hm : x % 4294967296 = x := Nat.mod_eq_of_lt hx
    simp [hm, Nat.mod_one]
  · have e32 : (32 - r) % 32 = 32 - r := Nat.mod_eq_of_lt (by omega)
    have hsplit : (2 : ℕ) ^ 32 = 2 ^ r * 2 ^ (32 - r) := by
      rw [← pow_add]; congr 1; omega
    have hshl : (x <<< (32 - r)) % 2 ^ 32 = (x % 2 ^ r) * 2 ^ (32 - r) := by
      rw [Nat.shiftLeft_eq, hsplit, Nat.mul_mod_mul_right]
    have hlt : x / 2 ^ r < 2 ^ (32 - r) := by
      rw [Nat.div_lt_iff_lt_mul (by positivity), Nat.mul_comm, ← hsplit]
      exact hx
    rw [e32, hshl, Nat.shiftRight_eq_div_pow, Nat.lor_comm, or_of_shifted _ _ _ hlt, Nat.add_comm]

/-- C13 (counterexample): for the state `2^63` the rotation amount is 16, outside `0..7`; and
the states `2^63` and `2^63 + 2^59` agree in their top 3 bits but rotate by 16 and 17:
the amount is not a function of the top 3 bits. -/
theorem C13_rotation_uses_five_bits :
    PCG.rot (2 ^ 63) = 16 ∧ ¬ PCG.rot (2 ^ 63) ≤ 7 ∧
      (2 ^ 63) / 2 ^ 61 = (2 ^ 63 + 2 ^ 59) / 2 ^ 61 ∧ PCG.rot (2 ^ 63 + 2 ^ 59) = 17 ∧
      (PCG.next { state := 2 ^ 63, inc := 1 }).1 = PCG.rotr32 (PCG.xorshifted (2 ^ 63)) 16 := by
  decide

/-- C13 (amended): in every step of the generator the rotation amount is the top 5 bits of
the pre-update 64-bit state (so it lies in `0..31`), the 32-bit xor-fold is
`((state >> 18) xor state) >> 27` truncated to 32 bits, and the output is that fold rotated
to the right by the rotation amount. -/
theorem C13_pcg_output (g : PCG) (hs : g.state < 2 ^ 64) :
    PCG.rot g.state = g.state / 2 ^ 59 ∧ PCG.rot g.state < 32 ∧
      PCG.xorshifted g.state = (((g.state / 2 ^ 18) ^^^ g.state) / 2 ^ 27) % 2 ^ 32 ∧
      (PCG.next g).1 = PCG.rotr32 (PCG.xorshifted g.state) (PCG.rot g.state) := by
  have hdiv : g.state / 2 ^ 59 < 32 := by omega
  have hrot : PCG.rot g.state = g.state / 2 ^ 59 := by
    unfold PCG.rot
    rw [Nat.shiftRight_eq_div_pow]
    omega
  have hx : PCG.xorshifted g.state < 2 ^ 32 := by
    unfold PCG.xorshifted
    omega
  refine ⟨hrot, by omega, ?_, ?_⟩
  · unfold PCG.xorshifted
    rw [Nat.shiftRight_eq_div_pow, Nat.shiftRight_eq_div_pow]
  · exact rotate_expr_eq_rotr32 (PCG.xorshifted g.state) (PCG.rot g.state) hx (by omega)

theorem C13_pcg_output_witness :
    (42 : ℕ) < 2 ^ 64 ∧
    (PCG.rot 42 = 42 / 2 ^ 59 ∧ PCG.rot 42 < 32 ∧
      PCG.xorshifted 42 = (((42 / 2 ^ 18) ^^^ 42) / 2 ^ 27) % 2 ^ 32 ∧
      (PCG.next { state := 42, inc := 1 }).1 = PCG.rotr32 (PCG.xorshifted 42) (PCG.rot 42)) :=
  ⟨by decide, C13_pcg_output { state := 42, inc := 1 } (by decide)⟩

theorem shl_one_or_one (s : ℕ) : ((s <<< 1) % 2 ^ 64) ||| 1 = 2 * (s % 2 ^ 63) + 1 := by
  have h1 : (s <<< 1) % 2 ^ 64 = (s % 2 ^ 63) * 2 ^ 1 := by
    rw [Nat.shiftLeft_eq]
    omega
  rw [h1, or_of_shifted _ _ _ (by norm_num)]
  omega

theorem shl_one_or_one_mod (s : ℕ) : ((s <<< 1) ||| 1) % 2 ^ 64 = 2 * (s % 2 ^ 63) + 1 := by
  have h1 : s <<< 1 = s * 2 ^ 1 := Nat.shiftLeft_eq s 1
  rw [h1, or_of_shifted _ _ _ (by norm_num)]
  omega

/-- C14: for every seed `s` (in particular every 64-bit one) the constructor yields `inc = ((s << 1) | 1) mod 2^64`,
which is odd, and `state = ((inc + s) * 6364136223846793005 + inc) mod 2^64`; every later
step keeps `inc` and maps `state` to `(state * 6364136223846793005 + inc) mod 2^64`. -/
theorem C14_pcg_seeding (s : ℕ) :
    (PCG.seeded s).inc = ((s <<< 1) ||| 1) % 2 ^ 64 ∧ (PCG.seeded s).inc % 2 = 1 ∧
      (PCG.seeded s).state
        = (((PCG.seeded s).inc + s) * 6364136223846793005 + (PCG.seeded s).inc) % 2 ^ 64 ∧
      ∀ g : PCG, (PCG.next g).2.inc = g.inc ∧
        (PCG.next g).2.state = (g.state * 6364136223846793005 + g.inc) % 2 ^ 64 := by
  have hinc : (PCG.seeded s).inc = 2 * (s % 2 ^ 63) + 1 := by
    show ((s <<< 1) % 2 ^ 64) ||| 1 = _
    exact shl_one_or_one s
  have hstate : (PCG.seeded s).state
      = (((0 * 6364136223846793005 + (((s <<< 1) % 2 ^ 64) ||| 1)) % 2 ^ 64 + s) % 2 ^ 64
          * 6364136223846793005 + (((s <<< 1) % 2 ^ 64) ||| 1)) % 2 ^ 64 := rfl
  refine ⟨by rw [hinc, shl_one_or_one_mod], by rw [hinc]; omega, ?_, fun g => ⟨rfl, rfl⟩⟩
  rw [hstate, hinc, shl_one_or_one]
  omega

/-! ### The FastScrambler generator -/

/-- On 64-bit words `rotl(x, k)` with `0 < k < 64` is the rotation to the left by `k` places:
the top `k` bits move to the bottom. -/
theorem rotl_eq_rotation (x k : ℕ) (hx : x < 2 ^ 64) (hk0 : 0 < k) (hk : k < 64) :
    Xoshiro256.rotl x k = (x % 2 ^ (64 - k)) * 2 ^ k + x / 2 ^ (64 - k) := by
  have hsplit : (2 : ℕ) ^ 64 = 2 ^ (64 - k) * 2 ^ k := by
    rw [← pow_add]; congr 1; omega
  have hshl : (x <<< k) % 2 ^ 64 = (x % 2 ^ (64 - k)) * 2 ^ k := by
    rw [Nat.shiftLeft_eq, hsplit, Nat.mul_mod_mul_right]
  have hlt : x / 2 ^ (64 - k) < 2 ^ k := by
    rw [Nat.div_lt_iff_lt_mul (by positivity), Nat.mul_comm, ← hsplit]
    exact hx
  unfold Xoshiro256.rotl
  rw [hshl, Nat.shiftRight_eq_div_pow, or_of_shifted _ _ _ hlt]

/-- C15: for every state `(s0, s1, s2, s3)` one step returns
`rotl64((s1 * 5) mod 2^64, 7) * 9 mod 2^64`, computed from the pre-update `s1`, and leaves the
state `(s0 xor s1 xor s3, s0 xor s1 xor s2, s0 xor s2 xor (s1 << 17), rotl64(s1 xor s3, 45))`,
the shift truncated to 64 bits; and the `XOSHIRO` branch of `generate_random_bits` emits the
low bit of each successive output. -/
theorem C15_xoshiro_step :
    (∀ g : Xoshiro256,
      (Xoshiro256.next g).1 = (Xoshiro256.rotl ((g.s1 * 5) % 2 ^ 64) 7 * 9) % 2 ^ 64 ∧
      (Xoshiro256.next g).2 =
        { s0 := g.s0 ^^^ g.s1 ^^^ g.s3
          s1 := g.s0 ^^^ g.s1 ^^^ g.s2
          s2 := g.s0 ^^^ g.s2 ^^^ ((g.s1 <<< 17) % 2 ^ 64)
          s3 := Xoshiro256.rotl (g.s1 ^^^ g.s3) 45 }) ∧
    (∀ (L : StdLib) (q : QRNG) (now count : ℕ),
      q.config_.algorithm = AlgorithmType.XOSHIRO → count ≤ vector_max_size →
      QRNG.generate_random_bits L q now count =
        Except.ok (fill (fun g => ((Xoshiro256.next g).1 % 2, (Xoshiro256.next g).2)) count
          (Xoshiro256.seeded L (if q.config_.seed ≠ 0 then q.config_.seed else now)))) := by
  refine ⟨fun g => ⟨rfl, ?_⟩, ?_⟩
  · show ({ s0 := g.s0 ^^^ (g.s3 ^^^ g.s1)
            s1 := g.s1 ^^^ (g.s2 ^^^ g.s0)
            s2 := g.s2 ^^^ g.s0 ^^^ ((g.s1 <<< 17) % 2 ^ 64)
            s3 := Xoshiro256.rotl (g.s3 ^^^ g.s1) 45 } : Xoshiro256) = _
    have e0 : g.s0 ^^^ (g.s3 ^^^ g.s1) = g.s0 ^^^ g.s1 ^^^ g.s3 := by
      rw [Nat.xor_comm g.s3, Nat.xor_assoc]
    have e1 : g.s1 ^^^ (g.s2 ^^^ g.s0) = g.s0 ^^^ g.s1 ^^^ g.s2 := by
      rw [Nat.xor_comm g.s2, ← Nat.xor_assoc, Nat.xor_comm g.s1]
    have e2 : g.s2 ^^^ g.s0 = g.s0 ^^^ g.s2 := Nat.xor_comm _ _
    have e3 : g.s3 ^^^ g.s1 = g.s1 ^^^ g.s3 := Nat.xor_comm _ _
    rw [e0, e1, e2, e3]
  · intro L q now count halg hcount
    unfold QRNG.generate_random_bits
    rw [if_neg (by omega), halg]
    simp only [Nat.and_one_is_mod]

/-! ### Prefixes of the generated sequence -/

theorem fill_take {S : Type} (step : S → ℕ × S) (m n : ℕ) (h : m ≤ n) (s : S) :
    fill step m s = (fill step n s).take m := by
  induction m generalizing n s with
  | zero => simp [fill]
  | succ k ih =>
    obtain ⟨n', rfl⟩ : ∃ n', n = n' + 1 := ⟨n - 1, by omega⟩
    simp only [fill, List.take_succ_cons]
    rw [ih n' (by omega)]

/-- C20: for every algorithm, every non-zero seed and all counts `m ≤ n` (with `n` within
`max_size()`), the `m`-bit sequence of `generate_random_bits` is the first `m` bits of the
`n`-bit sequence with the same seed and algorithm; and two configurations with the same
non-zero seed, the same algorithm and the same product `num_shots * num_qubits` give reports
with the same bit sequence. -/
theorem C20_prefix (L : StdLib) (q1 q2 : QRNG) (now1 now2 m n : ℕ)
    (hseed : q1.config_.seed ≠ 0) (hs : q1.config_.seed = q2.config_.seed)
    (ha : q1.config_.algorithm = q2.config_.algorithm) (hmn : m ≤ n)
    (hn : n ≤ vector_max_size) :
    (∃ bm bn, QRNG.generate_random_bits L q1 now1 m = Except.ok bm ∧
      QRNG.generate_random_bits L q2 now2 n = Except.ok bn ∧ bm = bn.take m) ∧
    (q1.config_.num_shots * q1.config_.num_qubits = q2.config_.num_shots * q2.config_.num_qubits →
      (QRNG.generate L q1 now1).random_bits = (QRNG.generate L q2 now2).random_bits) := by
  have hseed2 : q2.config_.seed ≠ 0 := hs ▸ hseed
  constructor
  · have hm : ¬ vector_max_size < m := by omega
    have hn' : ¬ vector_max_size < n := by omega
    unfold QRNG.generate_random_bits
    simp only [if_neg hm, if_neg hn', ha, hs, if_pos hseed2, ne_eq, not_false_eq_true]
    cases q2.config_.algorithm <;> exact ⟨_, _, rfl, rfl, fill_take _ m n hmn _⟩
  · intro hprod
    unfold QRNG.generate
    rw [hprod, C4_determinism L q1 q2 now1 now2 _ hseed hs ha]

theorem C20_prefix_witness :
    (∃ bm bn,
      QRNG.generate_random_bits sampleLib { config_ := { seed := 42, num_qubits := 5, num_shots := 2 } } 7 3
        = Except.ok bm ∧
      QRNG.generate_random_bits sampleLib { config_ := { seed := 42, num_qubits := 2, num_shots := 5 } } 8 5
        = Except.ok bn ∧ bm = bn.take 3) ∧
    ((2 : ℤ) * 5 = 5 * 2 →
      (QRNG.generate sampleLib { config_ := { seed := 42, num_qubits := 5, num_shots := 2 } } 7).random_bits
        = (QRNG.generate sampleLib { config_ := { seed := 42, num_qubits := 2, num_shots := 5 } } 8).random_bits) :=
  C20_prefix sampleLib { config_ := { seed := 42, num_qubits := 5, num_shots := 2 } }
    { config_ := { seed := 42, num_qubits := 2, num_shots := 5 } }
    7 8 3 5 (by decide) rfl rfl (by decide) (by unfold vector_max_size; omega)


/-! ### The acceptance probability of the BiasedSynthetic algorithm -/

namespace Double

theorem rne_eq_of_abs_lt {y : ℚ} {m : ℤ} (h : |y - m| < 1 / 2) : rne y = m := by
  have h1 := rne_sub_abs_le y
  rw [abs_le] at h1
  rw [abs_lt] at h
  have h2 : ((rne y : ℤ) : ℚ) - m < 1 := by linarith [h1.2, h.2]
  have h3 : (-1 : ℚ) < ((rne y : ℤ) : ℚ) - m := by linarith [h1.1, h.1]
  have h4 : rne y - m < 1 := by exact_mod_cast h2
  have h5 : -1 < rne y - m := by exact_mod_cast h3
  omega

theorem rne_tie_odd {m : ℤ} (hm : m % 2 = 1) : rne ((m : ℚ) + 1 / 2) = m + 1 := by
  have hf : ⌊(m : ℚ) + 1 / 2⌋ = m := by
    rw [Int.floor_eq_iff]
    constructor <;> norm_num
  unfold rne
  rw [hf]
  have e : (m : ℚ) + 1 / 2 - m = 1 / 2 := by ring
  rw [e]
  simp only [lt_self_iff_false, if_false]
  rw [if_neg (by omega)]

/-- Evaluation of rounding: inside the binade `[2^e, 2^(e+1))` the result is the rounded
multiple of `2^(e-52)`. -/
theorem rnd_eval {q : ℚ} {e m : ℤ} (he : -1022 ≤ e) (h1 : (2 : ℚ) ^ e ≤ |q|)
    (h2 : |q| < (2 : ℚ) ^ (e + 1)) (hm : rne (q / (2 : ℚ) ^ (e - 52)) = m) :
    rnd q = (m : ℚ) * (2 : ℚ) ^ (e - 52) := by
  unfold rnd ulp
  rw [binade_eq_of_bounds he h1 h2, hm]

/-- The literal `0.1`: the `double` nearest to `1/10`. -/
theorem rnd_tenth : rnd (1 / 10 : ℚ) = 7205759403792794 / 2 ^ 56 := by
  have h := rnd_eval (q := 1 / 10) (e := -4) (m := 7205759403792794) (by norm_num)
    (by rw [abs_of_nonneg (by norm_num)]; norm_num)
    (by rw [abs_of_nonneg (by norm_num)]; norm_num)
    (rne_eq_of_abs_lt (by rw [abs_lt]; constructor <;> norm_num))
  rw [h]
  norm_num

theorem round_tenth : round (1 / 10 : ℚ) = fin (7205759403792794 / 2 ^ 56) := by
  rw [round_of_lt, rnd_tenth]
  rw [rnd_tenth, abs_of_nonneg (by norm_num)]
  norm_num

/-- The `double` nearest to `0.5 - 0.05`, the least acceptance probability. -/
theorem rnd_lower : rnd (1 / 2 - 7205759403792794 / 2 ^ 57 : ℚ) = 8106479329266893 / 2 ^ 54 := by
  have h := rnd_eval (q := 1 / 2 - 7205759403792794 / 2 ^ 57) (e := -2)
    (m := 8106479329266893) (by norm_num)
    (by rw [abs_of_nonneg (by norm_num)]; norm_num)
    (by rw [abs_of_nonneg (by norm_num)]; norm_num)
    (rne_eq_of_abs_lt (by rw [abs_lt]; constructor <;> norm_num))
  rw [h]
  norm_num

/-- The `double` nearest to `0.5 + 0.05`, the greatest acceptance probability: it is the
value of the literal `0.55`. -/
theorem rnd_upper : rnd (1 / 2 + 7205759403792794 / 2 ^ 57 : ℚ) = 4953959590107546 / 2 ^ 53 := by
  have h := rnd_eval (q := 1 / 2 + 7205759403792794 / 2 ^ 57) (e := -1)
    (m := 4953959590107546) (by norm_num)
    (by rw [abs_of_nonneg (by norm_num)]; norm_num)
    (by rw [abs_of_nonneg (by norm_num)]; norm_num)
    (rne_eq_of_abs_lt (by rw [abs_lt]; constructor <;> norm_num))
  rw [h]
  norm_num

theorem rnd_half_tenth : rnd (7205759403792794 / 2 ^ 57 : ℚ) = 7205759403792794 / 2 ^ 57 := by
  have := rnd_dyadic 7205759403792794 57 (by norm_num) (by norm_num)
  simpa using this

end Double

/-- For every first draw `r1` in `[0, 1)` the acceptance probability is a finite `double`
between the doubles nearest to `0.45` and to `0.55`. -/
theorem quantum_p_bounds (x : ℚ) (h0 : 0 ≤ x) (h1 : x < 1) :
    ∃ v : ℚ, quantum_p (Double.fin x) = Double.fin v ∧ 8106479329266893 / 2 ^ 54 ≤ v ∧
      v ≤ 4953959590107546 / 2 ^ 53 := by
  have rnh : Double.rnd (-(1 / 2) : ℚ) = -(1 / 2) := by rw [Double.rnd_neg, Double.rnd_half]
  obtain ⟨es, as', bs⟩ := Double.round_between (q := x - 1 / 2) rnh Double.rnd_half
    (by linarith) (by linarith) (by norm_num) (by norm_num)
  have rnc : Double.rnd (-(7205759403792794 / 2 ^ 57) : ℚ) = -(7205759403792794 / 2 ^ 57) := by
    rw [Double.rnd_neg, Double.rnd_half_tenth]
  have hprod : -(7205759403792794 / 2 ^ 57 : ℚ)
      ≤ Double.rnd (x - 1 / 2) * (7205759403792794 / 2 ^ 56) ∧
      Double.rnd (x - 1 / 2) * (7205759403792794 / 2 ^ 56)
        ≤ (7205759403792794 / 2 ^ 57 : ℚ) := by
    constructor <;> nlinarith
  obtain ⟨et, at', bt⟩ := Double.round_between
    (q := Double.rnd (x - 1 / 2) * (7205759403792794 / 2 ^ 56)) rnc Double.rnd_half_tenth
    hprod.1 hprod.2 (by norm_num) (by norm_num)
  have hlo := Double.rnd_mono (show (1 / 2 - 7205759403792794 / 2 ^ 57 : ℚ)
    ≤ 1 / 2 + Double.rnd (Double.rnd (x - 1 / 2) * (7205759403792794 / 2 ^ 56)) by linarith)
  have hhi := Double.rnd_mono (show
    1 / 2 + Double.rnd (Double.rnd (x - 1 / 2) * (7205759403792794 / 2 ^ 56))
      ≤ (1 / 2 + 7205759403792794 / 2 ^ 57 : ℚ) by linarith)
  rw [Double.rnd_lower] at hlo
  rw [Double.rnd_upper] at hhi
  refine ⟨_, ?_, hlo, hhi⟩
  unfold quantum_p
  rw [Double.round_tenth, Double.sub_fin, es, Double.mul_fin, et, Double.add_fin]
  apply Double.round_of_lt
  rw [abs_lt]
  constructor
  · linarith [show (-(2 : ℚ) ^ 1024) < 0 by norm_num]
  · linarith [show (4953959590107546 / 2 ^ 53 : ℚ) < 2 ^ 1024 by norm_num]

namespace Double

/-- The product `(r1 - 0.5) * 0.1` at the largest first draw `r1 = 1 - 2^-53`. -/
theorem rnd_top_product :
    rnd ((4503599627370495 / 2 ^ 53 : ℚ) * (7205759403792794 / 2 ^ 56))
      = 7205759403792792 / 2 ^ 57 := by
  have h := rnd_eval (q := (4503599627370495 / 2 ^ 53 : ℚ) * (7205759403792794 / 2 ^ 56))
    (e := -5) (m := 7205759403792792) (by norm_num)
    (by rw [abs_of_nonneg (by norm_num)]; norm_num)
    (by rw [abs_of_nonneg (by norm_num)]; norm_num)
    (rne_eq_of_abs_lt (by rw [abs_lt]; constructor <;> norm_num))
  rw [h]
  norm_num

/-- The sum `0.5 + 7205759403792792 / 2^57` lies halfway between two doubles; the tie goes to
the even one, which is the `double` nearest to `0.55`. -/
theorem rnd_top_sum :
    rnd (1 / 2 + 7205759403792792 / 2 ^ 57 : ℚ) = 4953959590107546 / 2 ^ 53 := by
  have e : (1 / 2 + 7205759403792792 / 2 ^ 57 : ℚ) / (2 : ℚ) ^ ((-1 : ℤ) - 52)
      = ((4953959590107545 : ℤ) : ℚ) + 1 / 2 := by norm_num
  have hm : rne ((1 / 2 + 7205759403792792 / 2 ^ 57 : ℚ) / (2 : ℚ) ^ ((-1 : ℤ) - 52))
      = 4953959590107546 := by
    rw [e, rne_tie_odd (by norm_num)]
    norm_num
  have h := rnd_eval (q := (1 / 2 + 7205759403792792 / 2 ^ 57 : ℚ)) (e := -1)
    (m := 4953959590107546) (by norm_num)
    (by rw [abs_of_nonneg (by norm_num)]; norm_num)
    (by rw [abs_of_nonneg (by norm_num)]; norm_num) hm
  rw [h]
  norm_num

end Double

/-- In the `QUANTUM_SIMULATED` branch the vector is filled by `quantum_step`, started from the
Mersenne Twister seeded with the effective seed. -/
theorem generate_random_bits_quantum (L : StdLib) (q : QRNG) (now count : ℕ)
    (ha : q.config_.algorithm = AlgorithmType.QUANTUM_SIMULATED)
    (hc : count ≤ vector_max_size) :
    QRNG.generate_random_bits L q now count
      = Except.ok (fill (quantum_step L) count
          (L.mt_seed (if q.config_.seed ≠ 0 then q.config_.seed else now))) := by
  unfold QRNG.generate_random_bits
  rw [if_neg (by omega)]
  simp only [ha]

/-- The literal `0.45`: the `double` nearest to `9/20`. -/
theorem Double.round_045 : Double.round (9 / 20) = Double.fin (8106479329266893 / 2 ^ 54) := by
  have h := Double.rnd_eval (q := (9 / 20 : ℚ)) (e := -2) (m := 8106479329266893)
    (by norm_num)
    (by rw [abs_of_nonneg (by norm_num)]; norm_num)
    (by rw [abs_of_nonneg (by norm_num)]; norm_num)
    (Double.rne_eq_of_abs_lt (by rw [abs_lt]; constructor <;> norm_num))
  have e : Double.rnd (9 / 20 : ℚ) = 8106479329266893 / 2 ^ 54 := by
    rw [h]
    norm_num
  rw [Double.round_of_lt, e]
  rw [e, abs_of_nonneg (by norm_num)]
  norm_num

/-- The literal `0.55`: the `double` nearest to `11/20`. -/
theorem Double.round_055 : Double.round (11 / 20) = Double.fin (4953959590107546 / 2 ^ 53) := by
  have h := Double.rnd_eval (q := (11 / 20 : ℚ)) (e := -1) (m := 4953959590107546)
    (by norm_num)
    (by rw [abs_of_nonneg (by norm_num)]; norm_num)
    (by rw [abs_of_nonneg (by norm_num)]; norm_num)
    (Double.rne_eq_of_abs_lt (by rw [abs_lt]; constructor <;> norm_num))
  have e : Double.rnd (11 / 20 : ℚ) = 4953959590107546 / 2 ^ 53 := by
    rw [h]
    norm_num
  rw [Double.round_of_lt, e]
  rw [e, abs_of_nonneg (by norm_num)]
  norm_num

/-- The upper bound is attained: the first draw `r1 = 1 - 2^-53`, the largest `double` below
1, is a `double` in `[0, 1)`, and the acceptance probability computed from it is
`4953959590107546 / 2^53`, which is the `double` `0.55`. -/
theorem quantum_p_at_largest_draw :
    Double.rnd (1 - 1 / 2 ^ 53) = 1 - 1 / 2 ^ 53 ∧ (0 : ℚ) ≤ 1 - 1 / 2 ^ 53 ∧
      (1 - 1 / 2 ^ 53 : ℚ) < 1 ∧
      quantum_p (Double.fin (1 - 1 / 2 ^ 53)) = Double.fin (4953959590107546 / 2 ^ 53) ∧
      quantum_p (Double.fin (1 - 1 / 2 ^ 53)) = Double.round (11 / 20) := by
  have hq : quantum_p (Double.fin (1 - 1 / 2 ^ 53))
      = Double.fin (4953959590107546 / 2 ^ 53) := by
    have hs : Double.round (1 - 1 / 2 ^ 53 - 1 / 2 : ℚ)
        = Double.fin (4503599627370495 / 2 ^ 53) := by
      have h := Double.round_dyadic 4503599627370495 53 (by norm_num) (by norm_num)
      have e : (1 - 1 / 2 ^ 53 - 1 / 2 : ℚ) = ((4503599627370495 : ℤ) : ℚ) / 2 ^ 53 := by
        norm_num
      rw [e, h]
      norm_num
    have hp : Double.round ((4503599627370495 / 2 ^ 53 : ℚ) * (7205759403792794 / 2 ^ 56))
        = Double.fin (7205759403792792 / 2 ^ 57) := by
      rw [Double.round_of_lt, Double.rnd_top_product]
      rw [Double.rnd_top_product, abs_of_nonneg (by norm_num)]
      norm_num
    have ha : Double.round (1 / 2 + 7205759403792792 / 2 ^ 57 : ℚ)
        = Double.fin (4953959590107546 / 2 ^ 53) := by
      rw [Double.round_of_lt, Double.rnd_top_sum]
      rw [Double.rnd_top_sum, abs_of_nonneg (by norm_num)]
      norm_num
    unfold quantum_p
    rw [Double.round_tenth, Double.sub_fin, hs, Double.mul_fin, hp, Double.add_fin, ha]
  refine ⟨?_, by norm_num, by norm_num, hq, by rw [hq, Double.round_055]⟩
  have h := Double.rnd_dyadic 9007199254740991 53 (by norm_num) (by norm_num)
  have e : (1 - 1 / 2 ^ 53 : ℚ) = ((9007199254740991 : ℤ) : ℚ) / 2 ^ 53 := by norm_num
  rw [e]
  exact h

/-- C16: in one iteration of the `QUANTUM_SIMULATED` loop whose first draw is `r1 = x` with
`0 ≤ x < 1` and whose second draw is `r2 = y`, the acceptance probability
`p = 0.5 + (r1 - 0.5) * 0.1` is a finite `double` `v` that lies in `[0.45, 0.55]`: the
comparisons `0.45 <= p` and `p <= 0.55` hold in binary64 (as rationals,
`9/20 ≤ v ≤ 4953959590107546 / 2^53`, the value of the literal `0.55`); and the stored bit is
1 if `r2 < p` and 0 otherwise. -/
theorem C16_biased_synthetic_step (L : StdLib) (g g1 g2 : L.Engine) (x y : ℚ)
    (hx0 : 0 ≤ x) (hx1 : x < 1)
    (h1 : L.uniform_real_distribution g = (Double.fin x, g1))
    (h2 : L.uniform_real_distribution g1 = (Double.fin y, g2)) :
    ∃ v : ℚ, quantum_p (Double.fin x) = Double.fin v ∧
      Double.le (Double.round (9 / 20)) (quantum_p (Double.fin x)) = true ∧
      Double.le (quantum_p (Double.fin x)) (Double.round (11 / 20)) = true ∧
      9 / 20 ≤ v ∧ v ≤ 4953959590107546 / 2 ^ 53 ∧
      quantum_step L g = ((if y < v then 1 else 0), g2) := by
  obtain ⟨v, hv, hlo, hhi⟩ := quantum_p_bounds x hx0 hx1
  refine ⟨v, hv, ?_, ?_, le_trans (by norm_num) hlo, hhi, ?_⟩
  · rw [hv, Double.round_045]
    simp only [Double.le, decide_eq_true_eq]
    exact hlo
  · rw [hv, Double.round_055]
    simp only [Double.le, decide_eq_true_eq]
    exact hhi
  · unfold quantum_p at hv
    unfold quantum_step
    simp only [h1, h2, hv, Double.lt, decide_eq_true_eq]

theorem C16_biased_synthetic_step_witness :
    (0 : ℚ) ≤ ((704440937934064 : ℕ) : ℚ) / 2 ^ 53 ∧
      ((704440937934064 : ℕ) : ℚ) / 2 ^ 53 < 1 ∧
      sampleLib.uniform_real_distribution (0 : ℕ)
        = (Double.fin (((704440937934064 : ℕ) : ℚ) / 2 ^ 53), (1442695040888963407 : ℕ)) ∧
      sampleLib.uniform_real_distribution (1442695040888963407 : ℕ)
        = (Double.fin (((916020997953357 : ℕ) : ℚ) / 2 ^ 53), (1876011003808476466 : ℕ)) ∧
      ∃ v : ℚ, quantum_p (Double.fin (((704440937934064 : ℕ) : ℚ) / 2 ^ 53)) = Double.fin v ∧
        Double.le (Double.round (9 / 20))
          (quantum_p (Double.fin (((704440937934064 : ℕ) : ℚ) / 2 ^ 53))) = true ∧
        Double.le (quantum_p (Double.fin (((704440937934064 : ℕ) : ℚ) / 2 ^ 53)))
          (Double.round (11 / 20)) = true ∧
        9 / 20 ≤ v ∧ v ≤ 4953959590107546 / 2 ^ 53 ∧
        quantum_step sampleLib (0 : ℕ)
          = ((if ((916020997953357 : ℕ) : ℚ) / 2 ^ 53 < v then 1 else 0),
              (1876011003808476466 : ℕ)) :=
  ⟨by norm_num, by norm_num, by unfold sampleLib; norm_num, by unfold sampleLib; norm_num,
    C16_biased_synthetic_step sampleLib (0 : ℕ) (1442695040888963407 : ℕ)
      (1876011003808476466 : ℕ) _ _ (by norm_num) (by norm_num) (by unfold sampleLib; norm_num)
      (by unfold sampleLib; norm_num)⟩

/-! ### The variance of the runs test on constant and non-constant sequences -/

namespace Double

/-- An operation whose exact result is an integer below `2^53` in absolute value is exact. -/
theorem round_int {q : ℚ} (i : ℤ) (h : |i| < 2 ^ 53) (e : q = (i : ℚ)) : round q = fin q := by
  have := ofInt_exact i h
  unfold ofInt at this
  rw [e]
  exact this

/-- The quotient `(2^66 + 2^33) / (2^31 - 1)` rounds to `34359738388`. -/
theorem rnd_wrapped_variance :
    rnd ((2 ^ 66 + 2 ^ 33 : ℚ) / (2 ^ 31 - 1)) = 34359738388 := by
  have h := rnd_eval (q := (2 ^ 66 + 2 ^ 33 : ℚ) / (2 ^ 31 - 1)) (e := 35)
    (m := 4503599629991936) (by norm_num)
    (by rw [abs_of_nonneg (by norm_num)]; norm_num)
    (by rw [abs_of_nonneg (by norm_num)]; norm_num)
    (rne_eq_of_abs_lt (by rw [abs_lt]; constructor <;> norm_num))
  rw [h]
  norm_num

end Double

theorem count_changes_replicate (n a : ℕ) : count_changes (List.replicate n a) = 0 := by
  induction n with
  | zero => rfl
  | succ k ih =>
    cases k with
    | zero => rfl
    | succ j =>
      rw [List.replicate_succ, List.replicate_succ] at *
      simp only [count_changes, ne_eq, not_true_eq_false, if_false, zero_add]
      exact ih

/-- On the sequence of `2^31` ones the `int` sum wraps to `-2^31`: `p = -1`, `q = 2`,
`expected_runs = -(2^33 - 1)` and the variance is `34359738388`; both `runs_test` methods
go on to the z-score `2^33 / sqrt(34359738388)`. -/
theorem runs_all_ones (L : StdLib) (n : ℕ) (hn : n = 2 ^ 31) :
    runs_variance (List.replicate n 1) = Double.fin 34359738388 ∧
      QRNG.runs_test L (List.replicate n 1)
        = Double.mul (Double.fin 2) (Double.sub (Double.fin 1)
            (Double.mul (Double.fin (1 / 2)) (Double.add (Double.fin 1)
              (L.erf (Double.div
                (Double.abs (Double.div (Double.fin 8589934592) (L.sqrt (Double.fin 34359738388))))
                (L.sqrt (Double.fin 2))))))) ∧
      RandomnessTester.runs_test L (List.replicate n 1)
        = Double.mul (Double.fin 2) (Double.sub (Double.fin 1)
            (RandomnessTester.normal_cdf L
              (Double.abs
                (Double.div (Double.fin 8589934592) (L.sqrt (Double.fin 34359738388)))))) := by
  have hacc := accumulate_int_replicate_ones n 0 hn
  simp only [List.replicate_zero, List.append_nil] at hacc
  have hW : Double.ofInt (-(2 ^ 31)) = Double.fin (-(2 ^ 31)) := by
    have := Double.ofInt_exact (-(2 ^ 31)) (by norm_num)
    rw [this]
    norm_num
  have hN : Double.ofNat (List.replicate n 1 : List ℕ).length = Double.fin (2 ^ 31) := by
    rw [List.length_replicate, hn]
    have := Double.ofNat_exact (2 ^ 31) (by norm_num)
    simpa using this
  have hp : Double.div (Double.fin (-(2 ^ 31))) (Double.fin (2 ^ 31)) = Double.fin (-1) := by
    rw [Double.div_fin _ _ (by norm_num), Double.round_int (-1) (by norm_num) (by norm_num)]
    norm_num
  have hq : Double.sub (Double.fin 1) (Double.fin (-1)) = Double.fin 2 := by
    rw [Double.sub_fin, Double.round_int 2 (by norm_num) (by norm_num)]
    norm_num
  have h2n : Double.mul (Double.fin 2) (Double.fin (2 ^ 31)) = Double.fin (2 ^ 32) := by
    rw [Double.mul_fin, Double.round_int (2 ^ 32) (by norm_num) (by norm_num)]
    norm_num
  have hA : Double.mul (Double.fin (2 ^ 32)) (Double.fin (-1)) = Double.fin (-(2 ^ 32)) := by
    rw [Double.mul_fin, Double.round_int (-(2 ^ 32)) (by norm_num) (by norm_num)]
    norm_num
  have hX : Double.mul (Double.fin (-(2 ^ 32))) (Double.fin 2) = Double.fin (-(2 ^ 33)) := by
    rw [Double.mul_fin, Double.round_int (-(2 ^ 33)) (by norm_num) (by norm_num)]
    norm_num
  have hE : Double.add (Double.fin (-(2 ^ 33))) (Double.fin 1) = Double.fin (-8589934591) := by
    rw [Double.add_fin, Double.round_int (-8589934591) (by norm_num) (by norm_num)]
    norm_num
  have hU : Double.sub (Double.fin (-8589934591)) (Double.fin 1) = Double.fin (-8589934592) := by
    rw [Double.sub_fin, Double.round_int (-8589934592) (by norm_num) (by norm_num)]
    norm_num
  have hV : Double.sub (Double.fin (-8589934591)) (Double.fin 2) = Double.fin (-8589934593) := by
    rw [Double.sub_fin, Double.round_int (-8589934593) (by norm_num) (by norm_num)]
    norm_num
  have hM : Double.mul (Double.fin (-8589934592)) (Double.fin (-8589934593))
      = Double.fin (2 ^ 66 + 2 ^ 33) := by
    rw [Double.mul_fin]
    have h := Double.rnd_exact (2 ^ 33 + 1) 33 (by norm_num) (by norm_num)
    have e : (((2 ^ 33 + 1 : ℤ)) : ℚ) * (2 : ℚ) ^ (33 : ℤ) = 2 ^ 66 + 2 ^ 33 := by norm_num
    rw [e] at h
    have e2 : (-8589934592 : ℚ) * -8589934593 = 2 ^ 66 + 2 ^ 33 := by norm_num
    rw [e2]
    exact Double.round_exact h (by norm_num)
  have hD : Double.sub (Double.fin (2 ^ 31)) (Double.fin 1) = Double.fin (2 ^ 31 - 1) := by
    rw [Double.sub_fin, Double.round_int (2 ^ 31 - 1) (by norm_num) (by norm_num)]
  have hVar : Double.div (Double.fin (2 ^ 66 + 2 ^ 33)) (Double.fin (2 ^ 31 - 1))
      = Double.fin 34359738388 := by
    rw [Double.div_fin _ _ (by norm_num), Double.round_of_lt, Double.rnd_wrapped_variance]
    rw [Double.rnd_wrapped_variance]
    norm_num
  have hlen : ¬ (List.replicate n 1 : List ℕ).length < 10 := by
    rw [List.length_replicate, hn]
    norm_num
  have hR : Double.ofNat (1 + count_changes (List.replicate n 1)) = Double.fin 1 := by
    rw [count_changes_replicate]
    have := Double.ofNat_exact 1 (by norm_num)
    simpa using this
  have hZ : Double.sub (Double.fin 1) (Double.fin (-8589934591)) = Double.fin 8589934592 := by
    rw [Double.sub_fin, Double.round_int 8589934592 (by norm_num) (by norm_num)]
    norm_num
  have hne : Double.eq (Double.fin 34359738388) (Double.fin 0) = false := by
    simp [Double.eq]
  refine ⟨?_, ?_, ?_⟩
  · unfold runs_variance
    simp only [hacc, hW, hN, hp, hq, h2n, hA, hX, hE, hU, hV, hM, hD, hVar]
  · unfold QRNG.runs_test
    simp only [hacc, hW, hN, hp, hq, h2n, hA, hX, hE, hU, hV, hM, hD, hVar, hlen, hR, hZ, hne,
      if_false, Bool.false_eq_true]
  · unfold RandomnessTester.runs_test
    simp only [hacc, hW, hN, hp, hq, h2n, hA, hX, hE, hU, hV, hM, hD, hVar, hlen, hR, hZ, hne,
      if_false, Bool.false_eq_true]

/-- Both `runs_test` methods return 0 when the variance is 0. -/
theorem runs_test_of_variance_zero (L : StdLib) (bits : List ℕ)
    (h : runs_variance bits = Double.fin 0) :
    QRNG.runs_test L bits = Double.fin 0 ∧ RandomnessTester.runs_test L bits = Double.fin 0 := by
  have he : Double.eq (Double.fin 0) (Double.fin 0) = true := by simp [Double.eq]
  unfold runs_variance at h
  unfold QRNG.runs_test RandomnessTester.runs_test
  simp only [h, he, if_true, ite_self, and_self]

/-- C18 (evaluation at the failing input): the sequence of `2^31` ones is constant and has
length at least 10, but the `int` sum wraps to `-2^31`, the variance of `runs_test` is
`34359738388`, not 0, and both `runs_test` methods leave the variance-zero branch aside and
compute a z-score. -/
theorem C18_variance_accumulator_overflow (L : StdLib) :
    (∀ b ∈ List.replicate (2 ^ 31) 1, b = 1) ∧
      10 ≤ (List.replicate (2 ^ 31) 1).length ∧
      runs_variance (List.replicate (2 ^ 31) 1) = Double.fin 34359738388 ∧
      QRNG.runs_test L (List.replicate (2 ^ 31) 1)
        = Double.mul (Double.fin 2) (Double.sub (Double.fin 1)
            (Double.mul (Double.fin (1 / 2)) (Double.add (Double.fin 1)
              (L.erf (Double.div
                (Double.abs (Double.div (Double.fin 8589934592) (L.sqrt (Double.fin 34359738388))))
                (L.sqrt (Double.fin 2))))))) ∧
      RandomnessTester.runs_test L (List.replicate (2 ^ 31) 1)
        = Double.mul (Double.fin 2) (Double.sub (Double.fin 1)
            (RandomnessTester.normal_cdf L
              (Double.abs
                (Double.div (Double.fin 8589934592) (L.sqrt (Double.fin 34359738388)))))) := by
  refine ⟨?_, ?_, runs_all_ones L (2 ^ 31) rfl⟩
  · intro b hb
    exact (List.mem_replicate.1 hb).2
  · rw [List.length_replicate]
    norm_num

namespace Double

theorem rnd_nine_quarters : rnd (9 / 4 : ℚ) = 9 / 4 := by
  have := rnd_dyadic 9 2 (by norm_num) (by norm_num)
  norm_num at this ⊢
  exact this

/-- With a rounded `2 n p q` of at least `5/4` the variance is positive. -/
theorem runs_variance_pos {X D : ℚ} (hX : 5 / 4 ≤ X) (hD0 : 0 < D) (hD : D ≤ 2 ^ 63) :
    0 < rnd (rnd (rnd (rnd (X + 1) - 1) * rnd (rnd (X + 1) - 2)) / D) := by
  have hE : 9 / 4 ≤ rnd (X + 1) := by
    have := rnd_mono (show (9 / 4 : ℚ) ≤ X + 1 by linarith)
    rwa [rnd_nine_quarters] at this
  have hU : 5 / 4 ≤ rnd (rnd (X + 1) - 1) := by
    have := rnd_mono (show (5 / 4 : ℚ) ≤ rnd (X + 1) - 1 by linarith)
    rwa [rnd_five_quarters] at this
  have hV : 1 / 4 ≤ rnd (rnd (X + 1) - 2) := by
    have := rnd_mono (show (1 / 4 : ℚ) ≤ rnd (X + 1) - 2 by linarith)
    rwa [rnd_quarter] at this
  have hUV : 1 / 4 ≤ rnd (rnd (X + 1) - 1) * rnd (rnd (X + 1) - 2) := by
    have h1 : (1 : ℚ) * (1 / 4) ≤ rnd (rnd (X + 1) - 1) * rnd (rnd (X + 1) - 2) :=
      mul_le_mul (by linarith) hV (by norm_num) (by linarith)
    linarith
  have hM : 1 / 4 ≤ rnd (rnd (rnd (X + 1) - 1) * rnd (rnd (X + 1) - 2)) := by
    have := rnd_mono hUV
    rwa [rnd_quarter] at this
  have hq : (1 : ℚ) / 2 ^ 65
      ≤ rnd (rnd (rnd (X + 1) - 1) * rnd (rnd (X + 1) - 2)) / D := by
    rw [le_div_iff₀ hD0]
    have h2 : (1 : ℚ) / 2 ^ 65 * D ≤ 1 / 2 ^ 65 * 2 ^ 63 :=
      mul_le_mul_of_nonneg_left hD (by norm_num)
    linarith [show (1 : ℚ) / 2 ^ 65 * 2 ^ 63 = 1 / 4 by norm_num]
  have h65 : rnd ((1 : ℚ) / 2 ^ 65) = 1 / 2 ^ 65 := by
    simpa using rnd_dyadic 1 65 (by norm_num) (by norm_num)
  have := rnd_mono hq
  rw [h65] at this
  linarith [show (0 : ℚ) < 1 / 2 ^ 65 by norm_num]

/-- With a rounded `2 n p q` of 0 the variance is 0. -/
theorem runs_variance_zero (D : ℚ) :
    rnd (rnd (rnd (rnd ((0 : ℚ) + 1) - 1) * rnd (rnd ((0 : ℚ) + 1) - 2)) / D) = 0 := by
  rw [zero_add, rnd_one, sub_self, rnd_zero, zero_mul, rnd_zero, zero_div, rnd_zero]

end Double

/-- The variance of `runs_test` in terms of the rounded `X = fl(fl(2 n p) q)` and the rounded
divisor `D = fl(n - 1)`, on every 0/1 sequence of length at least 10, wrapped sums included:
no intermediate result overflows. -/
theorem runs_variance_eval (bits : List ℕ) (h01 : ∀ b ∈ bits, b ≤ 1)
    (hn10 : 10 ≤ bits.length) (hlen : bits.length ≤ vector_max_size) :
    ∃ X D : ℚ,
      X = Double.rnd (Double.rnd (2 * Double.rnd (bits.length : ℚ)
            * Double.rnd ((accumulate_int bits : ℚ) / Double.rnd (bits.length : ℚ)))
          * Double.rnd (1 - Double.rnd ((accumulate_int bits : ℚ) / Double.rnd (bits.length : ℚ))))
      ∧ 9 ≤ D ∧ D ≤ 2 ^ 63 ∧
      runs_variance bits = Double.fin (Double.rnd (Double.rnd
        (Double.rnd (Double.rnd (X + 1) - 1) * Double.rnd (Double.rnd (X + 1) - 2)) / D)) := by
  have hn63 : bits.length ≤ 2 ^ 63 := by unfold vector_max_size at hlen; omega
  have hne : bits ≠ [] := by
    intro h
    rw [h] at hn10
    simp at hn10
  obtain ⟨hw0, hw1, hwn⟩ := accumulate_int_le_length bits h01
  obtain ⟨hN, _, hb63⟩ := Double.ofNat_length bits hne hlen
  have hnq10 : (10 : ℚ) ≤ bits.length := by exact_mod_cast hn10
  have r10 : Double.rnd (10 : ℚ) = 10 := by simpa using Double.rnd_natCast 10 (by norm_num)
  have hb10 : (10 : ℚ) ≤ Double.rnd (bits.length : ℚ) := by
    have := Double.rnd_mono hnq10; rwa [r10] at this
  have hbabs : |Double.rnd (bits.length : ℚ)| ≤ 2 ^ 63 := by
    rw [abs_of_nonneg (by linarith)]; exact hb63
  have hW : Double.ofInt (accumulate_int bits) = Double.fin (accumulate_int bits) :=
    Double.ofInt_exact _ (by rw [abs_lt]; constructor <;> omega)
  have hwabs : |((accumulate_int bits : ℤ) : ℚ)| ≤ 2 ^ 31 := by
    rw [abs_le]
    constructor
    · exact_mod_cast hw0
    · exact_mod_cast hw1.le
  have h1abs : |(1 : ℚ)| ≤ 2 ^ 31 := by norm_num
  obtain ⟨hp, hpb⟩ := Double.div_fin_bound (i := 31) (by norm_num) hwabs
    (show (1 : ℚ) ≤ Double.rnd (bits.length : ℚ) by linarith)
  obtain ⟨hq, hqb⟩ := Double.sub_fin_bound (i := 31) (by norm_num) h1abs hpb
  have h2b : Double.mul (Double.fin 2) (Double.fin (Double.rnd (bits.length : ℚ)))
      = Double.fin (2 * Double.rnd (bits.length : ℚ)) := by
    rw [Double.mul_fin]
    apply Double.round_exact
    · rw [Double.rnd_two_mul (Double.normal_of_ge (by linarith [show (1 : ℚ) / 2 ^ 64 ≤ 10 by norm_num])),
        Double.rnd_idem]
    · rw [abs_of_nonneg (by linarith)]
      linarith [show (2 : ℚ) * 2 ^ 63 < 2 ^ 1024 by norm_num]
  have h2babs : |2 * Double.rnd (bits.length : ℚ)| ≤ 2 ^ 64 := by
    rw [abs_of_nonneg (by linarith)]
    linarith [show (2 : ℚ) * 2 ^ 63 = 2 ^ 64 by norm_num]
  obtain ⟨hA, hAb⟩ := Double.mul_fin_bound (i := 64) (j := 31) (by norm_num) h2babs hpb
  obtain ⟨hX, hXb⟩ := Double.mul_fin_bound (i := 64 + 31) (j := 31 + 1) (by norm_num) hAb hqb
  obtain ⟨hE, hEb⟩ := Double.add_fin_bound (i := 64 + 31 + (31 + 1)) (by norm_num) hXb
    (show |(1 : ℚ)| ≤ 2 ^ (64 + 31 + (31 + 1)) by norm_num)
  obtain ⟨hU, hUb⟩ := Double.sub_fin_bound (i := 64 + 31 + (31 + 1) + 1) (by norm_num) hEb
    (show |(1 : ℚ)| ≤ 2 ^ (64 + 31 + (31 + 1) + 1) by norm_num)
  obtain ⟨hV, hVb⟩ := Double.sub_fin_bound (i := 64 + 31 + (31 + 1) + 1) (by norm_num) hEb
    (show |(2 : ℚ)| ≤ 2 ^ (64 + 31 + (31 + 1) + 1) by norm_num)
  obtain ⟨hM, hMb⟩ := Double.mul_fin_bound (i := 64 + 31 + (31 + 1) + 1 + 1)
    (j := 64 + 31 + (31 + 1) + 1 + 1) (by norm_num) hUb hVb
  have r9 : Double.rnd (9 : ℚ) = 9 := by simpa using Double.rnd_natCast 9 (by norm_num)
  obtain ⟨eD, aD, bD⟩ := Double.round_between (q := Double.rnd (bits.length : ℚ) - 1) r9
    (Double.rnd_two_pow 63) (by linarith) (by linarith) (by norm_num) (by norm_num)
  have hD : Double.sub (Double.fin (Double.rnd (bits.length : ℚ))) (Double.fin 1)
      = Double.fin (Double.rnd (Double.rnd (bits.length : ℚ) - 1)) := by
    rw [Double.sub_fin, eD]
  obtain ⟨hVar, _⟩ := Double.div_fin_bound
    (i := 64 + 31 + (31 + 1) + 1 + 1 + (64 + 31 + (31 + 1) + 1 + 1)) (by norm_num) hMb
    (show (1 : ℚ) ≤ Double.rnd (Double.rnd (bits.length : ℚ) - 1) by linarith)
  refine ⟨_, _, rfl, aD, bD, ?_⟩
  unfold runs_variance
  simp only [hN, hW, hp, hq, h2b, hA, hX, hE, hU, hV, hM, hD, hVar]

/-- Below `2^31` ones the `int` sum is the number of ones. -/
theorem accumulate_int_of_lt (bits : List ℕ) (h01 : ∀ b ∈ bits, b ≤ 1)
    (h : bits.count 1 < 2 ^ 31) : accumulate_int bits = (bits.count 1 : ℕ) := by
  rw [accumulate_int_eq, sum_eq_count_one bits h01]
  exact toInt32_of_range _ (by omega) (by omega)

/-- The claim of C18 where the `int` sum does not wrap: on every 0/1 sequence of length at
least 10 with fewer than `2^31` ones, the variance of `runs_test` is exactly 0 when all bits
are identical (and both `runs_test` methods then return 0), and a finite positive number
otherwise. -/
theorem runs_variance_in_range (L : StdLib) (bits : List ℕ) (h01 : ∀ b ∈ bits, b = 0 ∨ b = 1)
    (hn10 : 10 ≤ bits.length) (hlen : bits.length ≤ vector_max_size)
    (hones : bits.count 1 < 2 ^ 31) :
    ((∀ a ∈ bits, ∀ b ∈ bits, a = b) →
        runs_variance bits = Double.fin 0 ∧ QRNG.runs_test L bits = Double.fin 0 ∧
          RandomnessTester.runs_test L bits = Double.fin 0) ∧
      ((¬ ∀ a ∈ bits, ∀ b ∈ bits, a = b) →
        ∃ v : ℚ, 0 < v ∧ runs_variance bits = Double.fin v) := by
  have h01' : ∀ b ∈ bits, b ≤ 1 := by
    intro b hb
    rcases h01 b hb with h | h <;> omega
  have hn63 : bits.length ≤ 2 ^ 63 := by unfold vector_max_size at hlen; omega
  obtain ⟨X, D, hX, hD9, hD63, hv⟩ := runs_variance_eval bits h01' hn10 hlen
  have hacc := accumulate_int_of_lt bits h01' hones
  have hcnt := count_zero_add_count_one bits h01'
  have hnq10 : (10 : ℚ) ≤ bits.length := by exact_mod_cast hn10
  have r10 : Double.rnd (10 : ℚ) = 10 := by simpa using Double.rnd_natCast 10 (by norm_num)
  have hb10 : (10 : ℚ) ≤ Double.rnd (bits.length : ℚ) := by
    have := Double.rnd_mono hnq10; rwa [r10] at this
  constructor
  · intro hconst
    have hX0 : X = 0 := by
      rw [hX, hacc]
      rcases Nat.eq_zero_or_pos (bits.count 1) with h0 | hpos
      · rw [h0]
        simp [Double.rnd_zero]
      · have hmem : 1 ∈ bits := List.count_pos_iff.1 hpos
        have hall : bits.count 1 = bits.length :=
          List.count_eq_length.2 (fun b hb => hconst 1 hmem b hb)
        have hn53 : bits.length < 2 ^ 53 := by omega
        have hbn : Double.rnd (bits.length : ℚ) = bits.length := Double.rnd_natCast _ hn53
        have hx : (((bits.count 1 : ℕ) : ℤ) : ℚ) / Double.rnd (bits.length : ℚ) = 1 := by
          rw [hbn, hall]
          push_cast
          exact div_self (by linarith)
        rw [hx, Double.rnd_one, sub_self, Double.rnd_zero, mul_zero, Double.rnd_zero]
    have hzero : runs_variance bits = Double.fin 0 := by
      rw [hv, hX0, Double.runs_variance_zero]
    exact ⟨hzero, runs_test_of_variance_zero L bits hzero⟩
  · intro hvar
    have h1 : 1 ≤ bits.count 1 := by
      by_contra hcon
      have h0 : bits.count 1 = 0 := by omega
      apply hvar
      intro a ha b hb
      have hna : a ≠ 1 := fun e => (List.count_eq_zero.1 h0) (e ▸ ha)
      have hnb : b ≠ 1 := fun e => (List.count_eq_zero.1 h0) (e ▸ hb)
      rcases h01 a ha with ea | ea <;> rcases h01 b hb with eb | eb <;> omega
    have h2 : bits.count 1 < bits.length := by
      by_contra hcon
      have h0 : bits.count 0 = 0 := by omega
      apply hvar
      intro a ha b hb
      have hna : a ≠ 0 := fun e => (List.count_eq_zero.1 h0) (e ▸ ha)
      have hnb : b ≠ 0 := fun e => (List.count_eq_zero.1 h0) (e ▸ hb)
      rcases h01 a ha with ea | ea <;> rcases h01 b hb with eb | eb <;> omega
    have hX54 : 5 / 4 ≤ X := by
      rw [hX, hacc]
      exact Double.runs_product_ge bits.length (bits.count 1 : ℕ) hn10 hn63 (by omega)
        (by omega) (by omega)
    exact ⟨_, Double.runs_variance_pos hX54 (by linarith) hD63, hv⟩

/-! ### Shannon entropy and min-entropy on constant sequences -/

/-- The two entropy terms vanish at proportion 1 when `log2(1) = 0`. -/
theorem shannon_at_one (L : StdLib) (hlog : L.log2 (Double.fin 1) = Double.fin 0) :
    Double.sub (Double.fin 0) (Double.mul (Double.fin 1) (L.log2 (Double.fin 1)))
      = Double.fin 0 := by
  rw [hlog, Double.mul_fin, mul_zero, Double.round_zero, Double.sub_fin, sub_zero,
    Double.round_zero]

/-- On a sequence of `n` ones, `n < 2^53`, `calculate_shannon_entropy`, which sums in
`double`, computes the proportion 1 and returns `0 - 1 * log2(1)`. -/
theorem shannon_entropy_all_ones (L : StdLib) (n : ℕ) (h0 : 0 < n) (h53 : n < 2 ^ 53) :
    QRNG.calculate_shannon_entropy L (List.replicate n 1)
      = Double.sub (Double.fin 0) (Double.mul (Double.fin 1) (L.log2 (Double.fin 1))) := by
  have hne : (List.replicate n 1 : List ℕ).isEmpty = false := by
    have := isEmpty_replicate_append n 0 1 0 h0
    simpa using this
  have hsum : (List.replicate n 1 : List ℕ).sum = n := by
    rw [List.sum_replicate, smul_eq_mul, mul_one]
  have hacc : accumulate_double (List.replicate n 1) = Double.fin (n : ℚ) := by
    rw [accumulate_double_exact _ (by rw [hsum]; exact h53), hsum]
  have hN : Double.ofNat (List.replicate n 1 : List ℕ).length = Double.fin (n : ℚ) := by
    rw [List.length_replicate]
    exact Double.ofNat_exact n h53
  have hnq : (n : ℚ) ≠ 0 := by
    have : (0 : ℚ) < (n : ℚ) := by exact_mod_cast h0
    exact this.ne'
  have hdiv : Double.div (Double.fin (n : ℚ)) (Double.fin (n : ℚ)) = Double.fin 1 := by
    rw [Double.div_fin _ _ hnq, div_self hnq, Double.round_one]
  have hsub : Double.sub (Double.fin 1) (Double.fin 1) = Double.fin 0 := by
    rw [Double.sub_fin, sub_self, Double.round_zero]
  have hgt0 : Double.gt (Double.fin 0) (Double.fin 0) = false := by
    simp [Double.gt, Double.lt]
  have hgt1 : Double.gt (Double.fin 1) (Double.fin 0) = true := by
    simp [Double.gt, Double.lt]
  unfold QRNG.calculate_shannon_entropy
  simp only [hne, hacc, hN, hdiv, hsub, hgt0, hgt1, if_true, Bool.false_eq_true, if_false]

/-- The quotient `2147483647 / 6442450943` rounds to `3002399750648263 / 2^53`. -/
theorem Double.rnd_wrapped_proportion :
    Double.rnd ((2147483647 : ℚ) / 6442450943) = 3002399750648263 / 2 ^ 53 := by
  have h := Double.rnd_eval (q := (2147483647 : ℚ) / 6442450943) (e := -2)
    (m := 6004799501296526) (by norm_num)
    (by rw [abs_of_nonneg (by norm_num)]; norm_num)
    (by rw [abs_of_nonneg (by norm_num)]; norm_num)
    (Double.rne_eq_of_abs_lt (by rw [abs_lt]; constructor <;> norm_num))
  rw [h]
  norm_num

/-- On the sequence of `2^32 + 2^31 - 1 = 6442450943` ones the `int` sum of
`calculate_min_entropy` wraps to `2^31 - 1 = 2147483647`: the proportion of ones is computed
as `3002399750648263 / 2^53` (about `1/3`) instead of 1, and the function returns
`-log2(6004799504092729 / 2^53)`, with an argument of about `2/3`. -/
theorem min_entropy_wrapped_third (L : StdLib) (n : ℕ) (hn : n = 6442450943) :
    QRNG.calculate_min_entropy L (List.replicate n 1)
      = Double.neg (L.log2 (Double.fin (6004799504092729 / 2 ^ 53))) := by
  have hacc : accumulate_int (List.replicate n 1) = 2147483647 := by
    rw [accumulate_int_eq, List.sum_replicate, smul_eq_mul, mul_one, hn]
    unfold toInt32
    norm_num
  have hsz : toSizeT 2147483647 = 2147483647 := by
    unfold toSizeT; omega
  have hne : (List.replicate n 1 : List ℕ).isEmpty = false := by
    have := isEmpty_replicate_append n 0 1 0 (by omega)
    simpa using this
  have hK : Double.ofNat 2147483647 = Double.fin 2147483647 := by
    have := Double.ofNat_exact 2147483647 (by norm_num)
    simpa using this
  have hN : Double.ofNat (List.replicate n 1 : List ℕ).length = Double.fin 6442450943 := by
    rw [List.length_replicate, hn]
    have := Double.ofNat_exact 6442450943 (by norm_num)
    simpa using this
  have hdiv : Double.div (Double.fin 2147483647) (Double.fin 6442450943)
      = Double.fin (3002399750648263 / 2 ^ 53) := by
    rw [Double.div_fin _ _ (by norm_num), Double.round_of_lt, Double.rnd_wrapped_proportion]
    rw [Double.rnd_wrapped_proportion, abs_of_nonneg (by norm_num)]
    norm_num
  have hsub : Double.sub (Double.fin 1) (Double.fin (3002399750648263 / 2 ^ 53))
      = Double.fin (6004799504092729 / 2 ^ 53) := by
    rw [Double.sub_fin]
    have e : (1 : ℚ) - 3002399750648263 / 2 ^ 53 = ((6004799504092729 : ℤ) : ℚ) / 2 ^ 53 := by
      norm_num
    rw [e, Double.round_dyadic 6004799504092729 53 (by norm_num) (by norm_num)]
    norm_num
  have hmax : Double.max (Double.fin (3002399750648263 / 2 ^ 53))
      (Double.fin (6004799504092729 / 2 ^ 53)) = Double.fin (6004799504092729 / 2 ^ 53) := by
    simp [Double.max, Double.lt]
    norm_num
  unfold QRNG.calculate_min_entropy
  simp only [hne, hacc, hsz, hK, hN, hdiv, hsub, hmax, Bool.false_eq_true, if_false]

/-- Within the range of the `int` accumulator (fewer than `2^31` ones), every non-empty
constant 0/1 sequence has Shannon entropy and min-entropy 0, in the generator and in the
tester, for a math library with `log2(1) = 0`. -/
theorem entropy_constant_of_lt (L : StdLib) (bits : List ℕ) (hne : bits ≠ [])
    (h01 : ∀ b ∈ bits, b ≤ 1) (hconst : ∀ a ∈ bits, ∀ b ∈ bits, a = b)
    (hlen : bits.length ≤ vector_max_size) (hsmall : bits.count 1 < 2 ^ 31)
    (hlog : L.log2 (Double.fin 1) = Double.fin 0) :
    QRNG.calculate_shannon_entropy L bits = Double.fin 0 ∧
      QRNG.calculate_min_entropy L bits = Double.fin 0 ∧
      RandomnessTester.calculate_shannon_entropy L bits = Double.fin 0 ∧
      RandomnessTester.calculate_min_entropy L bits = Double.fin 0 := by
  have hsum := sum_eq_count_one bits h01
  have hemp : bits.isEmpty = false := by
    cases bits with
    | nil => exact absurd rfl hne
    | cons x xs => rfl
  have hpos : 0 < bits.length := List.length_pos.2 hne
  have hsh := shannon_at_one L hlog
  have hgt0 : Double.gt (Double.fin 0) (Double.fin 0) = false := by
    simp [Double.gt, Double.lt]
  have hgt1 : Double.gt (Double.fin 1) (Double.fin 0) = true := by
    simp [Double.gt, Double.lt]
  have hneg : Double.neg (Double.fin 0) = Double.fin 0 := by simp [Double.neg]
  have hs10 : Double.sub (Double.fin 1) (Double.fin 0) = Double.fin 1 := by
    rw [Double.sub_fin, sub_zero, Double.round_one]
  have hs11 : Double.sub (Double.fin 1) (Double.fin 1) = Double.fin 0 := by
    rw [Double.sub_fin, sub_self, Double.round_zero]
  have hones : toSizeT (accumulate_int bits) = bits.count 1 := by
    rw [accumulate_int_eq, hsum, toInt32_of_range _ (by omega) (by omega)]
    unfold toSizeT; omega
  rcases Nat.eq_zero_or_pos (bits.count 1) with h0 | hp
  · -- all bits are 0
    obtain ⟨hN, hb1, _⟩ := Double.ofNat_length bits hne hlen
    have hacc : accumulate_double bits = Double.fin 0 := by
      rw [accumulate_double_exact bits (by omega), hsum, h0]
      norm_num
    have hK : Double.ofNat 0 = Double.fin 0 := by
      have := Double.ofNat_exact 0 (by norm_num)
      simpa using this
    have hdiv : Double.div (Double.fin 0) (Double.fin (Double.rnd (bits.length : ℚ)))
        = Double.fin 0 := by
      rw [Double.div_fin _ _ (by linarith), zero_div, Double.round_zero]
    have hmax : Double.max (Double.fin 0) (Double.fin 1) = Double.fin 1 := by
      simp [Double.max, Double.lt]
    refine ⟨?_, ?_, ?_, ?_⟩
    · unfold QRNG.calculate_shannon_entropy
      simp only [hemp, hacc, hN, hdiv, hs10, hgt0, hgt1, if_true, hsh, Bool.false_eq_true,
        if_false]
    · unfold QRNG.calculate_min_entropy
      simp only [hemp, hones, h0, hN, hK, hdiv, hs10, hmax, hlog, hneg, Bool.false_eq_true,
        if_false]
    · unfold RandomnessTester.calculate_shannon_entropy
      simp only [hemp, hacc, hN, hdiv, hs10, hgt0, hgt1, if_true, hsh, Bool.false_eq_true,
        if_false]
    · unfold RandomnessTester.calculate_min_entropy
      simp only [hemp, hones, h0, hN, hK, hdiv, hs10, hmax, hlog, hneg, Bool.false_eq_true,
        if_false]
  · -- all bits are 1
    have hmem : 1 ∈ bits := List.count_pos_iff.1 hp
    have hall : bits.count 1 = bits.length :=
      List.count_eq_length.2 (fun b hb => hconst 1 hmem b hb)
    have hacc : accumulate_double bits = Double.fin (bits.length : ℚ) := by
      rw [accumulate_double_exact bits (by omega), hsum, hall]
    have hN : Double.ofNat bits.length = Double.fin (bits.length : ℚ) :=
      Double.ofNat_exact _ (by omega)
    have hnq : (bits.length : ℚ) ≠ 0 := by
      have : (0 : ℚ) < (bits.length : ℚ) := by exact_mod_cast hpos
      exact this.ne'
    have hdiv : Double.div (Double.fin (bits.length : ℚ)) (Double.fin (bits.length : ℚ))
        = Double.fin 1 := by
      rw [Double.div_fin _ _ hnq, div_self hnq, Double.round_one]
    have hmax : Double.max (Double.fin 1) (Double.fin 0) = Double.fin 1 := by
      simp [Double.max, Double.lt]
    refine ⟨?_, ?_, ?_, ?_⟩
    · unfold QRNG.calculate_shannon_entropy
      simp only [hemp, hacc, hN, hdiv, hs11, hgt0, hgt1, if_true, hsh, Bool.false_eq_true,
        if_false]
    · unfold QRNG.calculate_min_entropy
      simp only [hemp, hones, hall, hN, hdiv, hs11, hmax, hlog, hneg, Bool.false_eq_true,
        if_false]
    · unfold RandomnessTester.calculate_shannon_entropy
      simp only [hemp, hacc, hN, hdiv, hs11, hgt0, hgt1, if_true, hsh, Bool.false_eq_true,
        if_false]
    · unfold RandomnessTester.calculate_min_entropy
      simp only [hemp, hones, hall, hN, hdiv, hs11, hmax, hlog, hneg, Bool.false_eq_true,
        if_false]

/-- C19 (evaluation at the failing input): the sequence of `6442450943` ones is constant and
not empty; with `log2(1) = 0` and `log2(6004799504092729 / 2^53) = -v`, `v > 0`, in the math
library (the argument is about `2/3`, so `v` is about `0.585`), `calculate_shannon_entropy`
returns 0 but `calculate_min_entropy`, whose `int` sum wraps, returns `v`: the min-entropy is
greater than the Shannon entropy, and the two are not equal on this constant sequence. -/
theorem C19_min_entropy_exceeds_shannon (L : StdLib) (v : ℚ) (hv : 0 < v)
    (h1 : L.log2 (Double.fin 1) = Double.fin 0)
    (h2 : L.log2 (Double.fin (6004799504092729 / 2 ^ 53)) = Double.fin (-v)) :
    (∀ b ∈ List.replicate 6442450943 1, b = 1) ∧
      1 ≤ (List.replicate 6442450943 1).length ∧
      QRNG.calculate_shannon_entropy L (List.replicate 6442450943 1) = Double.fin 0 ∧
      QRNG.calculate_min_entropy L (List.replicate 6442450943 1) = Double.fin v ∧
      Double.le (QRNG.calculate_min_entropy L (List.replicate 6442450943 1))
        (QRNG.calculate_shannon_entropy L (List.replicate 6442450943 1)) = false := by
  have hs : QRNG.calculate_shannon_entropy L (List.replicate 6442450943 1) = Double.fin 0 := by
    rw [shannon_entropy_all_ones L 6442450943 (by norm_num) (by norm_num), shannon_at_one L h1]
  have hm : QRNG.calculate_min_entropy L (List.replicate 6442450943 1) = Double.fin v := by
    rw [min_entropy_wrapped_third L 6442450943 rfl, h2]
    simp [Double.neg]
  refine ⟨?_, ?_, hs, hm, ?_⟩
  · intro b hb
    exact (List.mem_replicate.1 hb).2
  · rw [List.length_replicate]
    norm_num
  · rw [hs, hm]
    simp [Double.le, hv]

theorem sampleLib_log2_one : sampleLib.log2 (Double.fin 1) = Double.fin 0 := by
  simp [sampleLib]

theorem sampleLib_log2_two_thirds :
    sampleLib.log2 (Double.fin (6004799504092729 / 2 ^ 53)) = Double.fin (-1) := by
  have hpos : (0 : ℚ) < 6004799504092729 / 2 ^ 53 := by norm_num
  have a1 := (Double.log_le_iff (x := -1) hpos).1 (by norm_num)
  have a2 := (Double.lt_iff_log (x := 0) hpos).1 (by norm_num)
  have e : Int.log 2 (6004799504092729 / 2 ^ 53 : ℚ) = -1 := by omega
  simp only [sampleLib]
  rw [if_neg (by norm_num), if_neg (by norm_num), e]
  norm_num

theorem C19_min_entropy_exceeds_shannon_witness :
    (0 : ℚ) < 1 ∧ sampleLib.log2 (Double.fin 1) = Double.fin 0 ∧
      sampleLib.log2 (Double.fin (6004799504092729 / 2 ^ 53)) = Double.fin (-1) ∧
      ((∀ b ∈ List.replicate 6442450943 1, b = 1) ∧
        1 ≤ (List.replicate 6442450943 1).length ∧
        QRNG.calculate_shannon_entropy sampleLib (List.replicate 6442450943 1) = Double.fin 0 ∧
        QRNG.calculate_min_entropy sampleLib (List.replicate 6442450943 1) = Double.fin 1 ∧
        Double.le (QRNG.calculate_min_entropy sampleLib (List.replicate 6442450943 1))
          (QRNG.calculate_shannon_entropy sampleLib (List.replicate 6442450943 1)) = false) :=
  ⟨by norm_num, sampleLib_log2_one, sampleLib_log2_two_thirds,
    C19_min_entropy_exceeds_shannon sampleLib 1 (by norm_num) sampleLib_log2_one
      sampleLib_log2_two_thirds⟩

/-! ### The frequency test and the chi-square test on the same sequence -/

namespace Double

theorem int_log_eq {q : ℚ} {l : ℤ} (h1 : (2 : ℚ) ^ l ≤ q) (h2 : q < (2 : ℚ) ^ (l + 1)) :
    Int.log 2 q = l := by
  have hpos : 0 < q := lt_of_lt_of_le (zpow_pos (by norm_num) _) h1
  have a1 := (log_le_iff hpos).1 h1
  have a2 := (lt_iff_log hpos).1 h2
  omega

/-- Evaluation of the correctly rounded square root: with `⌊log2 q⌋ = l`, `e = ⌊l / 2⌋` and
`q / 4^(e - 52)` the natural number `T` whose integer square root is `r`. -/
theorem sqrtPos_eval {q : ℚ} {l e : ℤ} {T r : ℕ} (h1 : (2 : ℚ) ^ l ≤ q)
    (h2 : q < (2 : ℚ) ^ (l + 1)) (he : l / 2 = e)
    (hT : q / ((2 : ℚ) ^ (e - 52)) ^ 2 = (T : ℚ)) (hr1 : r * r ≤ T)
    (hr2 : T < (r + 1) * (r + 1)) :
    sqrtPos q = ((if (r : ℚ) ^ 2 + r + 1 / 4 < (T : ℚ) then r + 1 else r : ℕ) : ℚ)
      * (2 : ℚ) ^ (e - 52) := by
  have hs : Nat.sqrt T = r := (Nat.eq_sqrt.2 ⟨hr1, hr2⟩).symm
  unfold sqrtPos
  simp only [int_log_eq h1 h2, he, hT, Nat.floor_natCast, hs]

theorem sqrtPos_two_pow_neg_ten : sqrtPos (1 / 1024) = 1 / 32 := by
  have h := sqrtPos_eval (q := 1 / 1024) (l := -10) (e := -5) (T := 2 ^ 104) (r := 2 ^ 52)
    (by norm_num) (by norm_num) (by norm_num) (by norm_num) (by norm_num) (by norm_num)
  rw [h, if_neg (by norm_num)]
  norm_num

theorem sqrtPos_two : sqrtPos 2 = 6369051672525773 / 2 ^ 52 := by
  have h := sqrtPos_eval (q := 2) (l := 1) (e := 0) (T := 2 ^ 105) (r := 6369051672525772)
    (by norm_num) (by norm_num) (by norm_num) (by norm_num) (by norm_num) (by norm_num)
  rw [h, if_pos (by norm_num)]
  norm_num

theorem sqrtPos_128 : sqrtPos 128 = 6369051672525773 / 2 ^ 49 := by
  have h := sqrtPos_eval (q := 128) (l := 7) (e := 3) (T := 2 ^ 105) (r := 6369051672525772)
    (by norm_num) (by norm_num) (by norm_num) (by norm_num) (by norm_num) (by norm_num)
  rw [h, if_pos (by norm_num)]
  norm_num

end Double

theorem tailLib_sqrt_pos {q : ℚ} (hq : 0 < q) :
    tailLib.sqrt (Double.fin q) = Double.fin (Double.sqrtPos q) := by
  simp only [tailLib]
  rw [if_neg (not_lt.2 hq.le), if_neg hq.ne']

theorem tailLib_erf_tail {q : ℚ} (hq : 6 ≤ q) : tailLib.erf (Double.fin q) = Double.fin 1 := by
  simp only [tailLib]
  rw [if_pos hq]

theorem tailLib_erfc_tail {q : ℚ} (h6 : 6 ≤ q) (h27 : q < 27) :
    tailLib.erfc (Double.fin q) = Double.fin (1 / 2 ^ 1074) := by
  simp only [tailLib]
  rw [if_neg (not_le.2 h27), if_pos h6]

/-- On `n` ones, `n < 2^31`, the `int` sum is `n`. -/
theorem accumulate_int_ones (n : ℕ) (hn : n < 2 ^ 31) :
    accumulate_int (List.replicate n 1) = n := by
  rw [accumulate_int_eq, List.sum_replicate, smul_eq_mul, mul_one]
  exact toInt32_of_range _ (by omega) (by omega)

/-- The frequency test of the generator on 256 ones, with the library `tailLib`: the z-score
is 16, `erf(16 / sqrt(2))` is 1 and the p-value is `2 * (1 - 0.5 * (1 + 1)) = 0`. -/
theorem frequency_test_256_ones (n : ℕ) (hn : n = 256) :
    QRNG.frequency_test tailLib (List.replicate n 1) = Double.fin 0 := by
  have hacc : accumulate_int (List.replicate n 1) = 256 := by
    rw [accumulate_int_ones n (by omega), hn]
    norm_num
  have hsz : toSizeT 256 = 256 := by
    unfold toSizeT; omega
  have hK : Double.ofNat 256 = Double.fin 256 := by
    have := Double.ofNat_exact 256 (by norm_num)
    simpa using this
  have hN : Double.ofNat (List.replicate n 1 : List ℕ).length = Double.fin 256 := by
    rw [List.length_replicate, hn]
    exact hK
  have hp : Double.div (Double.fin 256) (Double.fin 256) = Double.fin 1 := by
    rw [Double.div_fin _ _ (by norm_num), div_self (by norm_num), Double.round_one]
  have h1 : Double.ofInt 1 = Double.fin 1 := by
    simpa using Double.ofInt_exact 1 (by norm_num)
  have hsub : Double.sub (Double.fin 1) (Double.fin (1 / 2)) = Double.fin (1 / 2) := by
    rw [Double.sub_fin]
    have e : (1 : ℚ) - 1 / 2 = 1 / 2 := by norm_num
    rw [e, Double.round_half]
  have hmul : Double.mul (Double.fin (1 / 2)) (Double.fin (1 / 2)) = Double.fin (1 / 4) := by
    rw [Double.mul_fin]
    have e : (1 / 2 : ℚ) * (1 / 2) = ((1 : ℤ) : ℚ) / 2 ^ 2 := by norm_num
    rw [e, Double.round_dyadic 1 2 (by norm_num) (by norm_num)]
    norm_num
  have hdiv : Double.div (Double.fin (1 / 4)) (Double.fin 256) = Double.fin (1 / 1024) := by
    rw [Double.div_fin _ _ (by norm_num)]
    have e : (1 / 4 : ℚ) / 256 = ((1 : ℤ) : ℚ) / 2 ^ 10 := by norm_num
    rw [e, Double.round_dyadic 1 10 (by norm_num) (by norm_num)]
    norm_num
  have hsq : tailLib.sqrt (Double.fin (1 / 1024)) = Double.fin (1 / 32) := by
    rw [tailLib_sqrt_pos (by norm_num), Double.sqrtPos_two_pow_neg_ten]
  have hz : Double.div (Double.fin (1 / 2)) (Double.fin (1 / 32)) = Double.fin 16 := by
    rw [Double.div_fin _ _ (by norm_num), Double.round_int 16 (by norm_num) (by norm_num)]
    norm_num
  have habs : Double.abs (Double.fin 16) = Double.fin 16 := by
    simp [Double.abs]
  have hs2 : tailLib.sqrt (Double.fin 2) = Double.fin (6369051672525773 / 2 ^ 52) := by
    rw [tailLib_sqrt_pos (by norm_num), Double.sqrtPos_two]
  have r6 : Double.rnd (6 : ℚ) = 6 := by simpa using Double.rnd_natCast 6 (by norm_num)
  have r16 : Double.rnd (16 : ℚ) = 16 := by simpa using Double.rnd_natCast 16 (by norm_num)
  obtain ⟨ex, ax, _⟩ := Double.round_between (q := (16 : ℚ) / (6369051672525773 / 2 ^ 52))
    r6 r16 (by norm_num) (by norm_num) (by norm_num) (by norm_num)
  have hx : Double.div (Double.fin 16) (Double.fin (6369051672525773 / 2 ^ 52))
      = Double.fin (Double.rnd ((16 : ℚ) / (6369051672525773 / 2 ^ 52))) := by
    rw [Double.div_fin _ _ (by norm_num), ex]
  have herf := tailLib_erf_tail ax
  have hadd : Double.add (Double.fin 1) (Double.fin 1) = Double.fin 2 := by
    rw [Double.add_fin, Double.round_int 2 (by norm_num) (by norm_num)]
    norm_num
  have hhalf : Double.mul (Double.fin (1 / 2)) (Double.fin 2) = Double.fin 1 := by
    rw [Double.mul_fin, Double.round_int 1 (by norm_num) (by norm_num)]
    norm_num
  have hs11 : Double.sub (Double.fin 1) (Double.fin 1) = Double.fin 0 := by
    rw [Double.sub_fin, sub_self, Double.round_zero]
  have hfin : Double.mul (Double.fin 2) (Double.fin 0) = Double.fin 0 := by
    rw [Double.mul_fin, mul_zero, Double.round_zero]
  unfold QRNG.frequency_test
  simp only [hacc, hsz, hK, hN, hp, h1, hsub, hmul, hdiv, hsq, hz, habs, hs2, hx, herf, hadd,
    hhalf, hs11, hfin]

/-- The chi-square test of the generator on 256 ones, with the library `tailLib`: the
statistic is 256 and the p-value `erfc(sqrt(128))` is positive. -/
theorem chi_square_test_256_ones (n : ℕ) (hn : n = 256) :
    chi_square_statistic (List.replicate n 1) = Double.fin 256 ∧
      QRNG.chi_square_test tailLib (List.replicate n 1) = Double.fin (1 / 2 ^ 1074) := by
  have h01 : ∀ b ∈ List.replicate n 1, b ≤ 1 := by
    intro b hb
    rw [(List.mem_replicate.1 hb).2]
  obtain ⟨f0, f1⟩ := filter_eq_count (List.replicate n 1) h01
  have c0 : (List.replicate n 1).count 0 = 0 := by
    rw [List.count_replicate]
    simp
  have c1 : (List.replicate n 1).count 1 = 256 := by
    rw [List.count_replicate, hn]
    simp
  have hK : Double.ofNat 256 = Double.fin 256 := by
    have := Double.ofNat_exact 256 (by norm_num)
    simpa using this
  have hZ : Double.ofNat 0 = Double.fin 0 := by
    have := Double.ofNat_exact 0 (by norm_num)
    simpa using this
  have hN : Double.ofNat (List.replicate n 1 : List ℕ).length = Double.fin 256 := by
    rw [List.length_replicate, hn]
    exact hK
  have hexp : Double.div (Double.fin 256) (Double.fin 2) = Double.fin 128 := by
    rw [Double.div_fin _ _ (by norm_num), Double.round_int 128 (by norm_num) (by norm_num)]
    norm_num
  have hd0 : Double.sub (Double.fin 0) (Double.fin 128) = Double.fin (-128) := by
    rw [Double.sub_fin, Double.round_int (-128) (by norm_num) (by norm_num)]
    norm_num
  have hd1 : Double.sub (Double.fin 256) (Double.fin 128) = Double.fin 128 := by
    rw [Double.sub_fin, Double.round_int 128 (by norm_num) (by norm_num)]
    norm_num
  have hm0 : Double.mul (Double.fin (-128)) (Double.fin (-128)) = Double.fin 16384 := by
    rw [Double.mul_fin, Double.round_int 16384 (by norm_num) (by norm_num)]
    norm_num
  have hm1 : Double.mul (Double.fin 128) (Double.fin 128) = Double.fin 16384 := by
    rw [Double.mul_fin, Double.round_int 16384 (by norm_num) (by norm_num)]
    norm_num
  have hq : Double.div (Double.fin 16384) (Double.fin 128) = Double.fin 128 := by
    rw [Double.div_fin _ _ (by norm_num), Double.round_int 128 (by norm_num) (by norm_num)]
    norm_num
  have ha0 : Double.add (Double.fin 0) (Double.fin 128) = Double.fin 128 := by
    rw [Double.add_fin, Double.round_int 128 (by norm_num) (by norm_num)]
    norm_num
  have ha1 : Double.add (Double.fin 128) (Double.fin 128) = Double.fin 256 := by
    rw [Double.add_fin, Double.round_int 256 (by norm_num) (by norm_num)]
    norm_num
  have hstat : chi_square_statistic (List.replicate n 1) = Double.fin 256 := by
    unfold chi_square_statistic
    simp only [f0, f1, c0, c1, hK, hZ, hN, hexp, hd0, hd1, hm0, hm1, hq, ha0, ha1]
  have hs : tailLib.sqrt (Double.fin 128) = Double.fin (6369051672525773 / 2 ^ 49) := by
    rw [tailLib_sqrt_pos (by norm_num), Double.sqrtPos_128]
  refine ⟨hstat, ?_⟩
  unfold QRNG.chi_square_test
  rw [hstat, hexp, hs, tailLib_erfc_tail (by norm_num) (by norm_num)]

/-- C17, counterexample to the equality of the two p-values: on the sequence of 256 ones,
with a math library whose `erf` saturates at 1 while its `erfc` is still positive (as in a C
library), `frequency_test` returns exactly 0 and `chi_square_test` returns a positive
number. -/
theorem C17_p_values_differ :
    List.replicate 256 1 ≠ ([] : List ℕ) ∧ (∀ b ∈ List.replicate 256 1, b = 0 ∨ b = 1) ∧
      QRNG.frequency_test tailLib (List.replicate 256 1) = Double.fin 0 ∧
      QRNG.chi_square_test tailLib (List.replicate 256 1) = Double.fin (1 / 2 ^ 1074) ∧
      QRNG.frequency_test tailLib (List.replicate 256 1)
        ≠ QRNG.chi_square_test tailLib (List.replicate 256 1) := by
  have hf := frequency_test_256_ones 256 rfl
  have hc := (chi_square_test_256_ones 256 rfl).2
  refine ⟨?_, ?_, hf, hc, ?_⟩
  · intro h
    have := congrArg List.length h
    rw [List.length_replicate] at this
    simp at this
  · intro b hb
    right
    exact (List.mem_replicate.1 hb).2
  · rw [hf, hc]
    intro h
    injection h with h
    norm_num at h

/-- Within the range of the `int` accumulator, `frequency_test` returns the p-value exactly 1
on every non-empty balanced 0/1 sequence, in the generator and in the tester, for a math
library that meets `MathContract` with `erf(0) = 0`: the z-score is `0 / sqrt(0.25 / n) = 0`. -/
theorem frequency_test_balanced (L : StdLib) (hL : MathContract L)
    (herf : L.erf (Double.fin 0) = Double.fin 0) (bits : List ℕ) (hne : bits ≠ [])
    (h01 : ∀ b ∈ bits, b ≤ 1) (hbal : bits.count 0 = bits.count 1)
    (hsmall : bits.count 1 < 2 ^ 31) :
    QRNG.frequency_test L bits = Double.fin 1 ∧
      RandomnessTester.frequency_test L bits = Double.fin 1 := by
  have hcnt := count_zero_add_count_one bits h01
  have hsum := sum_eq_count_one bits h01
  have hpos : 0 < bits.length := List.length_pos.2 hne
  set k := bits.count 1 with hk
  have hn : bits.length = 2 * k := by omega
  have hk1 : 1 ≤ k := by omega
  have hemp : bits.isEmpty = false := by
    cases bits with
    | nil => exact absurd rfl hne
    | cons x xs => rfl
  have hones : toSizeT (accumulate_int bits) = k := by
    rw [accumulate_int_eq, hsum, toInt32_of_range _ (by omega) (by omega)]
    unfold toSizeT; omega
  have hN : Double.ofNat bits.length = Double.fin ((2 * k : ℕ) : ℚ) := by
    rw [hn]; exact Double.ofNat_exact _ (by omega)
  have hK : Double.ofNat k = Double.fin (k : ℚ) := Double.ofNat_exact _ (by omega)
  have hkpos : (0 : ℚ) < ((2 * k : ℕ) : ℚ) := by exact_mod_cast (by omega : 0 < 2 * k)
  have hk32 : ((2 * k : ℕ) : ℚ) ≤ 2 ^ 63 := by
    have : 2 * k ≤ 2 ^ 63 := by omega
    exact_mod_cast this
  have hdiv : Double.div (Double.fin (k : ℚ)) (Double.fin ((2 * k : ℕ) : ℚ))
      = Double.fin (1 / 2) := by
    rw [Double.div_fin _ _ hkpos.ne']
    have e : (k : ℚ) / ((2 * k : ℕ) : ℚ) = 1 / 2 := by
      have : (k : ℚ) ≠ 0 := by
        have : (0 : ℚ) < (k : ℚ) := by exact_mod_cast hk1
        exact this.ne'
      push_cast
      field_simp
      ring
    rw [e, Double.round_half]
  have hsub0 : Double.sub (Double.fin (1 / 2)) (Double.fin (1 / 2)) = Double.fin 0 := by
    rw [Double.sub_fin, sub_self, Double.round_zero]
  have h1 : Double.ofInt 1 = Double.fin 1 := by
    simpa using Double.ofInt_exact 1 (by norm_num)
  have hsub : Double.sub (Double.fin 1) (Double.fin (1 / 2)) = Double.fin (1 / 2) := by
    rw [Double.sub_fin]
    have e : (1 : ℚ) - 1 / 2 = 1 / 2 := by norm_num
    rw [e, Double.round_half]
  have hmul : Double.mul (Double.fin (1 / 2)) (Double.fin (1 / 2)) = Double.fin (1 / 4) := by
    rw [Double.mul_fin]
    have e : (1 / 2 : ℚ) * (1 / 2) = ((1 : ℤ) : ℚ) / 2 ^ 2 := by norm_num
    rw [e, Double.round_dyadic 1 2 (by norm_num) (by norm_num)]
    norm_num
  have rlo : Double.rnd ((1 : ℚ) / 2 ^ 65) = 1 / 2 ^ 65 := by
    simpa using Double.rnd_dyadic 1 65 (by norm_num) (by norm_num)
  have rhi : Double.rnd ((1 : ℚ) / 4) = 1 / 4 := by
    have := Double.rnd_dyadic 1 2 (by norm_num) (by norm_num)
    norm_num at this ⊢
    exact this
  have hq1 : (1 : ℚ) / 2 ^ 65 ≤ 1 / 4 / ((2 * k : ℕ) : ℚ) := by
    rw [le_div_iff₀ hkpos]
    have : (1 : ℚ) / 2 ^ 65 * ((2 * k : ℕ) : ℚ) ≤ 1 / 2 ^ 65 * 2 ^ 63 :=
      mul_le_mul_of_nonneg_left hk32 (by positivity)
    linarith [show (1 : ℚ) / 2 ^ 65 * 2 ^ 63 = 1 / 4 by norm_num]
  have hq2 : (1 : ℚ) / 4 / ((2 * k : ℕ) : ℚ) ≤ 1 / 4 := by
    rw [div_le_iff₀ hkpos]
    have : (1 : ℚ) ≤ ((2 * k : ℕ) : ℚ) := by exact_mod_cast (by omega : 1 ≤ 2 * k)
    nlinarith
  obtain ⟨ed, ad, _⟩ := Double.round_between rlo rhi hq1 hq2 (by norm_num) (by norm_num)
  have hden : Double.div (Double.fin (1 / 4)) (Double.fin ((2 * k : ℕ) : ℚ))
      = Double.fin (Double.rnd (1 / 4 / ((2 * k : ℕ) : ℚ))) := by
    rw [Double.div_fin _ _ hkpos.ne', ed]
  have hepos : (0 : ℚ) < Double.rnd (1 / 4 / ((2 * k : ℕ) : ℚ)) :=
    lt_of_lt_of_le (by positivity) ad
  obtain ⟨f, hf, hsq⟩ := hL.sqrt_pos _ hepos
  obtain ⟨g, hg, hs2⟩ := hL.sqrt_pos 2 (by norm_num)
  have hz : Double.div (Double.fin 0) (Double.fin f) = Double.fin 0 := by
    rw [Double.div_fin _ _ hf.ne', zero_div, Double.round_zero]
  have habs : Double.abs (Double.fin 0) = Double.fin 0 := by
    simp [Double.abs]
  have hx : Double.div (Double.fin 0) (Double.fin g) = Double.fin 0 := by
    rw [Double.div_fin _ _ hg.ne', zero_div, Double.round_zero]
  have hadd : Double.add (Double.fin 1) (Double.fin 0) = Double.fin 1 := by
    rw [Double.add_fin, add_zero, Double.round_one]
  have hhalf : Double.mul (Double.fin (1 / 2)) (Double.fin 1) = Double.fin (1 / 2) := by
    rw [Double.mul_fin, mul_one, Double.round_half]
  have hfin : Double.mul (Double.fin 2) (Double.fin (1 / 2)) = Double.fin 1 := by
    rw [Double.mul_fin]
    have e : (2 : ℚ) * (1 / 2) = 1 := by norm_num
    rw [e, Double.round_one]
  constructor
  · unfold QRNG.frequency_test
    simp only [hones, hK, hN, hdiv, hsub0, h1, hsub, hmul, hden, hsq, hz, habs, hs2, hx, herf,
      hadd, hhalf, hfin]
  · unfold RandomnessTester.frequency_test RandomnessTester.normal_cdf
    simp only [hemp, hones, hK, hN, hdiv, hsub0, h1, hsub, hmul, hden, hsq, hz, habs, hs2, hx,
      herf, hadd, hhalf, hfin, Bool.false_eq_true, if_false]

/-- Within the range of the counters, `chi_square_test` returns the p-value exactly 1 on every
non-empty balanced 0/1 sequence, in the generator and in the tester. -/
theorem chi_square_test_balanced (L : StdLib) (bits : List ℕ) (hne : bits ≠ [])
    (hlen : bits.length ≤ vector_max_size) (h01 : ∀ b ∈ bits, b ≤ 1)
    (hbal : bits.count 0 = bits.count 1)
    (hsqrt : L.sqrt (Double.fin 0) = Double.fin 0) (herfc : L.erfc (Double.fin 0) = Double.fin 1)
    (herf : L.erf (Double.fin 0) = Double.fin 0) :
    QRNG.chi_square_test L bits = Double.fin 1 ∧
      RandomnessTester.chi_square_test L bits = Double.fin 1 := by
  obtain ⟨f0, f1⟩ := filter_eq_count bits h01
  have hstat := chi_square_statistic_balanced bits hne hlen (by rw [f0, f1, hbal])
  constructor
  · unfold QRNG.chi_square_test
    rw [hstat, Double.div_fin _ _ two_ne_zero, zero_div, Double.round_zero, hsqrt, herfc]
  · unfold RandomnessTester.chi_square_test RandomnessTester.calculate_p_value
      RandomnessTester.erfc
    rw [if_pos rfl, hstat, Double.div_fin _ _ two_ne_zero, zero_div, Double.round_zero, hsqrt,
      herf, Double.sub_fin, sub_zero, Double.round_one]

/-! ### The two test statistics agree up to rounding -/

namespace Double

/-- The correctly rounded square root is accurate: its square is within a relative error of
`2^-51` of the argument. -/
theorem sqrtPos_accurate {q : ℚ} (hq : 0 < q) :
    0 < sqrtPos q ∧ |sqrtPos q * sqrtPos q - q| ≤ q / 2 ^ 51 := by
  obtain ⟨l, hl⟩ : ∃ l : ℤ, Int.log 2 q = l := ⟨_, rfl⟩
  obtain ⟨e, he⟩ : ∃ e : ℤ, l / 2 = e := ⟨_, rfl⟩
  have h1 : (2 : ℚ) ^ l ≤ q := (log_le_iff hq).2 (by rw [hl])
  have hu : (0 : ℚ) < (2 : ℚ) ^ (e - 52) := zpow_pos (by norm_num) _
  have hu2 : (0 : ℚ) < ((2 : ℚ) ^ (e - 52)) ^ 2 := by positivity
  obtain ⟨t, ht⟩ : ∃ t : ℚ, q / ((2 : ℚ) ^ (e - 52)) ^ 2 = t := ⟨_, rfl⟩
  have hqt : q = ((2 : ℚ) ^ (e - 52)) ^ 2 * t := by
    rw [← ht]; field_simp
  have hle : 2 * e ≤ l := by omega
  have ht104 : (2 : ℚ) ^ (104 : ℕ) ≤ t := by
    rw [← ht, le_div_iff₀ hu2]
    have e1 : (2 : ℚ) ^ (104 : ℕ) * ((2 : ℚ) ^ (e - 52)) ^ 2 = (2 : ℚ) ^ (2 * e) := by
      rw [← zpow_natCast, ← zpow_natCast, ← zpow_mul, ← zpow_add₀ (by norm_num)]
      congr 1
      push_cast
      ring
    rw [e1]
    exact le_trans (zpow_le_zpow_right₀ (by norm_num) hle) h1
  have ht0 : 0 ≤ t := le_trans (by norm_num) ht104
  obtain ⟨m0, hm0⟩ : ∃ m0 : ℕ, Nat.sqrt ⌊t⌋₊ = m0 := ⟨_, rfl⟩
  have hlo : (m0 : ℚ) * m0 ≤ t := by
    have h := Nat.sqrt_le ⌊t⌋₊
    rw [hm0] at h
    have h2 : ((m0 * m0 : ℕ) : ℚ) ≤ (⌊t⌋₊ : ℚ) := by exact_mod_cast h
    push_cast at h2
    exact le_trans h2 (Nat.floor_le ht0)
  have hhi : t < ((m0 : ℚ) + 1) * (m0 + 1) := by
    have h := Nat.lt_succ_sqrt ⌊t⌋₊
    rw [hm0] at h
    have h3 : ⌊t⌋₊ + 1 ≤ (m0 + 1) * (m0 + 1) := h
    have h2 : ((⌊t⌋₊ + 1 : ℕ) : ℚ) ≤ (((m0 + 1) * (m0 + 1) : ℕ) : ℚ) := by exact_mod_cast h3
    push_cast at h2
    have := Nat.lt_floor_add_one t
    linarith
  have hm52q : (2 : ℚ) ^ 52 ≤ (m0 : ℚ) := by
    by_contra hcon
    have hlt : (m0 : ℚ) < 2 ^ 52 := not_le.1 hcon
    have h4 : (m0 : ℚ) + 1 ≤ 2 ^ 52 := by
      have h5 : m0 < 4503599627370496 := by
        have : (m0 : ℚ) < ((4503599627370496 : ℕ) : ℚ) := by
          rw [Nat.cast_ofNat]; linarith [show (2 : ℚ) ^ 52 = 4503599627370496 by norm_num]
        exact Nat.cast_lt.1 this
      have h6 : m0 + 1 ≤ 4503599627370496 := h5
      have h7 : ((m0 + 1 : ℕ) : ℚ) ≤ ((4503599627370496 : ℕ) : ℚ) := Nat.cast_le.2 h6
      rw [Nat.cast_ofNat] at h7
      push_cast at h7
      linarith [show (2 : ℚ) ^ 52 = 4503599627370496 by norm_num]
    have h8 : ((m0 : ℚ) + 1) * (m0 + 1) ≤ 2 ^ 52 * 2 ^ 52 :=
      mul_le_mul h4 h4 (by positivity) (by norm_num)
    have h9 : (2 : ℚ) ^ 52 * 2 ^ 52 = 2 ^ (104 : ℕ) := by norm_num
    linarith
  have hbig : (m0 : ℚ) + 1 ≤ t / 2 ^ 51 := by
    rw [le_div_iff₀ (by norm_num)]
    have : (2 : ℚ) ^ 52 * (m0 : ℚ) ≤ (m0 : ℚ) * m0 :=
      mul_le_mul_of_nonneg_right hm52q (by linarith)
    nlinarith
  have key : ∀ m : ℕ, (m : ℚ) ^ 2 - t ≤ (m0 : ℚ) + 1 → t - (m : ℚ) ^ 2 ≤ (m0 : ℚ) + 1 →
      m0 ≤ m → 0 < (m : ℚ) * (2 : ℚ) ^ (e - 52) ∧
      |(m : ℚ) * (2 : ℚ) ^ (e - 52) * ((m : ℚ) * (2 : ℚ) ^ (e - 52)) - q| ≤ q / 2 ^ 51 := by
    intro m a1 a2 a3
    have hmq : (m0 : ℚ) ≤ (m : ℚ) := Nat.cast_le.2 a3
    refine ⟨mul_pos (by linarith [show (0 : ℚ) < 2 ^ 52 by norm_num]) hu, ?_⟩
    have e1 : (m : ℚ) * (2 : ℚ) ^ (e - 52) * ((m : ℚ) * (2 : ℚ) ^ (e - 52)) - q
        = ((2 : ℚ) ^ (e - 52)) ^ 2 * ((m : ℚ) ^ 2 - t) := by
      rw [hqt]; ring
    have e2 : q / 2 ^ 51 = ((2 : ℚ) ^ (e - 52)) ^ 2 * (t / 2 ^ 51) := by
      rw [hqt]; ring
    rw [e1, e2, abs_mul, abs_of_pos hu2]
    apply mul_le_mul_of_nonneg_left _ hu2.le
    rw [abs_le]
    constructor <;> linarith
  have hdef : sqrtPos q
      = ((if (m0 : ℚ) ^ 2 + m0 + 1 / 4 < t then m0 + 1 else m0 : ℕ) : ℚ) * (2 : ℚ) ^ (e - 52) := by
    unfold sqrtPos
    simp only [hl, he, ht, hm0]
  rw [hdef]
  by_cases hc : (m0 : ℚ) ^ 2 + m0 + 1 / 4 < t
  · rw [if_pos hc]
    apply key
    · push_cast; nlinarith
    · push_cast; nlinarith
    · omega
  · rw [if_neg hc]
    have hc2 := not_lt.1 hc
    apply key
    · nlinarith
    · nlinarith
    · exact le_refl _

end Double

/-- The library `tailLib` has a square root of the accuracy `SqrtAccurate` asks for. -/
theorem tailLib_sqrt_accurate : SqrtAccurate tailLib := by
  intro q hq _
  obtain ⟨h1, h2⟩ := Double.sqrtPos_accurate hq
  exact ⟨_, h1, tailLib_sqrt_pos hq, h2⟩
/-- The square of a quotient computed with small errors: if `z s` is within `|w| / 2^53` of
`w`, `w` within `2^-52` of `a`, `|a|` at least `2^-34`, and `4 n s^2` within `2^-50` of 1, then
`z^2` is within `2 n |a| / 2^47` of `4 n a^2`. -/
theorem z_square_close {n a w s z : ℚ} (hn1 : 1 ≤ n)
    (hA32 : 1 / 2 ^ 34 ≤ |a|) (ha2 : |a| ≤ 1 / 2) (hw : |w - a| ≤ 1 / 2 ^ 52)
    (hs : |4 * n * (s * s) - 1| ≤ 1 / 2 ^ 50) (hz : |z * s - w| ≤ |w| / 2 ^ 53) :
    |z * z - 4 * n * (a * a)| ≤ 2 * n * |a| / 2 ^ 47 := by
  have hnpos : (0 : ℚ) < n := by linarith
  have hA0 : 0 ≤ |a| := abs_nonneg a
  have hwabs : |w| ≤ |a| + 1 / 2 ^ 52 := by
    have h := abs_sub_abs_le_abs_sub w a
    linarith
  -- z s is close to a
  have h1 : |z * s - a| ≤ 1 / 2 ^ 51 := by
    have e : z * s - a = (z * s - w) + (w - a) := by ring
    rw [e]
    have h := abs_add (z * s - w) (w - a)
    have h2 : |w| / 2 ^ 53 ≤ 1 / 2 ^ 53 := by
      rw [div_le_div_iff₀ (by norm_num) (by norm_num)]
      nlinarith
    linarith [show (1 : ℚ) / 2 ^ 53 + 1 / 2 ^ 52 ≤ 1 / 2 ^ 51 by norm_num]
  have h2 : |z * s + a| ≤ 3 * |a| := by
    have e : z * s + a = (z * s - a) + 2 * a := by ring
    rw [e]
    have h := abs_add (z * s - a) (2 * a)
    have h3 : |2 * a| = 2 * |a| := by rw [abs_mul]; norm_num
    linarith [show (1 : ℚ) / 2 ^ 51 ≤ 1 / 2 ^ 34 by norm_num]
  have h3 : |(z * s) * (z * s) - a * a| ≤ 1 / 2 ^ 51 * (3 * |a|) := by
    have e : (z * s) * (z * s) - a * a = (z * s - a) * (z * s + a) := by ring
    rw [e, abs_mul]
    exact mul_le_mul h1 h2 (abs_nonneg _) (by norm_num)
  -- Y = 4 n (z s)^2 is close to T = 4 n a^2
  have hYT : |4 * n * ((z * s) * (z * s)) - 4 * n * (a * a)| ≤ 12 * (n * |a|) / 2 ^ 51 := by
    have e : 4 * n * ((z * s) * (z * s)) - 4 * n * (a * a)
        = (4 * n) * ((z * s) * (z * s) - a * a) := by ring
    rw [e, abs_mul, abs_of_pos (by linarith : (0 : ℚ) < 4 * n)]
    have := mul_le_mul_of_nonneg_left h3 (by linarith : (0 : ℚ) ≤ 4 * n)
    have e2 : 4 * n * (1 / 2 ^ 51 * (3 * |a|)) = 12 * (n * |a|) / 2 ^ 51 := by ring
    linarith
  have hnA : 0 ≤ n * |a| := mul_nonneg hnpos.le hA0
  have hT : 4 * n * (a * a) ≤ 2 * (n * |a|) := by
    have e : a * a = |a| * |a| := by rw [abs_mul_abs_self]
    rw [e]
    have : |a| * |a| ≤ 1 / 2 * |a| := mul_le_mul_of_nonneg_right ha2 hA0
    have := mul_le_mul_of_nonneg_left this (by linarith : (0 : ℚ) ≤ 4 * n)
    have e2 : 4 * n * (1 / 2 * |a|) = 2 * (n * |a|) := by ring
    linarith
  obtain ⟨y1, y2⟩ := abs_le.1 hYT
  obtain ⟨s1, s2⟩ := abs_le.1 hs
  have hzz : 0 ≤ z * z := mul_self_nonneg z
  have eY : 4 * n * ((z * s) * (z * s)) = (z * z) * (4 * n * (s * s)) := by ring
  -- z^2 is at most 2 Y
  have hz2 : z * z ≤ 2 * (4 * n * ((z * s) * (z * s))) := by
    rw [eY]
    have : (z * z) * (1 / 2) ≤ (z * z) * (4 * n * (s * s)) :=
      mul_le_mul_of_nonneg_left (by linarith [show (1 : ℚ) / 2 ^ 50 ≤ 1 / 2 by norm_num]) hzz
    linarith
  have hzeta : |(z * z) * (4 * n * (s * s) - 1)| ≤ (z * z) * (1 / 2 ^ 50) := by
    rw [abs_mul, abs_of_nonneg hzz]
    exact mul_le_mul_of_nonneg_left hs hzz
  obtain ⟨t1, t2⟩ := abs_le.1 hzeta
  have e : z * z - 4 * n * (a * a)
      = (4 * n * ((z * s) * (z * s)) - 4 * n * (a * a)) - (z * z) * (4 * n * (s * s) - 1) := by
    ring
  have hzb : z * z ≤ 6 * (n * |a|) := by
    have : 12 * (n * |a|) / 2 ^ 51 ≤ n * |a| := by
      rw [div_le_iff₀ (by norm_num)]
      nlinarith
    linarith
  have hfin : (z * z) * (1 / 2 ^ 50) ≤ 6 * (n * |a|) / 2 ^ 50 := by
    have := mul_le_mul_of_nonneg_right hzb (by norm_num : (0 : ℚ) ≤ 1 / 2 ^ 50)
    have e2 : 6 * (n * |a|) * (1 / 2 ^ 50) = 6 * (n * |a|) / 2 ^ 50 := by ring
    linarith
  have e3 : 12 * (n * |a|) / 2 ^ 51 + 6 * (n * |a|) / 2 ^ 50 ≤ 2 * n * |a| / 2 ^ 47 := by
    have e4 : 12 * (n * |a|) / 2 ^ 51 + 6 * (n * |a|) / 2 ^ 50 = (n * |a|) * (12 / 2 ^ 50) := by
      ring
    have e5 : 2 * n * |a| / 2 ^ 47 = (n * |a|) * (2 / 2 ^ 47) := by ring
    rw [e4, e5]
    exact mul_le_mul_of_nonneg_left (by norm_num) hnA
  rw [e, abs_le]
  constructor <;> linarith

/-- Two relative rounding errors of `2^-53` compose to less than `2^-51`. -/
theorem chi_close {T S Q : ℚ} (hT : 0 ≤ T) (hS : |S - T| ≤ T / 2 ^ 53)
    (hQ : |Q - S| ≤ S / 2 ^ 53) : |Q - T| ≤ T / 2 ^ 51 := by
  obtain ⟨a1, a2⟩ := abs_le.1 hS
  obtain ⟨b1, b2⟩ := abs_le.1 hQ
  have h1 : S / 2 ^ 53 ≤ (T + T / 2 ^ 53) / 2 ^ 53 := by
    apply div_le_div_of_nonneg_right _ (by norm_num)
    linarith
  have h2 : (T + T / 2 ^ 53) / 2 ^ 53 = T * ((1 + 1 / 2 ^ 53) / 2 ^ 53) := by ring
  have h3 : T * ((1 + 1 / 2 ^ 53) / 2 ^ 53) ≤ T * (2 / 2 ^ 53) :=
    mul_le_mul_of_nonneg_left (by norm_num) hT
  have h4 : T / 2 ^ 53 + T * (2 / 2 ^ 53) ≤ T / 2 ^ 51 := by
    have e1 : T / 2 ^ 53 + T * (2 / 2 ^ 53) = T * (3 / 2 ^ 53) := by ring
    have e2 : T / 2 ^ 51 = T * (1 / 2 ^ 51) := by ring
    rw [e1, e2]
    exact mul_le_mul_of_nonneg_left (by norm_num) hT
  rw [abs_le]
  constructor <;> linarith

/-- The chi-square statistic of a 0/1 sequence with a non-zero excess `d = ones - zeros`, of
fewer than `2^53` elements `n`, in terms of the counts: every step up to the square is exact,
and the statistic is twice the rounded quotient of the rounded square `d^2 / 4` by `n / 2`. -/
theorem chi_square_statistic_eval (bits : List ℕ) (n k c0 : ℕ) (hn : bits.length = n)
    (hk : (bits.filter (fun b => b &&& 1 = 1)).length = k)
    (hc0 : (bits.filter (fun b => b &&& 1 = 0)).length = c0) (hsum : c0 + k = n)
    (hlen : n < 2 ^ 53) (hD : c0 ≠ k) :
    ∃ c : ℚ, chi_square_statistic bits = Double.fin c ∧
      |c - (2 * (k : ℚ) - n) ^ 2 / n| ≤ (2 * (k : ℚ) - n) ^ 2 / n / 2 ^ 51 := by
  obtain ⟨D, hDdef⟩ : ∃ D : ℤ, D = (k : ℤ) - c0 := ⟨_, rfl⟩
  have hD0 : D ≠ 0 := by omega
  have hDabs : |D| < 2 ^ 53 := by rw [abs_lt]; constructor <;> omega
  have hDn : |D| ≤ (n : ℤ) := by rw [abs_le]; constructor <;> omega
  have hnq : (n : ℚ) = c0 + k := by exact_mod_cast hsum.symm
  have hDq : (D : ℚ) = (k : ℚ) - c0 := by rw [hDdef]; push_cast; ring
  have hnpos : (0 : ℚ) < n := by
    have : 0 < n := by omega
    exact_mod_cast this
  have hn53 : (n : ℚ) < 2 ^ 53 := by exact_mod_cast hlen
  -- the exact steps
  have e_n : Double.ofNat n = Double.fin n := Double.ofNat_exact n hlen
  have e_k : Double.ofNat k = Double.fin k := Double.ofNat_exact k (by omega)
  have e_c : Double.ofNat c0 = Double.fin c0 := Double.ofNat_exact c0 (by omega)
  have e_exp : Double.round ((n : ℚ) / 2) = Double.fin ((n : ℚ) / 2) := by
    have h := Double.round_dyadic (n : ℤ) 1 (by rw [abs_lt]; constructor <;> omega) (by norm_num)
    simpa using h
  have e_d0 : Double.round ((c0 : ℚ) - (n : ℚ) / 2) = Double.fin (-(D : ℚ) / 2) := by
    have h := Double.round_dyadic (-D) 1 (by rw [abs_neg]; exact hDabs) (by norm_num)
    have e : (c0 : ℚ) - (n : ℚ) / 2 = ((-D : ℤ) : ℚ) / 2 ^ 1 := by
      push_cast; rw [hDq, hnq]; ring
    rw [e, h]; push_cast; norm_num
  have e_d1 : Double.round ((k : ℚ) - (n : ℚ) / 2) = Double.fin ((D : ℚ) / 2) := by
    have h := Double.round_dyadic D 1 hDabs (by norm_num)
    have e : (k : ℚ) - (n : ℚ) / 2 = (D : ℚ) / 2 ^ 1 := by
      rw [hDq, hnq]; ring
    rw [e, h]; norm_num
  -- the square
  obtain ⟨X, hX⟩ : ∃ X : ℚ, X = (D : ℚ) ^ 2 / 4 := ⟨_, rfl⟩
  have hD1 : (1 : ℚ) ≤ |(D : ℚ)| := by
    have : (1 : ℤ) ≤ |D| := Int.one_le_abs hD0
    exact_mod_cast this
  have hDnq : |(D : ℚ)| ≤ n := by exact_mod_cast hDn
  have hsq : (D : ℚ) ^ 2 = |(D : ℚ)| * |(D : ℚ)| := by rw [abs_mul_abs_self]; ring
  have hXlo : (1 : ℚ) / 4 ≤ X := by
    rw [hX, hsq]; nlinarith
  have hXhi : X ≤ 2 ^ 104 := by
    rw [hX, hsq]
    have : |(D : ℚ)| * |(D : ℚ)| ≤ 2 ^ 53 * 2 ^ 53 :=
      mul_le_mul (by linarith) (by linarith) (abs_nonneg _) (by norm_num)
    linarith [show (2 : ℚ) ^ 53 * 2 ^ 53 / 4 = 2 ^ 104 by norm_num]
  have r14 : Double.rnd (1 / 4) = 1 / 4 := Double.rnd_quarter
  have r54 : Double.rnd (1 / 2 ^ 54) = 1 / 2 ^ 54 := by
    have h := Double.rnd_dyadic 1 54 (by norm_num) (by norm_num)
    simpa using h
  obtain ⟨s1, s2, s3⟩ := Double.round_between r14 (Double.rnd_two_pow 104) hXlo hXhi
    (by norm_num) (by norm_num)
  obtain ⟨Y, hY⟩ : ∃ Y : ℚ, Y = Double.rnd X / ((n : ℚ) / 2) := ⟨_, rfl⟩
  have hYlo : (1 : ℚ) / 2 ^ 54 ≤ Y := by
    rw [hY, le_div_iff₀ (by linarith)]
    nlinarith
  have hYhi : Y ≤ 2 ^ 105 := by
    rw [hY, div_le_iff₀ (by linarith)]
    have h1 : (1 : ℚ) ≤ n := by
      have : 1 ≤ n := by omega
      exact_mod_cast this
    nlinarith
  obtain ⟨q1, q2, q3⟩ := Double.round_between r54 (Double.rnd_two_pow 105) hYlo hYhi
    (by norm_num) (by norm_num)
  have hQfin : |Double.rnd Y| < 2 ^ 1024 := by
    rw [abs_of_nonneg (by linarith [show (0 : ℚ) ≤ 1 / 2 ^ 54 by norm_num])]
    linarith [show (2 : ℚ) ^ 105 < 2 ^ 1024 by norm_num]
  have hQnorm : (2 : ℚ) ^ (-1022 : ℤ) ≤ |Double.rnd Y| := by
    rw [abs_of_nonneg (by linarith [show (0 : ℚ) ≤ 1 / 2 ^ 54 by norm_num])]
    refine le_trans ?_ q2
    rw [show (1 : ℚ) / 2 ^ 54 = (2 : ℚ) ^ (-54 : ℤ) by norm_num]
    exact zpow_le_zpow_right₀ (by norm_num) (by norm_num)
  have e_q0 : Double.round (0 + Double.rnd Y) = Double.fin (Double.rnd Y) := by
    rw [zero_add]
    exact Double.round_exact (Double.rnd_idem Y) hQfin
  have e_sum : Double.round (Double.rnd Y + Double.rnd Y) = Double.fin (2 * Double.rnd Y) := by
    have e : Double.rnd Y + Double.rnd Y = 2 * Double.rnd Y := by ring
    rw [e]
    apply Double.round_exact
    · rw [Double.rnd_two_mul hQnorm, Double.rnd_idem]
    · rw [abs_mul, abs_of_nonneg (by linarith [show (0 : ℚ) ≤ 1 / 2 ^ 54 by norm_num] :
        (0 : ℚ) ≤ Double.rnd Y)]
      rw [abs_of_pos (by norm_num : (0 : ℚ) < 2)]
      linarith [show (2 : ℚ) * 2 ^ 105 < 2 ^ 1024 by norm_num]
  have hn2 : (n : ℚ) / 2 ≠ 0 := by
    have : 0 < (n : ℚ) / 2 := by linarith
    exact this.ne'
  have p0 : -(D : ℚ) / 2 * (-(D : ℚ) / 2) = X := by rw [hX]; ring
  have p1 : (D : ℚ) / 2 * ((D : ℚ) / 2) = X := by rw [hX]; ring
  refine ⟨2 * Double.rnd Y, ?_, ?_⟩
  · unfold chi_square_statistic
    simp only [hn, hk, hc0, e_n, e_k, e_c, Double.div_fin _ _ (two_ne_zero), e_exp,
      Double.sub_fin, e_d0, e_d1, Double.mul_fin, p0, p1, s1, Double.div_fin _ _ hn2, ← hY, q1,
      Double.add_fin, e_q0, e_sum]
  · -- the error bound
    have hXnorm : (2 : ℚ) ^ (-1022 : ℤ) ≤ |X| := by
      rw [abs_of_nonneg (by linarith)]
      refine le_trans ?_ hXlo
      rw [show (1 : ℚ) / 4 = (2 : ℚ) ^ (-2 : ℤ) by norm_num]
      exact zpow_le_zpow_right₀ (by norm_num) (by norm_num)
    have hYnorm : (2 : ℚ) ^ (-1022 : ℤ) ≤ |Y| := by
      rw [abs_of_nonneg (by linarith [show (0 : ℚ) ≤ 1 / 2 ^ 54 by norm_num])]
      refine le_trans ?_ hYlo
      rw [show (1 : ℚ) / 2 ^ 54 = (2 : ℚ) ^ (-54 : ℤ) by norm_num]
      exact zpow_le_zpow_right₀ (by norm_num) (by norm_num)
    have hS := Double.rnd_rel_error hXnorm
    rw [abs_of_nonneg (by linarith : (0 : ℚ) ≤ X)] at hS
    have hQ := Double.rnd_rel_error hYnorm
    rw [abs_of_nonneg (by linarith [show (0 : ℚ) ≤ 1 / 2 ^ 54 by norm_num] : (0 : ℚ) ≤ Y)] at hQ
    have hTD : (2 * (k : ℚ) - n) = D := by rw [hDq, hnq]; ring
    rw [hTD]
    obtain ⟨T, hT⟩ : ∃ T : ℚ, T = (D : ℚ) ^ 2 / n := ⟨_, rfl⟩
    rw [← hT]
    have hXT : X / ((n : ℚ) / 2) = T / 2 := by
      rw [hX, hT]; field_simp; ring
    have hT0 : 0 ≤ T / 2 := by
      rw [← hXT]
      exact div_nonneg (by linarith) (by linarith)
    have hS2 : |Y - T / 2| ≤ T / 2 / 2 ^ 53 := by
      have e : Y - T / 2 = (Double.rnd X - X) / ((n : ℚ) / 2) := by
        rw [hY, ← hXT]; ring
      rw [e, abs_div, abs_of_pos (by linarith : (0 : ℚ) < (n : ℚ) / 2)]
      have e2 : T / 2 / 2 ^ 53 = X / 2 ^ 53 / ((n : ℚ) / 2) := by
        rw [← hXT]; ring
      rw [e2]
      exact div_le_div_of_nonneg_right hS (by linarith)
    have h := chi_close hT0 hS2 hQ
    have e3 : 2 * Double.rnd Y - T = 2 * (Double.rnd Y - T / 2) := by ring
    rw [e3, abs_mul, abs_of_pos (by norm_num : (0 : ℚ) < 2)]
    have e4 : T / 2 ^ 51 = 2 * (T / 2 / 2 ^ 51) := by ring
    rw [e4]
    exact mul_le_mul_of_nonneg_left h (by norm_num)

/-- The chi-square statistic that the code computes on a non-empty 0/1 sequence of fewer than
`2^53` elements is within a relative error of `2^-51` of `(2 ones - n)^2 / n`. -/
theorem chi_square_statistic_value (bits : List ℕ) (hne : bits ≠ []) (h01 : ∀ b ∈ bits, b ≤ 1)
    (hlen : bits.length < 2 ^ 53) :
    ∃ c : ℚ, chi_square_statistic bits = Double.fin c ∧
      |c - (2 * (bits.count 1 : ℚ) - bits.length) ^ 2 / bits.length|
        ≤ (2 * (bits.count 1 : ℚ) - bits.length) ^ 2 / bits.length / 2 ^ 51 := by
  obtain ⟨f0, f1⟩ := filter_eq_count bits h01
  have hsum := count_zero_add_count_one bits h01
  by_cases hbal : bits.count 0 = bits.count 1
  · have h := chi_square_statistic_balanced bits hne (by unfold vector_max_size; omega)
      (by rw [f0, f1, hbal])
    refine ⟨0, h, ?_⟩
    have e : (2 * (bits.count 1 : ℚ) - bits.length) = 0 := by
      have : (bits.length : ℚ) = bits.count 0 + bits.count 1 := by exact_mod_cast hsum.symm
      rw [this, hbal]; ring
    rw [e]; simp
  · exact chi_square_statistic_eval bits _ _ _ rfl f1 f0 hsum hlen hbal

namespace Double

/-- Below 1 in magnitude the rounding error is at most half a unit of `2^-53`. -/
theorem rnd_error_lt_one {q : ℚ} (h : |q| < 1) : |rnd q - q| ≤ 1 / 2 ^ 54 := by
  by_cases hq : q = 0
  · rw [hq, rnd_zero]; norm_num
  · have hpos : 0 < |q| := abs_pos.2 hq
    have hlog : Int.log 2 |q| < 0 := (lt_iff_log hpos).1 (by simpa using h)
    have hb : binade q ≤ -1 := by
      unfold binade
      exact max_le (by omega) (by norm_num)
    have hu : ulp q ≤ (2 : ℚ) ^ (-53 : ℤ) := by
      unfold ulp
      exact zpow_le_zpow_right₀ (by norm_num) (by omega)
    have h53 : (2 : ℚ) ^ (-53 : ℤ) = 1 / 2 ^ 53 := by
      rw [zpow_neg, one_div]
      norm_cast
    have := rnd_abs_sub_le q
    rw [h53] at hu
    linarith [show (1 : ℚ) / 2 ^ 53 / 2 = 1 / 2 ^ 54 by norm_num]

/-- The quotient `p_hat = ones / n` of two exact counts, `ones ≤ n`: a value in `[0, 1]` within
`2^-54` of the fraction. -/
theorem p_hat_value (k n : ℕ) (hkn : k ≤ n) (hn : 1 ≤ n) :
    round ((k : ℚ) / n) = fin (rnd ((k : ℚ) / n)) ∧ 0 ≤ rnd ((k : ℚ) / n) ∧
      rnd ((k : ℚ) / n) ≤ 1 ∧ |rnd ((k : ℚ) / n) - (k : ℚ) / n| ≤ 1 / 2 ^ 54 := by
  have hnq : (0 : ℚ) < n := by exact_mod_cast hn
  have hkq : (k : ℚ) ≤ n := by exact_mod_cast hkn
  have h0 : (0 : ℚ) ≤ (k : ℚ) / n := div_nonneg (by positivity) hnq.le
  have h1 : (k : ℚ) / n ≤ 1 := by rw [div_le_iff₀ hnq]; linarith
  obtain ⟨a, b, c⟩ := round_between rnd_zero rnd_one h0 h1 (by norm_num) (by norm_num)
  refine ⟨a, b, c, ?_⟩
  by_cases hk : k = n
  · have e : (k : ℚ) / n = 1 := by rw [hk]; exact div_self hnq.ne'
    rw [e, rnd_one]; norm_num
  · apply rnd_error_lt_one
    rw [abs_of_nonneg h0, div_lt_iff₀ hnq]
    have : k < n := by omega
    have : (k : ℚ) < n := by exact_mod_cast this
    linarith

/-- The difference `p_hat - 0.5` for `p_hat` in `[0, 1]`: at most `1/2` in magnitude and within
`2^-54` of the exact difference. -/
theorem sub_half_value {x : ℚ} (h0 : 0 ≤ x) (h1 : x ≤ 1) :
    round (x - 1 / 2) = fin (rnd (x - 1 / 2)) ∧ |rnd (x - 1 / 2)| ≤ 1 / 2 ∧
      |rnd (x - 1 / 2) - (x - 1 / 2)| ≤ 1 / 2 ^ 54 := by
  have rn : rnd (-(1 / 2) : ℚ) = -(1 / 2) := by rw [rnd_neg, rnd_half]
  obtain ⟨a, b, c⟩ := round_between (q := x - 1 / 2) rn rnd_half (by linarith) (by linarith)
    (by norm_num) (by norm_num)
  refine ⟨a, abs_le.2 ⟨b, c⟩, ?_⟩
  apply rnd_error_lt_one
  rw [abs_lt]
  constructor <;> linarith

/-- The argument `p * (1 - p) / n` of the square root, for `p = 0.5` and an exact `n`: a value
in `[2^-55, 1/4]` within a relative error of `2^-53` of `1 / (4 n)`. -/
theorem quarter_div_value (n : ℕ) (hn : 1 ≤ n) (hlen : n < 2 ^ 53) :
    round (1 / 4 / (n : ℚ)) = fin (rnd (1 / 4 / (n : ℚ))) ∧ 1 / 2 ^ 55 ≤ rnd (1 / 4 / (n : ℚ)) ∧
      rnd (1 / 4 / (n : ℚ)) ≤ 1 / 4 ∧
      |rnd (1 / 4 / (n : ℚ)) - 1 / 4 / (n : ℚ)| ≤ 1 / 4 / (n : ℚ) / 2 ^ 53 := by
  have hnq : (1 : ℚ) ≤ n := by exact_mod_cast hn
  have hn53 : (n : ℚ) ≤ 2 ^ 53 := by
    have : (n : ℚ) < 2 ^ 53 := by exact_mod_cast hlen
    linarith
  have r55 : rnd ((1 : ℚ) / 2 ^ 55) = 1 / 2 ^ 55 := by
    simpa using rnd_dyadic 1 55 (by norm_num) (by norm_num)
  have h0 : (1 : ℚ) / 2 ^ 55 ≤ 1 / 4 / (n : ℚ) := by
    rw [le_div_iff₀ (by linarith)]
    have : (1 : ℚ) / 2 ^ 55 * n ≤ 1 / 2 ^ 55 * 2 ^ 53 :=
      mul_le_mul_of_nonneg_left hn53 (by positivity)
    linarith [show (1 : ℚ) / 2 ^ 55 * 2 ^ 53 = 1 / 4 by norm_num]
  have h1 : (1 : ℚ) / 4 / (n : ℚ) ≤ 1 / 4 := by
    rw [div_le_iff₀ (by linarith)]
    nlinarith
  obtain ⟨a, b, c⟩ := round_between r55 rnd_quarter h0 h1 (by norm_num) (by norm_num)
  refine ⟨a, b, c, ?_⟩
  have hnorm : (2 : ℚ) ^ (-1022 : ℤ) ≤ |1 / 4 / (n : ℚ)| :=
    normal_of_ge (le_trans (by norm_num) h0)
  have := rnd_rel_error hnorm
  rwa [abs_of_nonneg (le_trans (by norm_num) h0 : (0 : ℚ) ≤ 1 / 4 / (n : ℚ))] at this

/-- A square root of relative accuracy `2^-51`, taken of a value within `2^-53` of `1 / (4 n)`:
`4 n s^2` is within `2^-50` of 1, and `s` lies in `[2^-28, 1]`. -/
theorem sqrt_quarter_bounds {n v s : ℚ} (hn1 : 1 ≤ n) (hn : n ≤ 2 ^ 53)
    (hv : |v - 1 / 4 / n| ≤ 1 / 4 / n / 2 ^ 53) (hs : 0 < s) (hsv : |s * s - v| ≤ v / 2 ^ 51) :
    |4 * n * (s * s) - 1| ≤ 1 / 2 ^ 50 ∧ s ≤ 1 ∧ 1 / 2 ^ 28 ≤ s := by
  have hnpos : (0 : ℚ) < n := by linarith
  obtain ⟨u, hu⟩ : ∃ u : ℚ, u = 1 / 4 / n := ⟨_, rfl⟩
  have hun : 4 * n * u = 1 := by rw [hu]; field_simp
  rw [← hu] at hv
  obtain ⟨v1, v2⟩ := abs_le.1 hv
  obtain ⟨s1, s2⟩ := abs_le.1 hsv
  have hu0 : 0 < u := by rw [hu]; positivity
  have h4n : (0 : ℚ) < 4 * n := by linarith
  -- multiply the two bounds by 4 n
  have a1 : 4 * n * (v - u) ≤ 1 / 2 ^ 53 := by
    have := mul_le_mul_of_nonneg_left v2 h4n.le
    have e : 4 * n * (u / 2 ^ 53) = (4 * n * u) / 2 ^ 53 := by ring
    rw [e, hun] at this
    exact this
  have a2 : -(1 / 2 ^ 53) ≤ 4 * n * (v - u) := by
    have := mul_le_mul_of_nonneg_left v1 h4n.le
    have e : 4 * n * -(u / 2 ^ 53) = -((4 * n * u) / 2 ^ 53) := by ring
    rw [e, hun] at this
    exact this
  have hnv : 4 * n * v ≤ 1 + 1 / 2 ^ 53 := by
    have e : 4 * n * v = 4 * n * (v - u) + 4 * n * u := by ring
    rw [e, hun]; linarith
  have hnv0 : 1 - 1 / 2 ^ 53 ≤ 4 * n * v := by
    have e : 4 * n * v = 4 * n * (v - u) + 4 * n * u := by ring
    rw [e, hun]; linarith
  have b1 : 4 * n * (s * s - v) ≤ (4 * n * v) / 2 ^ 51 := by
    have := mul_le_mul_of_nonneg_left s2 h4n.le
    have e : 4 * n * (v / 2 ^ 51) = (4 * n * v) / 2 ^ 51 := by ring
    rw [e] at this
    exact this
  have b2 : -((4 * n * v) / 2 ^ 51) ≤ 4 * n * (s * s - v) := by
    have := mul_le_mul_of_nonneg_left s1 h4n.le
    have e : 4 * n * -(v / 2 ^ 51) = -((4 * n * v) / 2 ^ 51) := by ring
    rw [e] at this
    exact this
  have c1 : (4 * n * v) / 2 ^ 51 ≤ (1 + 1 / 2 ^ 53) / 2 ^ 51 :=
    div_le_div_of_nonneg_right hnv (by norm_num)
  have e0 : 4 * n * (s * s) - 1 = 4 * n * (s * s - v) + 4 * n * (v - u) := by
    have : 4 * n * (s * s - v) + 4 * n * (v - u) = 4 * n * (s * s) - 4 * n * u := by ring
    rw [this, hun]
  have hmain : |4 * n * (s * s) - 1| ≤ 1 / 2 ^ 50 := by
    rw [e0, abs_le]
    constructor
    · linarith [show (1 + 1 / 2 ^ 53) / 2 ^ 51 + 1 / 2 ^ 53 ≤ (1 : ℚ) / 2 ^ 50 by norm_num]
    · linarith [show (1 + 1 / 2 ^ 53) / 2 ^ 51 + 1 / 2 ^ 53 ≤ (1 : ℚ) / 2 ^ 50 by norm_num]
  obtain ⟨m1, m2⟩ := abs_le.1 hmain
  refine ⟨hmain, ?_, ?_⟩
  · by_contra hcon
    have h1 : 1 < s := not_le.1 hcon
    have h2 : 1 < s * s := by nlinarith
    have h3 : 4 * n * 1 < 4 * n * (s * s) := mul_lt_mul_of_pos_left h2 h4n
    linarith [show (1 : ℚ) / 2 ^ 50 < 1 by norm_num]
  · by_contra hcon
    have h1 : s < 1 / 2 ^ 28 := not_le.1 hcon
    have h2 : s * s < 1 / 2 ^ 28 * (1 / 2 ^ 28) :=
      mul_lt_mul h1 h1.le hs (by norm_num)
    have h3 : 4 * n * (s * s) ≤ 4 * 2 ^ 53 * (1 / 2 ^ 28 * (1 / 2 ^ 28)) := by
      apply mul_le_mul (by linarith) h2.le (by positivity) (by norm_num)
    linarith [show (4 : ℚ) * 2 ^ 53 * (1 / 2 ^ 28 * (1 / 2 ^ 28)) = 1 / 2 by norm_num,
      show (1 : ℚ) / 2 ^ 50 < 1 / 2 by norm_num]

/-- The quotient of a value of magnitude at most `1/2` by one that is at least `2^-28` is
finite. -/
theorem z_value {w s : ℚ} (hw : |w| ≤ 1 / 2) (hs : 1 / 2 ^ 28 ≤ s) :
    round (w / s) = fin (rnd (w / s)) := by
  have hspos : 0 < s := lt_of_lt_of_le (by norm_num) hs
  have rn : rnd (-(2 ^ 27) : ℚ) = -(2 ^ 27) := by rw [rnd_neg, rnd_two_pow]
  obtain ⟨w1, w2⟩ := abs_le.1 hw
  have h1 : w / s ≤ 2 ^ 27 := by
    rw [div_le_iff₀ hspos]
    have : (2 : ℚ) ^ 27 * (1 / 2 ^ 28) ≤ 2 ^ 27 * s := mul_le_mul_of_nonneg_left hs (by norm_num)
    linarith [show (2 : ℚ) ^ 27 * (1 / 2 ^ 28) = 1 / 2 by norm_num]
  have h2 : -(2 ^ 27) ≤ w / s := by
    rw [le_div_iff₀ hspos]
    have : (2 : ℚ) ^ 27 * (1 / 2 ^ 28) ≤ 2 ^ 27 * s := mul_le_mul_of_nonneg_left hs (by norm_num)
    linarith [show (2 : ℚ) ^ 27 * (1 / 2 ^ 28) = 1 / 2 by norm_num]
  exact (round_between rn (rnd_two_pow 27) h2 h1 (by norm_num) (by norm_num)).1

end Double

/-- The z-score that `frequency_test` computes on a non-empty 0/1 sequence with fewer than `2^31`
ones and fewer than `2^53` elements: the three roundings of `(p_hat - 0.5) / sqrt(0.25 / n)`,
for a square root `s` of the library with `4 n s^2` within `2^-50` of 1. -/
theorem frequency_z_eval (L : StdLib) (hS : SqrtAccurate L) (bits : List ℕ) (hne : bits ≠ [])
    (h01 : ∀ b ∈ bits, b ≤ 1) (hones : bits.count 1 < 2 ^ 31) (hlen : bits.length < 2 ^ 53) :
    ∃ s : ℚ, 0 < s ∧ |4 * (bits.length : ℚ) * (s * s) - 1| ≤ 1 / 2 ^ 50 ∧ s ≤ 1 ∧
      frequency_z L bits = Double.fin (Double.rnd (Double.rnd
        (Double.rnd ((bits.count 1 : ℚ) / bits.length) - 1 / 2) / s)) := by
  obtain ⟨n, hn⟩ : ∃ n, bits.length = n := ⟨_, rfl⟩
  obtain ⟨k, hk⟩ : ∃ k, bits.count 1 = k := ⟨_, rfl⟩
  have hcnt := count_zero_add_count_one bits h01
  have hpos : 0 < bits.length := List.length_pos.2 hne
  have hkn : k ≤ n := by omega
  have hn1 : 1 ≤ n := by omega
  have hacc : toSizeT (accumulate_int bits) = k := by
    rw [accumulate_int_eq, sum_eq_count_one bits h01, hk,
      toInt32_of_range _ (by omega) (by omega)]
    unfold toSizeT; omega
  have eN : Double.ofNat n = Double.fin n := Double.ofNat_exact n (by omega)
  have eK : Double.ofNat k = Double.fin k := Double.ofNat_exact k (by omega)
  have hnq : (1 : ℚ) ≤ n := by exact_mod_cast hn1
  have hn53 : (n : ℚ) ≤ 2 ^ 53 := by
    have : (n : ℚ) < 2 ^ 53 := by exact_mod_cast (by omega : n < 2 ^ 53)
    linarith
  have hn0 : (n : ℚ) ≠ 0 := by linarith
  obtain ⟨x1, x2, x3, _⟩ := Double.p_hat_value k n hkn hn1
  obtain ⟨w1, w2, _⟩ := Double.sub_half_value x2 x3
  obtain ⟨v1, v2, v3, v4⟩ := Double.quarter_div_value n hn1 (by omega)
  obtain ⟨s, s1, s2, s3⟩ := hS _ (lt_of_lt_of_le (by norm_num) v2) (Double.rnd_idem _)
  obtain ⟨b1, b2, b3⟩ := Double.sqrt_quarter_bounds hnq hn53 v4 s1 s3
  have z1 := Double.z_value w2 b3
  have h1 : Double.ofInt 1 = Double.fin 1 := by
    simpa using Double.ofInt_exact 1 (by norm_num)
  have hsub : Double.sub (Double.fin 1) (Double.fin (1 / 2)) = Double.fin (1 / 2) := by
    rw [Double.sub_fin]
    have e : (1 : ℚ) - 1 / 2 = 1 / 2 := by norm_num
    rw [e, Double.round_half]
  have hmul : Double.mul (Double.fin (1 / 2)) (Double.fin (1 / 2)) = Double.fin (1 / 4) := by
    rw [Double.mul_fin]
    have e : (1 / 2 : ℚ) * (1 / 2) = ((1 : ℤ) : ℚ) / 2 ^ 2 := by norm_num
    rw [e, Double.round_dyadic 1 2 (by norm_num) (by norm_num)]
    norm_num
  have hp : Double.div (Double.fin (k : ℚ)) (Double.fin (n : ℚ))
      = Double.fin (Double.rnd ((k : ℚ) / n)) := by
    rw [Double.div_fin _ _ hn0, x1]
  have hw : Double.sub (Double.fin (Double.rnd ((k : ℚ) / n))) (Double.fin (1 / 2))
      = Double.fin (Double.rnd (Double.rnd ((k : ℚ) / n) - 1 / 2)) := by
    rw [Double.sub_fin, w1]
  have hv : Double.div (Double.fin (1 / 4)) (Double.fin (n : ℚ))
      = Double.fin (Double.rnd (1 / 4 / (n : ℚ))) := by
    rw [Double.div_fin _ _ hn0, v1]
  have hz : Double.div (Double.fin (Double.rnd (Double.rnd ((k : ℚ) / n) - 1 / 2))) (Double.fin s)
      = Double.fin (Double.rnd (Double.rnd (Double.rnd ((k : ℚ) / n) - 1 / 2) / s)) := by
    rw [Double.div_fin _ _ s1.ne', z1]
  rw [hn, hk]
  refine ⟨s, s1, b1, b2, ?_⟩
  unfold frequency_z
  simp only [hacc, hn, eN, eK, hp, hw, h1, hsub, hmul, hv, s2, hz]

/-- The square of the z-score of `frequency_test` is within `|2 ones - n| / 2^47` of
`(2 ones - n)^2 / n`. -/
theorem z_score_error (k n : ℕ) (hkn : k ≤ n) (hn1 : 1 ≤ n) (hk : k < 2 ^ 31)
    {s : ℚ} (hs : 0 < s) (hs4 : |4 * (n : ℚ) * (s * s) - 1| ≤ 1 / 2 ^ 50) (hs1 : s ≤ 1) :
    |Double.rnd (Double.rnd (Double.rnd ((k : ℚ) / n) - 1 / 2) / s)
        * Double.rnd (Double.rnd (Double.rnd ((k : ℚ) / n) - 1 / 2) / s)
        - (2 * (k : ℚ) - n) ^ 2 / n| ≤ |2 * (k : ℚ) - n| / 2 ^ 47 := by
  have hnq : (1 : ℚ) ≤ n := by exact_mod_cast hn1
  have hnpos : (0 : ℚ) < n := by linarith
  have hkq : (k : ℚ) ≤ n := by exact_mod_cast hkn
  have hk0 : (0 : ℚ) ≤ k := by positivity
  by_cases hbal : 2 * k = n
  · have hq : (n : ℚ) = 2 * k := by exact_mod_cast hbal.symm
    have hkpos : (0 : ℚ) < k := by linarith
    have e1 : (k : ℚ) / n = 1 / 2 := by
      rw [hq]; field_simp; ring
    have e2 : 2 * (k : ℚ) - n = 0 := by rw [hq]; ring
    rw [e1, Double.rnd_half, sub_self, Double.rnd_zero, zero_div, Double.rnd_zero, e2]
    norm_num
  · obtain ⟨a, ha⟩ : ∃ a : ℚ, a = (k : ℚ) / n - 1 / 2 := ⟨_, rfl⟩
    obtain ⟨d, hd⟩ : ∃ d : ℚ, d = 2 * (k : ℚ) - n := ⟨_, rfl⟩
    have had : a = d / (2 * n) := by rw [ha, hd]; field_simp; ring
    have hdn : |d| ≤ n := by
      rw [hd, abs_le]; constructor <;> linarith
    have hnd : (n : ℚ) ≤ 2 ^ 33 * |d| := by
      rcases Nat.lt_or_gt_of_ne hbal with h | h
      · have h2 : n + 8589934592 * (2 * k) ≤ 8589934592 * n := by omega
        have h3 : ((n + 8589934592 * (2 * k) : ℕ) : ℚ) ≤ ((8589934592 * n : ℕ) : ℚ) :=
          Nat.cast_le.2 h2
        push_cast at h3
        have hneg : d < 0 := by
          have : (2 * k : ℕ) < n := h
          have : ((2 * k : ℕ) : ℚ) < n := Nat.cast_lt.2 this
          push_cast at this
          rw [hd]; linarith
        rw [abs_of_neg hneg, hd]
        linarith [show (2 : ℚ) ^ 33 = 8589934592 by norm_num]
      · have h2 : n + 8589934592 * n ≤ 8589934592 * (2 * k) := by omega
        have h3 : ((n + 8589934592 * n : ℕ) : ℚ) ≤ ((8589934592 * (2 * k) : ℕ) : ℚ) :=
          Nat.cast_le.2 h2
        push_cast at h3
        have hpos : 0 < d := by
          have : n < (2 * k : ℕ) := h
          have : (n : ℚ) < ((2 * k : ℕ) : ℚ) := Nat.cast_lt.2 this
          push_cast at this
          rw [hd]; linarith
        rw [abs_of_pos hpos, hd]
        linarith [show (2 : ℚ) ^ 33 = 8589934592 by norm_num]
    have habs : |a| = |d| / (2 * n) := by
      rw [had, abs_div, abs_of_pos (by linarith : (0 : ℚ) < 2 * n)]
    have hA34 : (1 : ℚ) / 2 ^ 34 ≤ |a| := by
      rw [habs, div_le_div_iff₀ (by norm_num) (by linarith)]
      linarith
    have hA2 : |a| ≤ 1 / 2 := by
      rw [habs, div_le_div_iff₀ (by linarith) (by norm_num)]
      linarith
    obtain ⟨_, x2, x3, x4⟩ := Double.p_hat_value k n hkn hn1
    obtain ⟨_, w2, w3⟩ := Double.sub_half_value x2 x3
    obtain ⟨x, hx⟩ : ∃ x : ℚ, x = Double.rnd ((k : ℚ) / n) := ⟨_, rfl⟩
    rw [← hx] at x4 w2 w3 ⊢
    obtain ⟨w, hw⟩ : ∃ w : ℚ, w = Double.rnd (x - 1 / 2) := ⟨_, rfl⟩
    rw [← hw] at w2 w3 ⊢
    have hwa : |w - a| ≤ 1 / 2 ^ 52 := by
      have e : w - a = (w - (x - 1 / 2)) + (x - (k : ℚ) / n) := by rw [ha]; ring
      rw [e]
      have := abs_add (w - (x - 1 / 2)) (x - (k : ℚ) / n)
      linarith [show (1 : ℚ) / 2 ^ 54 + 1 / 2 ^ 54 ≤ 1 / 2 ^ 52 by norm_num]
    have hw35 : (1 : ℚ) / 2 ^ 35 ≤ |w| := by
      have h1 := abs_sub_abs_le_abs_sub a w
      rw [abs_sub_comm] at h1
      linarith [show (1 : ℚ) / 2 ^ 34 - 1 / 2 ^ 52 ≥ 1 / 2 ^ 35 by norm_num]
    have hws : |w| ≤ |w / s| := by
      rw [abs_div, abs_of_pos hs, le_div_iff₀ hs]
      nlinarith [abs_nonneg w]
    have hnorm : (2 : ℚ) ^ (-1022 : ℤ) ≤ |w / s| := by
      have h1 : (2 : ℚ) ^ (-1022 : ℤ) ≤ (2 : ℚ) ^ (-35 : ℤ) :=
        zpow_le_zpow_right₀ (by norm_num) (by norm_num)
      have h2 : (2 : ℚ) ^ (-35 : ℤ) = 1 / 2 ^ 35 := by
        rw [zpow_neg, one_div]
        norm_cast
      linarith
    have hrel := Double.rnd_rel_error hnorm
    obtain ⟨z, hz⟩ : ∃ z : ℚ, z = Double.rnd (w / s) := ⟨_, rfl⟩
    rw [← hz] at hrel ⊢
    have hzs : |z * s - w| ≤ |w| / 2 ^ 53 := by
      have e : z * s - w = (z - w / s) * s := by field_simp
      rw [e, abs_mul, abs_of_pos hs]
      have h1 := mul_le_mul_of_nonneg_right hrel hs.le
      have e2 : |w / s| / 2 ^ 53 * s = |w| / 2 ^ 53 := by
        rw [abs_div, abs_of_pos hs]; field_simp; ring
      rw [e2] at h1
      exact h1
    have hfin := z_square_close hnq hA34 hA2 hwa hs4 hzs
    have e3 : 4 * (n : ℚ) * (a * a) = d ^ 2 / n := by
      rw [had]; field_simp; ring
    have e4 : 2 * (n : ℚ) * |a| = |d| := by
      rw [habs]; field_simp
    rw [e3, e4, hd] at hfin
    exact hfin

/-- The p-value of `QRNG::frequency_test` is computed from the z-score `frequency_z`. -/
theorem frequency_test_of_z (L : StdLib) (bits : List ℕ) :
    QRNG.frequency_test L bits = Double.mul (Double.fin 2) (Double.sub (Double.fin 1)
      (Double.mul (Double.fin (1 / 2)) (Double.add (Double.fin 1)
        (L.erf (Double.div (Double.abs (frequency_z L bits)) (L.sqrt (Double.fin 2))))))) := rfl

/-- The p-value of `RandomnessTester::frequency_test` is computed from the same z-score. -/
theorem tester_frequency_test_of_z (L : StdLib) (bits : List ℕ) (hne : bits ≠ []) :
    RandomnessTester.frequency_test L bits = Double.mul (Double.fin 2) (Double.sub (Double.fin 1)
      (Double.mul (Double.fin (1 / 2)) (Double.add (Double.fin 1)
        (L.erf (Double.div (Double.abs (frequency_z L bits)) (L.sqrt (Double.fin 2))))))) := by
  have hemp : bits.isEmpty = false := by
    cases bits with
    | nil => exact absurd rfl hne
    | cons x xs => rfl
  unfold RandomnessTester.frequency_test RandomnessTester.normal_cdf frequency_z
  simp only [hemp, Bool.false_eq_true, if_false]

/-- The p-value `2 * (1 - 0.5 * (1 + erf(|z| / sqrt(2))))` at `z = 0` is exactly 1. -/
theorem p_value_at_zero (L : StdLib) (hS : SqrtAccurate L)
    (herf : L.erf (Double.fin 0) = Double.fin 0) :
    Double.mul (Double.fin 2) (Double.sub (Double.fin 1)
      (Double.mul (Double.fin (1 / 2)) (Double.add (Double.fin 1)
        (L.erf (Double.div (Double.abs (Double.fin 0)) (L.sqrt (Double.fin 2)))))))
      = Double.fin 1 := by
  have r2 : Double.rnd (2 : ℚ) = 2 := by simpa using Double.rnd_two_pow 1
  obtain ⟨g, hg, hs2, _⟩ := hS 2 (by norm_num) r2
  have habs : Double.abs (Double.fin 0) = Double.fin 0 := by simp [Double.abs]
  have hx : Double.div (Double.fin 0) (Double.fin g) = Double.fin 0 := by
    rw [Double.div_fin _ _ hg.ne', zero_div, Double.round_zero]
  have hadd : Double.add (Double.fin 1) (Double.fin 0) = Double.fin 1 := by
    rw [Double.add_fin, add_zero, Double.round_one]
  have hhalf : Double.mul (Double.fin (1 / 2)) (Double.fin 1) = Double.fin (1 / 2) := by
    rw [Double.mul_fin, mul_one, Double.round_half]
  have hsub : Double.sub (Double.fin 1) (Double.fin (1 / 2)) = Double.fin (1 / 2) := by
    rw [Double.sub_fin]
    have e : (1 : ℚ) - 1 / 2 = 1 / 2 := by norm_num
    rw [e, Double.round_half]
  have hfin : Double.mul (Double.fin 2) (Double.fin (1 / 2)) = Double.fin 1 := by
    rw [Double.mul_fin]
    have e : (2 : ℚ) * (1 / 2) = 1 := by norm_num
    rw [e, Double.round_one]
  rw [habs, hs2, hx, herf, hadd, hhalf, hsub, hfin]

/-- C17 (amended): on every non-empty 0/1 sequence with fewer than `2^31` ones and fewer than
`2^53` elements `n`, and for a `std::sqrt` as accurate as the IEEE one, the z-score `z` that
`frequency_test` computes and the statistic `c` that `chi_square_test` computes are finite and
measure the same deviation `d = 2 * ones - n`: `z^2` is within `|d| / 2^47` of `d^2 / n`, `c` is
within a relative error of `2^-51` of `d^2 / n`, and so `|z^2 - c| ≤ |d| / 2^46`.  The two
p-values are computed from them by different `double` expressions, `2 * (1 - 0.5 * (1 +
erf(|z| / sqrt(2))))` against `erfc(sqrt(c / 2))` (`1 - erf(sqrt(c / 2))` in the tester); on a
balanced sequence all four p-values are exactly 1, for a library with `sqrt(0) = 0`,
`erf(0) = 0` and `erfc(0) = 1`. -/
theorem C17_statistics_agree_up_to_rounding (L : StdLib) (hS : SqrtAccurate L) (bits : List ℕ)
    (hne : bits ≠ []) (h01 : ∀ b ∈ bits, b ≤ 1) (hones : bits.count 1 < 2 ^ 31)
    (hlen : bits.length < 2 ^ 53) :
    ∃ z c : ℚ,
      frequency_z L bits = Double.fin z ∧ chi_square_statistic bits = Double.fin c ∧
      |z * z - (2 * (bits.count 1 : ℚ) - bits.length) ^ 2 / bits.length|
        ≤ |2 * (bits.count 1 : ℚ) - bits.length| / 2 ^ 47 ∧
      |c - (2 * (bits.count 1 : ℚ) - bits.length) ^ 2 / bits.length|
        ≤ (2 * (bits.count 1 : ℚ) - bits.length) ^ 2 / bits.length / 2 ^ 51 ∧
      |z * z - c| ≤ |2 * (bits.count 1 : ℚ) - bits.length| / 2 ^ 46 ∧
      QRNG.frequency_test L bits = Double.mul (Double.fin 2) (Double.sub (Double.fin 1)
        (Double.mul (Double.fin (1 / 2)) (Double.add (Double.fin 1)
          (L.erf (Double.div (Double.fin |z|) (L.sqrt (Double.fin 2))))))) ∧
      RandomnessTester.frequency_test L bits = Double.mul (Double.fin 2)
        (Double.sub (Double.fin 1) (Double.mul (Double.fin (1 / 2)) (Double.add (Double.fin 1)
          (L.erf (Double.div (Double.fin |z|) (L.sqrt (Double.fin 2))))))) ∧
      QRNG.chi_square_test L bits
        = L.erfc (L.sqrt (Double.div (Double.fin c) (Double.fin 2))) ∧
      RandomnessTester.chi_square_test L bits
        = Double.sub (Double.fin 1) (L.erf (L.sqrt (Double.div (Double.fin c) (Double.fin 2)))) ∧
      (bits.count 0 = bits.count 1 → L.sqrt (Double.fin 0) = Double.fin 0 →
        L.erf (Double.fin 0) = Double.fin 0 → L.erfc (Double.fin 0) = Double.fin 1 →
        z = 0 ∧ c = 0 ∧
        QRNG.frequency_test L bits = Double.fin 1 ∧ QRNG.chi_square_test L bits = Double.fin 1 ∧
        RandomnessTester.frequency_test L bits = Double.fin 1 ∧
        RandomnessTester.chi_square_test L bits = Double.fin 1) := by
  have hcnt := count_zero_add_count_one bits h01
  have hpos : 0 < bits.length := List.length_pos.2 hne
  have hkn : bits.count 1 ≤ bits.length := by omega
  obtain ⟨s, s1, s2, s3, hz⟩ := frequency_z_eval L hS bits hne h01 hones hlen
  obtain ⟨c, hc, hcerr⟩ := chi_square_statistic_value bits hne h01 hlen
  have hzerr := z_score_error (bits.count 1) bits.length hkn hpos hones s1 s2 s3
  obtain ⟨z, hzdef⟩ : ∃ z : ℚ, z = Double.rnd (Double.rnd
      (Double.rnd ((bits.count 1 : ℚ) / bits.length) - 1 / 2) / s) := ⟨_, rfl⟩
  rw [← hzdef] at hz hzerr
  obtain ⟨d, hd⟩ : ∃ d : ℚ, d = 2 * (bits.count 1 : ℚ) - bits.length := ⟨_, rfl⟩
  have hnq : (0 : ℚ) < bits.length := by exact_mod_cast hpos
  have hkq : (bits.count 1 : ℚ) ≤ bits.length := by exact_mod_cast hkn
  have hk0 : (0 : ℚ) ≤ (bits.count 1 : ℚ) := by positivity
  have hqf : QRNG.frequency_test L bits = Double.mul (Double.fin 2) (Double.sub (Double.fin 1)
      (Double.mul (Double.fin (1 / 2)) (Double.add (Double.fin 1)
        (L.erf (Double.div (Double.fin |z|) (L.sqrt (Double.fin 2))))))) := by
    rw [frequency_test_of_z, hz]; rfl
  have htf : RandomnessTester.frequency_test L bits = Double.mul (Double.fin 2)
      (Double.sub (Double.fin 1) (Double.mul (Double.fin (1 / 2)) (Double.add (Double.fin 1)
        (L.erf (Double.div (Double.fin |z|) (L.sqrt (Double.fin 2))))))) := by
    rw [tester_frequency_test_of_z L bits hne, hz]; rfl
  have hqc : QRNG.chi_square_test L bits
      = L.erfc (L.sqrt (Double.div (Double.fin c) (Double.fin 2))) := by
    unfold QRNG.chi_square_test; rw [hc]
  have htc : RandomnessTester.chi_square_test L bits
      = Double.sub (Double.fin 1) (L.erf (L.sqrt (Double.div (Double.fin c) (Double.fin 2)))) := by
    unfold RandomnessTester.chi_square_test RandomnessTester.calculate_p_value
      RandomnessTester.erfc
    rw [if_pos rfl, hc]
  rw [← hd] at hzerr hcerr ⊢
  have hdn : |d| ≤ bits.length := by
    rw [hd, abs_le]; constructor <;> linarith
  have hT : d ^ 2 / (bits.length : ℚ) ≤ |d| := by
    rw [div_le_iff₀ hnq]
    have e : d ^ 2 = |d| * |d| := by rw [abs_mul_abs_self]; ring
    rw [e]
    exact mul_le_mul_of_nonneg_left hdn (abs_nonneg d)
  have hzc : |z * z - c| ≤ |d| / 2 ^ 46 := by
    have e : z * z - c = (z * z - d ^ 2 / (bits.length : ℚ)) - (c - d ^ 2 / (bits.length : ℚ)) := by
      ring
    rw [e]
    have h1 := abs_sub (z * z - d ^ 2 / (bits.length : ℚ)) (c - d ^ 2 / (bits.length : ℚ))
    have h2 : d ^ 2 / (bits.length : ℚ) / 2 ^ 51 ≤ |d| / 2 ^ 51 :=
      div_le_div_of_nonneg_right hT (by norm_num)
    have h3 : |d| / 2 ^ 47 + |d| / 2 ^ 51 ≤ |d| / 2 ^ 46 := by
      have e1 : |d| / 2 ^ 47 + |d| / 2 ^ 51 = |d| * (1 / 2 ^ 47 + 1 / 2 ^ 51) := by ring
      have e2 : |d| / 2 ^ 46 = |d| * (1 / 2 ^ 46) := by ring
      rw [e1, e2]
      exact mul_le_mul_of_nonneg_left (by norm_num) (abs_nonneg d)
    linarith
  refine ⟨z, c, hz, hc, hzerr, hcerr, hzc, hqf, htf, hqc, htc, ?_⟩
  intro hbal hsqrt herf herfc
  have hd0 : d = 0 := by
    have : (bits.length : ℚ) = bits.count 0 + bits.count 1 := by exact_mod_cast hcnt.symm
    rw [hd, this, hbal]; ring
  have hz0 : z = 0 := by
    have h := hzerr
    rw [hd0] at h
    norm_num at h
    by_contra hne0
    have := mul_self_pos.2 hne0
    linarith
  have hc0 : c = 0 := by
    have h := hcerr
    rw [hd0] at h
    norm_num at h
    exact h
  have r1 : Double.round 1 = Double.fin 1 := Double.round_one
  refine ⟨hz0, hc0, ?_, ?_, ?_, ?_⟩
  · rw [hqf, hz0, abs_zero]
    exact p_value_at_zero L hS herf
  · rw [hqc, hc0, Double.div_fin _ _ two_ne_zero, zero_div, Double.round_zero, hsqrt, herfc]
  · rw [htf, hz0, abs_zero]
    exact p_value_at_zero L hS herf
  · rw [htc, hc0, Double.div_fin _ _ two_ne_zero, zero_div, Double.round_zero, hsqrt, herf,
      Double.sub_fin, sub_zero, r1]

theorem tailLib_at_zero :
    tailLib.sqrt (Double.fin 0) = Double.fin 0 ∧ tailLib.erf (Double.fin 0) = Double.fin 0 ∧
      tailLib.erfc (Double.fin 0) = Double.fin 1 := by
  refine ⟨?_, ?_, ?_⟩
  · simp [tailLib]
  · simp only [tailLib]
    rw [if_neg (by norm_num), if_neg (by norm_num), zero_div, Double.round_zero]
  · simp only [tailLib]
    rw [if_neg (by norm_num), if_neg (by norm_num), if_neg (by norm_num), zero_div, sub_zero,
      Double.round_one]

theorem C17_statistics_agree_up_to_rounding_witness :
    (∃ z c : ℚ,
      frequency_z tailLib [1, 1, 1, 0] = Double.fin z ∧
      chi_square_statistic [1, 1, 1, 0] = Double.fin c ∧
      |z * z - 1| ≤ 2 / 2 ^ 47 ∧ |c - 1| ≤ 1 / 2 ^ 51 ∧ |z * z - c| ≤ 2 / 2 ^ 46 ∧
      QRNG.frequency_test tailLib [1, 1, 1, 0] = Double.mul (Double.fin 2)
        (Double.sub (Double.fin 1) (Double.mul (Double.fin (1 / 2)) (Double.add (Double.fin 1)
          (tailLib.erf (Double.div (Double.fin |z|) (tailLib.sqrt (Double.fin 2))))))) ∧
      QRNG.chi_square_test tailLib [1, 1, 1, 0]
        = tailLib.erfc (tailLib.sqrt (Double.div (Double.fin c) (Double.fin 2)))) ∧
    (QRNG.frequency_test tailLib [1, 0, 0, 1] = Double.fin 1 ∧
      QRNG.chi_square_test tailLib [1, 0, 0, 1] = Double.fin 1 ∧
      RandomnessTester.frequency_test tailLib [1, 0, 0, 1] = Double.fin 1 ∧
      RandomnessTester.chi_square_test tailLib [1, 0, 0, 1] = Double.fin 1) := by
  constructor
  · obtain ⟨z, c, h1, h2, h3, h4, h5, h6, _, h8, _⟩ :=
      C17_statistics_agree_up_to_rounding tailLib tailLib_sqrt_accurate [1, 1, 1, 0] (by simp)
        (by decide) (by decide) (by simp)
    refine ⟨z, c, h1, h2, ?_, ?_, ?_, h6, h8⟩
    · norm_num at h3 ⊢; exact h3
    · norm_num at h4 ⊢; exact h4
    · norm_num at h5 ⊢; exact h5
  · obtain ⟨z, c, _, _, _, _, _, _, _, _, _, hb⟩ :=
      C17_statistics_agree_up_to_rounding tailLib tailLib_sqrt_accurate [1, 0, 0, 1] (by simp)
        (by decide) (by decide) (by simp)
    exact (hb (by decide) tailLib_at_zero.1 tailLib_at_zero.2.1 tailLib_at_zero.2.2).2.2

/-! ### The state update of the FastScrambler generator is injective -/

/-- The map `x ↦ x xor (x << 17)` is injective on 64-bit words: bit `i` of the result is bit
`i` of `x` for `i < 17`, and bit `i` xor bit `i - 17` above. -/
theorem xor_shl_injective (x y : ℕ) (hx : x < 2 ^ 64) (hy : y < 2 ^ 64)
    (h : x ^^^ ((x <<< 17) % 2 ^ 64) = y ^^^ ((y <<< 17) % 2 ^ 64)) : x = y := by
  apply Nat.eq_of_testBit_eq
  intro i
  induction i using Nat.strong_induction_on with
  | _ i ih =>
    by_cases h64 : i < 64
    · have hb := congrArg (fun z => Nat.testBit z i) h
      simp only [Nat.testBit_xor, Nat.testBit_mod_two_pow, Nat.testBit_shiftLeft] at hb
      by_cases h17 : 17 ≤ i
      · have hp := ih (i - 17) (by omega)
        simp only [h64, h17, hp, decide_True, Bool.true_and, ge_iff_le] at hb
        exact Bool.xor_right_inj.1 hb
      · simp only [h64, h17, decide_True, decide_False, Bool.true_and, Bool.false_and,
          Bool.xor_false, ge_iff_le] at hb
        exact hb
    · have h2 : (2 : ℕ) ^ 64 ≤ 2 ^ i := Nat.pow_le_pow_right (by norm_num) (by omega)
      rw [Nat.testBit_lt_two_pow (lt_of_lt_of_le hx h2),
        Nat.testBit_lt_two_pow (lt_of_lt_of_le hy h2)]

/-- The rotation by 45 places is injective on 64-bit words and stays within 64 bits. -/
theorem rotl45_injective (x y : ℕ) (hx : x < 2 ^ 64) (hy : y < 2 ^ 64)
    (h : Xoshiro256.rotl x 45 = Xoshiro256.rotl y 45) : x = y := by
  rw [rotl_eq_rotation x 45 hx (by norm_num) (by norm_num),
    rotl_eq_rotation y 45 hy (by norm_num) (by norm_num)] at h
  norm_num at h
  omega

theorem rotl45_lt (x : ℕ) (hx : x < 2 ^ 64) : Xoshiro256.rotl x 45 < 2 ^ 64 := by
  rw [rotl_eq_rotation x 45 hx (by norm_num) (by norm_num)]
  norm_num
  omega

theorem xor_lt_word (a b : ℕ) (ha : a < 2 ^ 64) (hb : b < 2 ^ 64) : a ^^^ b < 2 ^ 64 :=
  Nat.xor_lt_two_pow ha hb

/-- One state update maps 4x64-bit states to 4x64-bit states. -/
theorem xoshiro_next_word (g : Xoshiro256) (h0 : g.s0 < 2 ^ 64) (h1 : g.s1 < 2 ^ 64)
    (h2 : g.s2 < 2 ^ 64) (h3 : g.s3 < 2 ^ 64) :
    (Xoshiro256.next g).2.s0 < 2 ^ 64 ∧ (Xoshiro256.next g).2.s1 < 2 ^ 64 ∧
      (Xoshiro256.next g).2.s2 < 2 ^ 64 ∧ (Xoshiro256.next g).2.s3 < 2 ^ 64 := by
  have ht : (g.s1 <<< 17) % 2 ^ 64 < 2 ^ 64 := Nat.mod_lt _ (by norm_num)
  refine ⟨?_, ?_, ?_, ?_⟩
  · exact xor_lt_word _ _ h0 (xor_lt_word _ _ h3 h1)
  · exact xor_lt_word _ _ h1 (xor_lt_word _ _ h2 h0)
  · exact xor_lt_word _ _ (xor_lt_word _ _ h2 h0) ht
  · exact rotl45_lt _ (xor_lt_word _ _ h3 h1)

/-- One state update is injective on 4x64-bit states. -/
theorem xoshiro_next_injective (g h : Xoshiro256)
    (g0 : g.s0 < 2 ^ 64) (g1 : g.s1 < 2 ^ 64) (g2 : g.s2 < 2 ^ 64) (g3 : g.s3 < 2 ^ 64)
    (k0 : h.s0 < 2 ^ 64) (k1 : h.s1 < 2 ^ 64) (k2 : h.s2 < 2 ^ 64) (k3 : h.s3 < 2 ^ 64)
    (e : (Xoshiro256.next g).2 = (Xoshiro256.next h).2) : g = h := by
  have e0 : g.s0 ^^^ (g.s3 ^^^ g.s1) = h.s0 ^^^ (h.s3 ^^^ h.s1) :=
    congrArg Xoshiro256.s0 e
  have e1 : g.s1 ^^^ (g.s2 ^^^ g.s0) = h.s1 ^^^ (h.s2 ^^^ h.s0) :=
    congrArg Xoshiro256.s1 e
  have e2 : g.s2 ^^^ g.s0 ^^^ ((g.s1 <<< 17) % 2 ^ 64)
      = h.s2 ^^^ h.s0 ^^^ ((h.s1 <<< 17) % 2 ^ 64) := congrArg Xoshiro256.s2 e
  have e3 : Xoshiro256.rotl (g.s3 ^^^ g.s1) 45 = Xoshiro256.rotl (h.s3 ^^^ h.s1) 45 :=
    congrArg Xoshiro256.s3 e
  have a : g.s3 ^^^ g.s1 = h.s3 ^^^ h.s1 :=
    rotl45_injective _ _ (xor_lt_word _ _ g3 g1) (xor_lt_word _ _ k3 k1) e3
  have c0 : g.s0 = h.s0 := by
    rw [a] at e0
    exact Nat.xor_left_inj.1 e0
  have b : g.s1 ^^^ g.s2 = h.s1 ^^^ h.s2 := by
    rw [← Nat.xor_assoc, ← Nat.xor_assoc, c0] at e1
    exact Nat.xor_left_inj.1 e1
  have c : g.s2 ^^^ ((g.s1 <<< 17) % 2 ^ 64) = h.s2 ^^^ ((h.s1 <<< 17) % 2 ^ 64) := by
    rw [c0, Nat.xor_comm g.s2, Nat.xor_comm h.s2, Nat.xor_assoc, Nat.xor_assoc] at e2
    exact Nat.xor_right_inj.1 e2
  have d : g.s1 ^^^ ((g.s1 <<< 17) % 2 ^ 64) = h.s1 ^^^ ((h.s1 <<< 17) % 2 ^ 64) := by
    have hg : g.s1 ^^^ ((g.s1 <<< 17) % 2 ^ 64)
        = (g.s1 ^^^ g.s2) ^^^ (g.s2 ^^^ ((g.s1 <<< 17) % 2 ^ 64)) := by
      rw [Nat.xor_assoc, Nat.xor_cancel_left]
    have hh : h.s1 ^^^ ((h.s1 <<< 17) % 2 ^ 64)
        = (h.s1 ^^^ h.s2) ^^^ (h.s2 ^^^ ((h.s1 <<< 17) % 2 ^ 64)) := by
      rw [Nat.xor_assoc, Nat.xor_cancel_left]
    rw [hg, hh, b, c]
  have c1 : g.s1 = h.s1 := xor_shl_injective _ _ g1 k1 d
  have c2 : g.s2 = h.s2 := by
    rw [c1] at b
    exact Nat.xor_right_inj.1 b
  have c3 : g.s3 = h.s3 := by
    rw [c1] at a
    exact Nat.xor_left_inj.1 a
  cases g
  cases h
  simp only at c0 c1 c2 c3
  rw [c0, c1, c2, c3]

/-- The all-zero state is a fixed point of the state update. -/
theorem xoshiro_next_zero :
    (Xoshiro256.next { s0 := 0, s1 := 0, s2 := 0, s3 := 0 }).2
      = { s0 := 0, s1 := 0, s2 := 0, s3 := 0 } := by
  decide

/-- C22: one state update of the FastScrambler generator maps 4x64-bit states to 4x64-bit
states, it is injective on them, and it maps the all-zero state to itself; hence a 4x64-bit
state that is not all-zero is not all-zero after any number of state updates. -/
theorem C22_xoshiro_state_update :
    (∀ g : Xoshiro256, g.s0 < 2 ^ 64 → g.s1 < 2 ^ 64 → g.s2 < 2 ^ 64 → g.s3 < 2 ^ 64 →
      (Xoshiro256.next g).2.s0 < 2 ^ 64 ∧ (Xoshiro256.next g).2.s1 < 2 ^ 64 ∧
        (Xoshiro256.next g).2.s2 < 2 ^ 64 ∧ (Xoshiro256.next g).2.s3 < 2 ^ 64) ∧
    (∀ g h : Xoshiro256, g.s0 < 2 ^ 64 → g.s1 < 2 ^ 64 → g.s2 < 2 ^ 64 → g.s3 < 2 ^ 64 →
      h.s0 < 2 ^ 64 → h.s1 < 2 ^ 64 → h.s2 < 2 ^ 64 → h.s3 < 2 ^ 64 →
      (Xoshiro256.next g).2 = (Xoshiro256.next h).2 → g = h) ∧
    (Xoshiro256.next { s0 := 0, s1 := 0, s2 := 0, s3 := 0 }).2
      = { s0 := 0, s1 := 0, s2 := 0, s3 := 0 } ∧
    (∀ (g : Xoshiro256) (n : ℕ), g.s0 < 2 ^ 64 → g.s1 < 2 ^ 64 → g.s2 < 2 ^ 64 →
      g.s3 < 2 ^ 64 → g ≠ { s0 := 0, s1 := 0, s2 := 0, s3 := 0 } →
      (fun s => (Xoshiro256.next s).2)^[n] g ≠ { s0 := 0, s1 := 0, s2 := 0, s3 := 0 }) := by
  refine ⟨xoshiro_next_word, xoshiro_next_injective, xoshiro_next_zero, ?_⟩
  intro g n
  induction n generalizing g with
  | zero =>
    intro _ _ _ _ hne
    exact hne
  | succ k ih =>
    intro g0 g1 g2 g3 hne
    rw [Function.iterate_succ_apply]
    obtain ⟨w0, w1, w2, w3⟩ := xoshiro_next_word g g0 g1 g2 g3
    apply ih _ w0 w1 w2 w3
    intro hz
    apply hne
    apply xoshiro_next_injective g _ g0 g1 g2 g3 (by norm_num) (by norm_num) (by norm_num)
      (by norm_num)
    rw [hz, xoshiro_next_zero]

theorem C22_xoshiro_state_update_witness :
    (fun s => (Xoshiro256.next s).2)^[3] { s0 := 1, s1 := 2, s2 := 3, s3 := 4 }
      ≠ { s0 := 0, s1 := 0, s2 := 0, s3 := 0 } :=
  C22_xoshiro_state_update.2.2.2 { s0 := 1, s1 := 2, s2 := 3, s3 := 4 } 3 (by norm_num)
    (by norm_num) (by norm_num) (by norm_num) (by decide)

/-! ### Shannon entropy of nearly balanced sequences -/

/-- Upper bound of `log (1 - t)` for small `t`: three terms of the series and a remainder. -/
theorem log_one_sub_le (t : ℝ) (ht : |t| ≤ 51 / 500) :
    Real.log (1 - t) ≤ -t - t ^ 2 / 2 - t ^ 3 / 3 + 1 / 8000 := by
  have h1 : |t| < 1 := lt_of_le_of_lt ht (by norm_num)
  have h := Real.abs_log_sub_add_sum_range_le h1 3
  have hs : (∑ i ∈ Finset.range 3, t ^ (i + 1) / ((i : ℝ) + 1)) = t + t ^ 2 / 2 + t ^ 3 / 3 := by
    simp [Finset.sum_range_succ]
    ring
  rw [hs] at h
  have hpos : (0 : ℝ) < 1 - |t| := by linarith
  have ht0 : 0 ≤ |t| := abs_nonneg t
  have h4 : |t| ^ (3 + 1) ≤ (51 / 500 : ℝ) ^ (3 + 1) := pow_le_pow_left₀ ht0 ht _
  have hR : |t| ^ (3 + 1) / (1 - |t|) ≤ 1 / 8000 := by
    rw [div_le_iff₀ hpos]
    have : (1 : ℝ) / 8000 * (1 - |t|) ≥ 1 / 8000 * (1 - 51 / 500) := by
      apply mul_le_mul_of_nonneg_left _ (by norm_num)
      linarith
    have h5 : (51 / 500 : ℝ) ^ (3 + 1) ≤ 1 / 8000 * (1 - 51 / 500) := by norm_num
    linarith
  have := (abs_le.1 (le_trans h hR)).2
  linarith

/-- The polynomial `ψ(t) = (1 - t) (-t - t^2/2 - t^3/3 + R)` with `R = 1/8000`. -/
theorem psi_lipschitz (a b : ℝ) (ha : |a| ≤ 1 / 5) (hb : |b| ≤ 1 / 5) :
    (1 - b) * (-b - b ^ 2 / 2 - b ^ 3 / 3 + 1 / 8000)
      ≤ (1 - a) * (-a - a ^ 2 / 2 - a ^ 3 / 3 + 1 / 8000) + 2 * |b - a| := by
  have e : (1 - b) * (-b - b ^ 2 / 2 - b ^ 3 / 3 + 1 / 8000)
      - (1 - a) * (-a - a ^ 2 / 2 - a ^ 3 / 3 + 1 / 8000)
      = (b - a) * (-(1 + 1 / 8000) + (a + b) / 2 + (a ^ 2 + a * b + b ^ 2) / 6
          + (a ^ 3 + a ^ 2 * b + a * b ^ 2 + b ^ 3) / 3) := by ring
  obtain ⟨a1, a2⟩ := abs_le.1 ha
  obtain ⟨b1, b2⟩ := abs_le.1 hb
  have hQ : |(-(1 + 1 / 8000) + (a + b) / 2 + (a ^ 2 + a * b + b ^ 2) / 6
          + (a ^ 3 + a ^ 2 * b + a * b ^ 2 + b ^ 3) / 3)| ≤ 2 := by
    have haa : a ^ 2 ≤ 1 / 25 := by nlinarith
    have hbb : b ^ 2 ≤ 1 / 25 := by nlinarith
    have hab : |a * b| ≤ 1 / 25 := by
      rw [abs_mul]
      calc |a| * |b| ≤ 1 / 5 * (1 / 5) := mul_le_mul ha hb (abs_nonneg _) (by norm_num)
        _ = 1 / 25 := by norm_num
    obtain ⟨ab1, ab2⟩ := abs_le.1 hab
    have h3 : |a ^ 3 + a ^ 2 * b + a * b ^ 2 + b ^ 3| ≤ 4 / 125 := by
      have e3 : a ^ 3 + a ^ 2 * b + a * b ^ 2 + b ^ 3 = (a + b) * (a ^ 2 + b ^ 2) := by ring
      rw [e3, abs_mul]
      have hs : |a + b| ≤ 2 / 5 := by
        rw [abs_le]; constructor <;> linarith
      have hq : |a ^ 2 + b ^ 2| ≤ 2 / 25 := by
        rw [abs_of_nonneg (by positivity)]; linarith
      calc |a + b| * |a ^ 2 + b ^ 2| ≤ 2 / 5 * (2 / 25) :=
            mul_le_mul hs hq (abs_nonneg _) (by norm_num)
        _ = 4 / 125 := by norm_num
    obtain ⟨c1, c2⟩ := abs_le.1 h3
    have ha0 : 0 ≤ a ^ 2 := by positivity
    have hb0 : 0 ≤ b ^ 2 := by positivity
    rw [abs_le]
    constructor <;> linarith
  have hmul : (b - a) * (-(1 + 1 / 8000) + (a + b) / 2 + (a ^ 2 + a * b + b ^ 2) / 6
          + (a ^ 3 + a ^ 2 * b + a * b ^ 2 + b ^ 3) / 3) ≤ |b - a| * 2 := by
    calc _ ≤ |(b - a) * (-(1 + 1 / 8000) + (a + b) / 2 + (a ^ 2 + a * b + b ^ 2) / 6
          + (a ^ 3 + a ^ 2 * b + a * b ^ 2 + b ^ 3) / 3)| := le_abs_self _
      _ = |b - a| * |(-(1 + 1 / 8000) + (a + b) / 2 + (a ^ 2 + a * b + b ^ 2) / 6
          + (a ^ 3 + a ^ 2 * b + a * b ^ 2 + b ^ 3) / 3)| := abs_mul _ _
      _ ≤ |b - a| * 2 := mul_le_mul_of_nonneg_left hQ (abs_nonneg _)
  linarith

/-- The two logarithmic terms of the entropy, bounded through the series. -/
theorem entropy_terms_le (x y : ℝ) (hx : |1 - 2 * x| ≤ 101 / 1000)
    (hxy : |x + y - 1| ≤ 1 / 10 ^ 9) :
    x * Real.log (2 * x) + y * Real.log (2 * y) ≤ 53 / 10000 := by
  obtain ⟨x1, x2⟩ := abs_le.1 hx
  obtain ⟨s1, s2⟩ := abs_le.1 hxy
  have hxpos : 0 < x := by linarith
  have hypos : 0 < y := by linarith
  have hy : |1 - 2 * y| ≤ 51 / 500 := by
    rw [abs_le]; constructor <;> linarith
  have hx' : |1 - 2 * x| ≤ 51 / 500 := le_trans hx (by norm_num)
  have lx := log_one_sub_le (1 - 2 * x) hx'
  have ly := log_one_sub_le (1 - 2 * y) hy
  have ex : 1 - (1 - 2 * x) = 2 * x := by ring
  have ey : 1 - (1 - 2 * y) = 2 * y := by ring
  rw [ex] at lx
  rw [ey] at ly
  set t := 1 - 2 * x with ht
  set t' := 1 - 2 * y with ht'
  have hxt : x = (1 - t) / 2 := by rw [ht]; ring
  have hyt : y = (1 - t') / 2 := by rw [ht']; ring
  have b1 : x * Real.log (2 * x) ≤ x * (-t - t ^ 2 / 2 - t ^ 3 / 3 + 1 / 8000) :=
    mul_le_mul_of_nonneg_left lx hxpos.le
  have b2 : y * Real.log (2 * y) ≤ y * (-t' - t' ^ 2 / 2 - t' ^ 3 / 3 + 1 / 8000) :=
    mul_le_mul_of_nonneg_left ly hypos.le
  have hl := psi_lipschitz (-t) t' (by rw [abs_neg]; exact le_trans hx' (by norm_num))
    (le_trans hy (by norm_num))
  have hd : |t' - -t| ≤ 2 / 10 ^ 9 := by
    rw [abs_le, ht, ht']; constructor <;> linarith
  have hsym : (1 - t) * (-t - t ^ 2 / 2 - t ^ 3 / 3 + 1 / 8000)
      + (1 - -t) * (- -t - (-t) ^ 2 / 2 - (-t) ^ 3 / 3 + 1 / 8000)
      = 2 / 8000 + t ^ 2 + 2 * t ^ 4 / 3 := by ring
  have ht2 : t ^ 2 ≤ (101 / 1000) ^ 2 := by
    have := pow_le_pow_left₀ (abs_nonneg t) hx 2
    rwa [sq_abs] at this
  have ht4 : t ^ 4 ≤ (101 / 1000) ^ 4 := by
    have := pow_le_pow_left₀ (abs_nonneg t) hx 4
    have e4 : |t| ^ 4 = t ^ 4 := by
      rw [show (4 : ℕ) = 2 * 2 by norm_num, pow_mul, sq_abs, ← pow_mul]
    rwa [e4] at this
  rw [hxt] at b1
  rw [hyt] at b2
  have n1 : (101 / 1000 : ℝ) ^ 2 = 10201 / 1000000 := by norm_num
  have n2 : (101 / 1000 : ℝ) ^ 4 ≤ 11 / 100000 := by norm_num
  nlinarith

/-- The entropy of two proportions near `1/2`, computed with logarithms that are within
`10^-3` of `log2`, exceeds `0.991`. -/
theorem entropy_real_lower (x y l0 l1 : ℝ) (hx : |1 - 2 * x| ≤ 101 / 1000)
    (hxy : |x + y - 1| ≤ 1 / 10 ^ 9) (h1 : l1 ≤ Real.logb 2 x + 1 / 1000)
    (h0 : l0 ≤ Real.logb 2 y + 1 / 1000) : 991 / 1000 ≤ -(y * l0) - x * l1 := by
  obtain ⟨x1, x2⟩ := abs_le.1 hx
  obtain ⟨s1, s2⟩ := abs_le.1 hxy
  have hxpos : 0 < x := by linarith
  have hypos : 0 < y := by linarith
  have hlog2 : 0 < Real.log 2 := Real.log_pos (by norm_num)
  have hl2 : (6931 / 10000 : ℝ) < Real.log 2 := lt_trans (by norm_num) Real.log_two_gt_d9
  have hN := entropy_terms_le x y hx hxy
  have ex : Real.logb 2 x = Real.log (2 * x) / Real.log 2 - 1 := by
    rw [Real.logb, Real.log_mul (by norm_num) hxpos.ne']
    field_simp
  have ey : Real.logb 2 y = Real.log (2 * y) / Real.log 2 - 1 := by
    rw [Real.logb, Real.log_mul (by norm_num) hypos.ne']
    field_simp
  have hq : (x * Real.log (2 * x) + y * Real.log (2 * y)) / Real.log 2 ≤ 77 / 10000 := by
    rw [div_le_iff₀ hlog2]
    nlinarith
  have a1 : x * l1 ≤ x * (Real.log (2 * x) / Real.log 2 - 1 + 1 / 1000) := by
    apply mul_le_mul_of_nonneg_left _ hxpos.le
    linarith
  have a0 : y * l0 ≤ y * (Real.log (2 * y) / Real.log 2 - 1 + 1 / 1000) := by
    apply mul_le_mul_of_nonneg_left _ hypos.le
    linarith
  have esum : x * (Real.log (2 * x) / Real.log 2 - 1 + 1 / 1000)
      + y * (Real.log (2 * y) / Real.log 2 - 1 + 1 / 1000)
      = (x * Real.log (2 * x) + y * Real.log (2 * y)) / Real.log 2
        - (x + y) * (999 / 1000) := by
    field_simp
    ring
  nlinarith

/-- On `[0.4, 0.6]` the base-2 logarithm lies between `-2` and `-1/2`. -/
theorem logb_two_bounds (x : ℝ) (h1 : 2 / 5 ≤ x) (h2 : x ≤ 3 / 5) :
    -2 ≤ Real.logb 2 x ∧ Real.logb 2 x ≤ -(1 / 2) := by
  have hxpos : 0 < x := by linarith
  have hlog2 : 0 < Real.log 2 := Real.log_pos (by norm_num)
  have hl2 : (6931 / 10000 : ℝ) < Real.log 2 := lt_trans (by norm_num) Real.log_two_gt_d9
  have ex : Real.logb 2 x = Real.log (2 * x) / Real.log 2 - 1 := by
    rw [Real.logb, Real.log_mul (by norm_num) hxpos.ne']
    field_simp
  have hup : Real.log (2 * x) ≤ 2 * x - 1 := Real.log_le_sub_one_of_pos (by linarith)
  have hlo : 1 - (2 * x)⁻¹ ≤ Real.log (2 * x) := Real.one_sub_inv_le_log_of_pos (by linarith)
  have hinv : (2 * x)⁻¹ ≤ 5 / 4 := by
    rw [inv_le_comm₀ (by linarith) (by norm_num)]
    norm_num
    linarith
  rw [ex]
  constructor
  · have : -1 ≤ Real.log (2 * x) / Real.log 2 := by
      rw [le_div_iff₀ hlog2]
      nlinarith
    linarith
  · have : Real.log (2 * x) / Real.log 2 ≤ 1 / 2 := by
      rw [div_le_iff₀ hlog2]
      nlinarith
    linarith

/-- A logarithm of the library at an argument in `[0.4, 0.6]` lies in `[-3, -1/4]`. -/
theorem log2_value_bounds (x l : ℚ) (h1 : 2 / 5 ≤ x) (h2 : x ≤ 3 / 5)
    (a : |(l : ℝ) - Real.logb 2 (x : ℝ)| ≤ 1 / 1000) : -3 ≤ l ∧ l ≤ -(1 / 4) := by
  have hxr1 : (2 / 5 : ℝ) ≤ (x : ℝ) := by
    have h := (Rat.cast_le (K := ℝ)).2 h1
    push_cast at h
    exact h
  have hxr2 : (x : ℝ) ≤ 3 / 5 := by
    have h := (Rat.cast_le (K := ℝ)).2 h2
    push_cast at h
    exact h
  obtain ⟨b1, b2⟩ := logb_two_bounds x hxr1 hxr2
  obtain ⟨al, au⟩ := abs_le.1 a
  constructor
  · have h : (((-3 : ℚ)) : ℝ) ≤ (l : ℝ) := by
      push_cast
      linarith
    exact (Rat.cast_le (K := ℝ)).1 h
  · have h : (l : ℝ) ≤ (((-(1 / 4) : ℚ)) : ℝ) := by
      push_cast
      linarith
    exact (Rat.cast_le (K := ℝ)).1 h

/-- The entropy sum of two proportions near `1/2` over the rationals. -/
theorem entropy_rat_lower (x y l0 l1 : ℚ) (hx1 : 9 / 20 - 1 / 2 ^ 53 ≤ x)
    (hx2 : x ≤ 11 / 20 + 1 / 2 ^ 53) (hy1 : 1 - x - 1 / 2 ^ 53 ≤ y)
    (hy2 : y ≤ 1 - x + 1 / 2 ^ 53)
    (a1 : |(l1 : ℝ) - Real.logb 2 (x : ℝ)| ≤ 1 / 1000)
    (a0 : |(l0 : ℝ) - Real.logb 2 (y : ℝ)| ≤ 1 / 1000) :
    991 / 1000 ≤ -(y * l0) - x * l1 := by
  have hs : (1 : ℚ) / 2 ^ 53 ≤ 1 / 10 ^ 9 := by norm_num
  have hs' : (1 : ℚ) / 10 ^ 9 ≤ 1 / 2000 := by norm_num
  obtain ⟨a1l, a1u⟩ := abs_le.1 a1
  obtain ⟨a0l, a0u⟩ := abs_le.1 a0
  have hreal : (991 / 1000 : ℝ) ≤ -((y : ℝ) * (l0 : ℝ)) - (x : ℝ) * (l1 : ℝ) := by
    apply entropy_real_lower
    · rw [abs_le]
      have h1 : (-(101 / 1000) : ℚ) ≤ 1 - 2 * x := by linarith
      have h2 : 1 - 2 * x ≤ (101 / 1000 : ℚ) := by linarith
      have h1' := (Rat.cast_le (K := ℝ)).2 h1
      have h2' := (Rat.cast_le (K := ℝ)).2 h2
      push_cast at h1' h2'
      exact ⟨h1', h2'⟩
    · rw [abs_le]
      have h1 : (-(1 / 10 ^ 9) : ℚ) ≤ x + y - 1 := by linarith
      have h2 : x + y - 1 ≤ (1 / 10 ^ 9 : ℚ) := by linarith
      have h1' := (Rat.cast_le (K := ℝ)).2 h1
      have h2' := (Rat.cast_le (K := ℝ)).2 h2
      push_cast at h1' h2'
      exact ⟨h1', h2'⟩
    · linarith
    · linarith
  have h : (((991 / 1000 : ℚ)) : ℝ) ≤ ((-(y * l0) - x * l1 : ℚ) : ℝ) := by
    push_cast
    exact hreal
  exact (Rat.cast_le (K := ℝ)).1 h

namespace Double

/-- Rounding a negative number of moderate size loses at most `2^-52`. -/
theorem neg_rnd_ge {z : ℚ} (h1 : -2 ≤ z) (h2 : z ≤ -(1 / 16)) : -z - 1 / 2 ^ 52 ≤ -rnd z := by
  have h := rnd_ge_of_pos (q := -z) (by linarith [show (1 : ℚ) / 2 ^ 64 ≤ 1 / 16 by norm_num])
  rw [rnd_neg] at h
  have : -z * (1 / 2 ^ 53) ≤ 2 * (1 / 2 ^ 53) :=
    mul_le_mul_of_nonneg_right (by linarith) (by norm_num)
  have e : (2 : ℚ) * (1 / 2 ^ 53) = 1 / 2 ^ 52 := by norm_num
  linarith

theorem rnd_neg_two : rnd (-2 : ℚ) = -2 := by
  have := rnd_intCast (-2) (by norm_num)
  simpa using this

theorem rnd_neg_sixteenth : rnd (-(1 / 16) : ℚ) = -(1 / 16) := by
  have := rnd_dyadic (-1) 4 (by norm_num) (by norm_num)
  norm_num at this ⊢
  exact this

/-- A product of a proportion in `[0.4, 0.6]` and a logarithm in `[-3, -1/4]` is finite and
lies in `[-2, -1/16]`. -/
theorem mul_log_bounds {x l : ℚ} (h1 : 2 / 5 ≤ x) (h2 : x ≤ 3 / 5) (l1 : -3 ≤ l)
    (l2 : l ≤ -(1 / 4)) :
    mul (fin x) (fin l) = fin (rnd (x * l)) ∧ -2 ≤ x * l ∧ x * l ≤ -(1 / 16) := by
  have a : x * (-3) ≤ x * l := mul_le_mul_of_nonneg_left l1 (by linarith)
  have b : x * l ≤ x * (-(1 / 4)) := mul_le_mul_of_nonneg_left l2 (by linarith)
  have zlo : -2 ≤ x * l := by linarith
  have zhi : x * l ≤ -(1 / 16) := by linarith
  obtain ⟨e, _, _⟩ := round_between (q := x * l) rnd_neg_two rnd_neg_sixteenth zlo zhi
    (by norm_num) (by norm_num)
  exact ⟨by rw [mul_fin, e], zlo, zhi⟩

/-- The two statements `entropy -= p0 * log2(p0)` and `entropy -= p1 * log2(p1)`, from
`entropy = 0.0`, when the exact sum of the two terms is at least `0.991`. -/
theorem entropy_value {x y l0 l1 : ℚ} (hx1 : 2 / 5 ≤ x) (hx2 : x ≤ 3 / 5) (hy1 : 2 / 5 ≤ y)
    (hy2 : y ≤ 3 / 5) (a1 : -3 ≤ l1) (a2 : l1 ≤ -(1 / 4)) (b1 : -3 ≤ l0) (b2 : l0 ≤ -(1 / 4))
    (h : 991 / 1000 ≤ -(y * l0) - x * l1) :
    ∃ v : ℚ, 507 / 512 ≤ v ∧
      sub (sub (fin 0) (mul (fin y) (fin l0))) (mul (fin x) (fin l1)) = fin v := by
  obtain ⟨hm1, z1lo, z1hi⟩ := mul_log_bounds hx1 hx2 a1 a2
  obtain ⟨hm0, z0lo, z0hi⟩ := mul_log_bounds hy1 hy2 b1 b2
  have c1l : -2 ≤ rnd (x * l1) := by
    have := rnd_mono z1lo
    rwa [rnd_neg_two] at this
  have c0l : -2 ≤ rnd (y * l0) := by
    have := rnd_mono z0lo
    rwa [rnd_neg_two] at this
  have c0u : rnd (y * l0) ≤ -(1 / 16) := by
    have := rnd_mono z0hi
    rwa [rnd_neg_sixteenth] at this
  have hneg : sub (fin 0) (fin (rnd (y * l0))) = fin (-rnd (y * l0)) := by
    rw [sub_fin, zero_sub]
    apply round_exact
    · rw [rnd_neg, rnd_idem]
    · rw [abs_neg, abs_of_nonpos (by linarith)]
      linarith [show (2 : ℚ) < 2 ^ 1024 by norm_num]
  have n1 := neg_rnd_ge z1lo z1hi
  have n0 := neg_rnd_ge z0lo z0hi
  have r507 : rnd ((507 : ℚ) / 512) = 507 / 512 := by
    have := rnd_dyadic 507 9 (by norm_num) (by norm_num)
    norm_num at this ⊢
    exact this
  have r4 : rnd (4 : ℚ) = 4 := by simpa using rnd_natCast 4 (by norm_num)
  obtain ⟨ev, vl, _⟩ := round_between (q := -rnd (y * l0) - rnd (x * l1)) r507 r4
    (by linarith [show (507 : ℚ) / 512 + 2 / 2 ^ 52 ≤ 991 / 1000 by norm_num])
    (by linarith) (by norm_num) (by norm_num)
  refine ⟨_, vl, ?_⟩
  rw [hm0, hneg, hm1, sub_fin, ev]

end Double

/-- Within the exact range of the `double` sum (fewer than `2^53` elements), on every
non-empty 0/1 sequence whose fraction of ones lies in `[0.45, 0.55]`,
`calculate_shannon_entropy` returns a finite value of at least `507/512 = 0.990234375`, in the
generator and in the tester, for every math library whose `log2` is accurate to `10^-3`. -/
theorem shannon_entropy_in_range (L : StdLib) (hL : Log2Accurate L) (bits : List ℕ)
    (hne : bits ≠ []) (h01 : ∀ b ∈ bits, b ≤ 1) (hlen : bits.length < 2 ^ 53)
    (hlo : (9 / 20 : ℚ) ≤ (bits.count 1 : ℚ) / bits.length)
    (hhi : (bits.count 1 : ℚ) / bits.length ≤ 11 / 20) :
    ∃ v : ℚ, 507 / 512 ≤ v ∧ QRNG.calculate_shannon_entropy L bits = Double.fin v ∧
      RandomnessTester.calculate_shannon_entropy L bits = Double.fin v := by
  have hcnt := count_zero_add_count_one bits h01
  have hsum := sum_eq_count_one bits h01
  have hpos : 0 < bits.length := List.length_pos.2 hne
  have hemp : bits.isEmpty = false := by
    cases bits with
    | nil => exact absurd rfl hne
    | cons x xs => rfl
  have hacc : accumulate_double bits = Double.fin ((bits.count 1 : ℕ) : ℚ) := by
    rw [accumulate_double_exact bits (by omega), hsum]
  have hN : Double.ofNat bits.length = Double.fin (bits.length : ℚ) :=
    Double.ofNat_exact _ hlen
  have hnq : (0 : ℚ) < (bits.length : ℚ) := by exact_mod_cast hpos
  have hs : (1 : ℚ) / 2 ^ 53 ≤ 1 / 100 := by norm_num
  have hsmall : (1 : ℚ) / 2 ^ 64 ≤ 1 / 4 := by norm_num
  -- the proportion of ones
  have hfl := Double.rnd_ge_of_pos (q := (bits.count 1 : ℚ) / bits.length) (by linarith)
  have hfu := Double.rnd_le_of_pos (q := (bits.count 1 : ℚ) / bits.length) (by linarith)
  obtain ⟨ex, _, _⟩ := Double.round_between (q := (bits.count 1 : ℚ) / bits.length)
    Double.rnd_quarter Double.rnd_one (by linarith) (by linarith) (by norm_num) (by norm_num)
  have hdiv : Double.div (Double.fin ((bits.count 1 : ℕ) : ℚ)) (Double.fin (bits.length : ℚ))
      = Double.fin (Double.rnd ((bits.count 1 : ℚ) / bits.length)) := by
    rw [Double.div_fin _ _ hnq.ne', ex]
  generalize Double.rnd ((bits.count 1 : ℚ) / bits.length) = x at hfl hfu hdiv
  generalize (bits.count 1 : ℚ) / bits.length = f at hlo hhi hfl hfu
  have hx1 : 9 / 20 - 1 / 2 ^ 53 ≤ x := by
    have : (9 / 20 : ℚ) * (1 - 1 / 2 ^ 53) ≤ f * (1 - 1 / 2 ^ 53) :=
      mul_le_mul_of_nonneg_right hlo (by norm_num)
    linarith [show (9 / 20 : ℚ) * (1 - 1 / 2 ^ 53) ≥ 9 / 20 - 1 / 2 ^ 53 by norm_num]
  have hx2 : x ≤ 11 / 20 + 1 / 2 ^ 53 := by
    have : f * (1 + 1 / 2 ^ 53) ≤ (11 / 20 : ℚ) * (1 + 1 / 2 ^ 53) :=
      mul_le_mul_of_nonneg_right hhi (by norm_num)
    linarith [show (11 / 20 : ℚ) * (1 + 1 / 2 ^ 53) ≤ 11 / 20 + 1 / 2 ^ 53 by norm_num]
  -- the proportion of zeros
  have hyl := Double.rnd_ge_of_pos (q := 1 - x) (by linarith)
  have hyu := Double.rnd_le_of_pos (q := 1 - x) (by linarith)
  obtain ⟨ey, _, _⟩ := Double.round_between (q := 1 - x)
    Double.rnd_quarter Double.rnd_one (by linarith) (by linarith) (by norm_num) (by norm_num)
  have hsub : Double.sub (Double.fin 1) (Double.fin x) = Double.fin (Double.rnd (1 - x)) := by
    rw [Double.sub_fin, ey]
  generalize Double.rnd (1 - x) = y at hyl hyu hsub
  have hmul : (1 - x) * (1 / 2 ^ 53) ≤ 1 * (1 / 2 ^ 53) :=
    mul_le_mul_of_nonneg_right (by linarith) (by norm_num)
  have hy1 : 1 - x - 1 / 2 ^ 53 ≤ y := by linarith
  have hy2 : y ≤ 1 - x + 1 / 2 ^ 53 := by linarith
  have hgx : Double.gt (Double.fin x) (Double.fin 0) = true := by
    simp only [Double.gt, Double.lt, decide_eq_true_eq]
    linarith
  have hgy : Double.gt (Double.fin y) (Double.fin 0) = true := by
    simp only [Double.gt, Double.lt, decide_eq_true_eq]
    linarith
  -- the two logarithms and the sum
  obtain ⟨l1, hl1, a1⟩ := hL x (by linarith) (by linarith)
  obtain ⟨l0, hl0, a0⟩ := hL y (by linarith) (by linarith)
  obtain ⟨b1l, b1u⟩ := log2_value_bounds x l1 (by linarith) (by linarith) a1
  obtain ⟨b0l, b0u⟩ := log2_value_bounds y l0 (by linarith) (by linarith) a0
  have hsum := entropy_rat_lower x y l0 l1 hx1 hx2 hy1 hy2 a1 a0
  obtain ⟨v, hv, hval⟩ := Double.entropy_value (x := x) (y := y) (by linarith) (by linarith)
    (by linarith) (by linarith) b1l b1u b0l b0u hsum
  refine ⟨v, hv, ?_, ?_⟩
  · unfold QRNG.calculate_shannon_entropy
    simp only [hemp, hacc, hN, hdiv, hsub, hgx, hgy, hl0, hl1, hval, if_true,
      Bool.false_eq_true, if_false]
  · unfold RandomnessTester.calculate_shannon_entropy
    simp only [hemp, hacc, hN, hdiv, hsub, hgx, hgy, hl0, hl1, hval, if_true,
      Bool.false_eq_true, if_false]

/-- Eight terms of the logarithm series, scaled by `1.442695`, are within `10^-5` of the
base-2 logarithm of `(1 - t) / 2` for `|t| ≤ 1/5`. -/
theorem log2_series_close (t : ℝ) (ht : |t| ≤ 1 / 5) :
    |(-1 - (∑ i ∈ Finset.range 8, t ^ (i + 1) / ((i : ℝ) + 1)) * (1442695 / 1000000))
      - (Real.log (1 - t) / Real.log 2 - 1)| ≤ 1 / 10 ^ 5 := by
  have h1 : |t| < 1 := lt_of_le_of_lt ht (by norm_num)
  have h := Real.abs_log_sub_add_sum_range_le h1 8
  obtain ⟨t1, t2⟩ := abs_le.1 ht
  have hpos : (0 : ℝ) < 1 - |t| := by linarith
  have h9 : |t| ^ (8 + 1) ≤ (1 / 5 : ℝ) ^ (8 + 1) := pow_le_pow_left₀ (abs_nonneg t) ht _
  have hR : |t| ^ (8 + 1) / (1 - |t|) ≤ 1 / 10 ^ 6 := by
    rw [div_le_iff₀ hpos]
    have : (1 : ℝ) / 10 ^ 6 * (1 - 1 / 5) ≤ 1 / 10 ^ 6 * (1 - |t|) := by
      apply mul_le_mul_of_nonneg_left _ (by norm_num)
      linarith
    have h5 : (1 / 5 : ℝ) ^ (8 + 1) ≤ 1 / 10 ^ 6 * (1 - 1 / 5) := by norm_num
    linarith
  obtain ⟨s1, s2⟩ := abs_le.1 (le_trans h hR)
  have hup : Real.log (1 - t) ≤ (1 - t) - 1 := Real.log_le_sub_one_of_pos (by linarith)
  have hlo : 1 - (1 - t)⁻¹ ≤ Real.log (1 - t) := Real.one_sub_inv_le_log_of_pos (by linarith)
  have hinv : (1 - t)⁻¹ ≤ 5 / 4 := by
    rw [inv_le_comm₀ (by linarith) (by norm_num)]
    norm_num
    linarith
  have hlog2 : 0 < Real.log 2 := Real.log_pos (by norm_num)
  have g1 := Real.log_two_gt_d9
  have g2 := Real.log_two_lt_d9
  generalize (∑ i ∈ Finset.range 8, t ^ (i + 1) / ((i : ℝ) + 1)) = S at s1 s2 ⊢
  generalize Real.log (1 - t) = lg at s1 s2 hup hlo ⊢
  generalize Real.log 2 = l2 at hlog2 g1 g2 ⊢
  have hS1 : -(1 / 2) ≤ S := by linarith
  have hS2 : S ≤ 1 / 2 := by linarith
  have hc1 : -(1 / 10 ^ 7) ≤ 1 - 1442695 / 1000000 * l2 := by
    norm_num at g1 g2 ⊢
    linarith
  have hc2 : 1 - 1442695 / 1000000 * l2 ≤ 1 / 10 ^ 7 := by
    norm_num at g1 g2 ⊢
    linarith
  have hprod : |S * (1 - 1442695 / 1000000 * l2)| ≤ 1 / 2 * (1 / 10 ^ 7) := by
    rw [abs_mul]
    exact mul_le_mul (abs_le.2 ⟨hS1, hS2⟩) (abs_le.2 ⟨hc1, hc2⟩) (abs_nonneg _) (by norm_num)
  obtain ⟨p1, p2⟩ := abs_le.1 hprod
  have e : (-1 - S * (1442695 / 1000000)) - (lg / l2 - 1)
      = (-(S + lg) + S * (1 - 1442695 / 1000000 * l2)) / l2 := by
    field_simp
    ring
  rw [e, abs_div, abs_of_pos hlog2, div_le_iff₀ hlog2]
  have hl2 : (1 / 2 : ℝ) ≤ l2 := by
    norm_num at g1
    linarith
  rw [abs_le]
  constructor
  · nlinarith
  · nlinarith

/-- The library `logLib` meets the accuracy that the entropy bound asks of `log2`. -/
theorem logLib_accurate : Log2Accurate logLib := by
  intro x h1 h2
  have hk : Int.log 2 (x * 4 / 3) = -1 := by
    apply Double.int_log_eq
    · norm_num
      linarith
    · norm_num
      linarith
  have hA : Double.log2Approx x
      = -1 - (∑ i ∈ Finset.range 8, (1 - 2 * x) ^ (i + 1) / ((i : ℚ) + 1))
          * (1442695 / 1000000) := by
    have hT : (1 : ℚ) - x / (2 : ℚ) ^ (-1 : ℤ) = 1 - 2 * x := by
      norm_num
      ring
    unfold Double.log2Approx
    simp only [hk, hT]
    norm_num
  have hxr1 : (2 / 5 : ℝ) ≤ (x : ℝ) := by
    have h := (Rat.cast_le (K := ℝ)).2 h1
    push_cast at h
    exact h
  have hxr2 : (x : ℝ) ≤ 3 / 5 := by
    have h := (Rat.cast_le (K := ℝ)).2 h2
    push_cast at h
    exact h
  have hxpos : (0 : ℝ) < (x : ℝ) := by linarith
  have ht : |1 - 2 * (x : ℝ)| ≤ 1 / 5 := by
    rw [abs_le]; constructor <;> linarith
  have hclose := log2_series_close (1 - 2 * (x : ℝ)) ht
  have e1 : (1 : ℝ) - (1 - 2 * (x : ℝ)) = 2 * x := by ring
  rw [e1] at hclose
  have ex : Real.logb 2 (x : ℝ) = Real.log (2 * x) / Real.log 2 - 1 := by
    have hlog2 : 0 < Real.log 2 := Real.log_pos (by norm_num)
    rw [Real.logb, Real.log_mul (by norm_num) hxpos.ne']
    field_simp
  rw [← ex] at hclose
  have hcast : ((Double.log2Approx x : ℚ) : ℝ)
      = -1 - (∑ i ∈ Finset.range 8, (1 - 2 * (x : ℝ)) ^ (i + 1) / ((i : ℝ) + 1))
          * (1442695 / 1000000) := by
    rw [hA]
    push_cast
    rfl
  rw [← hcast] at hclose
  obtain ⟨b1, b2⟩ := logb_two_bounds x hxr1 hxr2
  obtain ⟨c1, c2⟩ := abs_le.1 hclose
  have hAlo : (-4 : ℚ) ≤ Double.log2Approx x := by
    have h : (((-4 : ℚ)) : ℝ) ≤ ((Double.log2Approx x : ℚ) : ℝ) := by
      push_cast
      linarith
    exact (Rat.cast_le (K := ℝ)).1 h
  have hAhi : Double.log2Approx x ≤ (-(1 / 16) : ℚ) := by
    have h : ((Double.log2Approx x : ℚ) : ℝ) ≤ (((-(1 / 16) : ℚ)) : ℝ) := by
      push_cast
      linarith
    exact (Rat.cast_le (K := ℝ)).1 h
  have r4 : Double.rnd (-4 : ℚ) = -4 := by
    have := Double.rnd_intCast (-4) (by norm_num)
    simpa using this
  obtain ⟨er, _, _⟩ := Double.round_between (q := Double.log2Approx x) r4
    Double.rnd_neg_sixteenth hAlo hAhi (by norm_num) (by norm_num)
  have hrel := Double.rnd_rel_error (q := Double.log2Approx x)
    (by
      have hn := Double.normal_of_ge (q := -Double.log2Approx x)
        (by linarith [show (1 : ℚ) / 2 ^ 64 ≤ 1 / 16 by norm_num])
      rwa [abs_neg] at hn)
  rw [abs_of_nonpos (by linarith : Double.log2Approx x ≤ 0)] at hrel
  have hrel' : |Double.rnd (Double.log2Approx x) - Double.log2Approx x| ≤ 1 / 10 ^ 5 := by
    refine le_trans hrel ?_
    rw [div_le_iff₀ (by norm_num)]
    linarith [show (1 : ℚ) / 10 ^ 5 * 2 ^ 53 ≥ 4 by norm_num]
  have hrelr : |((Double.rnd (Double.log2Approx x) : ℚ) : ℝ) - ((Double.log2Approx x : ℚ) : ℝ)|
      ≤ 1 / 10 ^ 5 := by
    have h := (Rat.cast_le (K := ℝ)).2 hrel'
    push_cast at h
    exact h
  refine ⟨Double.rnd (Double.log2Approx x), ?_, ?_⟩
  · simp only [logLib]
    rw [if_neg (by linarith), if_neg (by linarith), er]
  · obtain ⟨d1, d2⟩ := abs_le.1 hrelr
    rw [abs_le]
    constructor <;> linarith

/-! ### The `double` sum of `calculate_shannon_entropy` beyond `2^53` ones -/

namespace Double

theorem rne_tie_even {m : ℤ} (hm : m % 2 = 0) : rne ((m : ℚ) + 1 / 2) = m := by
  have hf : ⌊(m : ℚ) + 1 / 2⌋ = m := by
    rw [Int.floor_eq_iff]
    constructor <;> norm_num
  unfold rne
  rw [hf]
  have e : (m : ℚ) + 1 / 2 - m = 1 / 2 := by ring
  rw [e]
  simp only [lt_self_iff_false, if_false]
  rw [if_pos hm]

/-- At `2^53` the sum stalls: `2^53 + 1` lies halfway between two doubles and rounds to the
even one, `2^53`. -/
theorem rnd_stall : rnd ((2 : ℚ) ^ 53 + 1) = 2 ^ 53 := by
  have e : ((2 : ℚ) ^ 53 + 1) / (2 : ℚ) ^ ((53 : ℤ) - 52) = ((2 ^ 52 : ℤ) : ℚ) + 1 / 2 := by
    norm_num
  have hm : rne (((2 : ℚ) ^ 53 + 1) / (2 : ℚ) ^ ((53 : ℤ) - 52)) = 2 ^ 52 := by
    rw [e, rne_tie_even (by norm_num)]
  have h := rnd_eval (q := (2 : ℚ) ^ 53 + 1) (e := 53) (m := 2 ^ 52) (by norm_num)
    (by rw [abs_of_nonneg (by norm_num)]; norm_num)
    (by rw [abs_of_nonneg (by norm_num)]; norm_num) hm
  rw [h]
  norm_num

/-- Adding `1.0` to a sum that is a natural number of at most `2^53`. -/
theorem add_one_saturating (a : ℕ) (ha : a ≤ 2 ^ 53) :
    add (fin (a : ℚ)) (ofNat 1) = fin ((min (a + 1) (2 ^ 53) : ℕ) : ℚ) := by
  have h1 : ofNat 1 = fin 1 := by simpa using ofNat_exact 1 (by norm_num)
  rw [h1, add_fin]
  rcases Nat.lt_or_ge (a + 1) (2 ^ 53) with h | h
  · have := ofNat_exact (a + 1) h
    unfold ofNat at this
    push_cast at this
    rw [this, min_eq_left h.le]
    push_cast
    rfl
  · rcases Nat.eq_or_lt_of_le h with h' | h'
    · have e : (a : ℚ) + 1 = 2 ^ 53 := by
        have : ((a + 1 : ℕ) : ℚ) = ((2 ^ 53 : ℕ) : ℚ) := by rw [← h']
        push_cast at this
        exact this
      rw [e, round_exact (rnd_two_pow 53) (by norm_num), min_eq_right h]
      push_cast
      rfl
    · have ha' : a = 2 ^ 53 := by omega
      have e : (a : ℚ) = 2 ^ 53 := by
        rw [ha']
        push_cast
        rfl
      rw [e, round_of_lt (by rw [rnd_stall]; norm_num), rnd_stall, min_eq_right h]
      push_cast
      rfl

end Double

/-- The `double` sum of `m` ones, started at a natural number `a ≤ 2^53`, is
`min (a + m) 2^53`: it stalls at `2^53`. -/
theorem foldl_add_ones (m a : ℕ) (ha : a ≤ 2 ^ 53) :
    List.foldl (fun (acc : Double) (b : ℕ) => Double.add acc (Double.ofNat b))
      (Double.fin (a : ℚ)) (List.replicate m 1)
      = Double.fin ((min (a + m) (2 ^ 53) : ℕ) : ℚ) := by
  induction m generalizing a with
  | zero =>
    simp only [List.replicate_zero, List.foldl_nil, add_zero, min_eq_left ha]
  | succ k ih =>
    rw [List.replicate_succ, List.foldl_cons, Double.add_one_saturating a ha,
      ih _ (min_le_right _ _)]
    congr 2
    omega

/-- Adding zeros leaves a sum of at most `2^53` unchanged. -/
theorem foldl_add_zeros (m a : ℕ) (ha : a ≤ 2 ^ 53) :
    List.foldl (fun (acc : Double) (b : ℕ) => Double.add acc (Double.ofNat b))
      (Double.fin (a : ℚ)) (List.replicate m 0) = Double.fin (a : ℚ) := by
  have h0 : Double.ofNat 0 = Double.fin 0 := by simpa using Double.ofNat_exact 0 (by norm_num)
  have hr : Double.round (a : ℚ) = Double.fin (a : ℚ) := by
    rcases Nat.eq_or_lt_of_le ha with h | h
    · have e : (a : ℚ) = 2 ^ 53 := by
        rw [h]
        push_cast
        rfl
      rw [e, Double.round_exact (Double.rnd_two_pow 53) (by norm_num)]
    · exact Double.ofNat_exact a h
  induction m with
  | zero => rfl
  | succ k ih =>
    rw [List.replicate_succ, List.foldl_cons, h0, Double.add_fin, add_zero, hr, ih]

/-- On `n ≥ 2^53` ones followed by zeros the `double` sum is `2^53`. -/
theorem accumulate_double_saturated (n z : ℕ) (hn : 2 ^ 53 ≤ n) :
    accumulate_double (List.replicate n 1 ++ List.replicate z 0) = Double.fin (2 ^ 53) := by
  unfold accumulate_double
  have h := foldl_add_ones n 0 (by norm_num)
  simp only [Nat.cast_zero, zero_add] at h
  rw [List.foldl_append, h, min_eq_right hn, foldl_add_zeros z _ le_rfl]
  push_cast
  rfl

theorem logLib_log2_pos {q : ℚ} (hq : 0 < q) :
    logLib.log2 (Double.fin q) = Double.round (Double.log2Approx q) := by
  simp only [logLib]
  rw [if_neg (not_lt.2 hq.le), if_neg hq.ne']

/-- The logarithm of `logLib` at `1/4` is exactly `-2`. -/
theorem logLib_log2_quarter : logLib.log2 (Double.fin (1 / 4)) = Double.fin (-2) := by
  have hk : Int.log 2 ((1 / 4 : ℚ) * 4 / 3) = -2 :=
    Double.int_log_eq (by norm_num) (by norm_num)
  have hA : Double.log2Approx (1 / 4) = -2 := by
    unfold Double.log2Approx
    simp only [hk]
    norm_num [Finset.sum_range_succ]
  rw [logLib_log2_pos (by norm_num), hA]
  have := Double.round_int (q := (-2 : ℚ)) (-2) (by norm_num) (by norm_num)
  exact this

/-- The logarithm of `logLib` at `3/4` is a finite number in `[-1/2, -1/4]` (about
`-0.415`). -/
theorem logLib_log2_three_quarters :
    ∃ l : ℚ, -(1 / 2) ≤ l ∧ l ≤ -(1 / 4) ∧ logLib.log2 (Double.fin (3 / 4)) = Double.fin l := by
  have hk : Int.log 2 ((3 / 4 : ℚ) * 4 / 3) = 0 :=
    Double.int_log_eq (by norm_num) (by norm_num)
  have hA : -(1 / 2) ≤ Double.log2Approx (3 / 4) ∧ Double.log2Approx (3 / 4) ≤ -(1 / 4) := by
    unfold Double.log2Approx
    simp only [hk]
    norm_num [Finset.sum_range_succ]
  have rh : Double.rnd (-(1 / 2) : ℚ) = -(1 / 2) := by
    rw [Double.rnd_neg, Double.rnd_half]
  have rq : Double.rnd (-(1 / 4) : ℚ) = -(1 / 4) := by
    rw [Double.rnd_neg, Double.rnd_quarter]
  obtain ⟨e, a, b⟩ := Double.round_between rh rq hA.1 hA.2 (by norm_num) (by norm_num)
  exact ⟨_, a, b, by rw [logLib_log2_pos (by norm_num), e]⟩

/-- On `2^54` ones followed by `2^54` zeros the sum of `calculate_shannon_entropy` stalls at
`2^53`: the proportion of ones is computed as `1/4` instead of `1/2`, and with the library
`logLib` the entropy is at most `7/8`. -/
theorem shannon_entropy_saturated (n : ℕ) (hn : n = 2 ^ 54) :
    ∃ v : ℚ, v ≤ 7 / 8 ∧
      QRNG.calculate_shannon_entropy logLib (List.replicate n 1 ++ List.replicate n 0)
        = Double.fin v := by
  have hemp := isEmpty_replicate_append n n 1 0 (by omega)
  have hacc := accumulate_double_saturated n n (by omega)
  have hN : Double.ofNat (List.replicate n 1 ++ List.replicate n 0 : List ℕ).length
      = Double.fin (2 ^ 55) := by
    rw [List.length_append, List.length_replicate, List.length_replicate, hn]
    unfold Double.ofNat
    have e : (((2 ^ 54 + 2 ^ 54 : ℕ)) : ℚ) = 2 ^ 55 := by norm_num
    rw [e, Double.round_exact (Double.rnd_two_pow 55) (by norm_num)]
  have hdiv : Double.div (Double.fin (2 ^ 53)) (Double.fin (2 ^ 55)) = Double.fin (1 / 4) := by
    rw [Double.div_fin _ _ (by norm_num)]
    have e : (2 : ℚ) ^ 53 / 2 ^ 55 = 1 / 4 := by norm_num
    rw [e, Double.round_exact Double.rnd_quarter
      (by rw [abs_of_nonneg (by norm_num)]; norm_num)]
  have hsub : Double.sub (Double.fin 1) (Double.fin (1 / 4)) = Double.fin (3 / 4) := by
    rw [Double.sub_fin]
    have e : (1 : ℚ) - 1 / 4 = 3 / 4 := by norm_num
    rw [e, Double.round_exact Double.rnd_three_quarters
      (by rw [abs_of_nonneg (by norm_num)]; norm_num)]
  have hg0 : Double.gt (Double.fin (3 / 4)) (Double.fin 0) = true := by
    simp only [Double.gt, Double.lt, decide_eq_true_eq]
    norm_num
  have hg1 : Double.gt (Double.fin (1 / 4)) (Double.fin 0) = true := by
    simp only [Double.gt, Double.lt, decide_eq_true_eq]
    norm_num
  obtain ⟨l, l1, l2, hl⟩ := logLib_log2_three_quarters
  have r1 : Double.rnd (-(3 / 8) : ℚ) = -(3 / 8) := by
    have := Double.rnd_dyadic (-3) 3 (by norm_num) (by norm_num)
    norm_num at this ⊢
    exact this
  have r2 : Double.rnd (-(3 / 16) : ℚ) = -(3 / 16) := by
    have := Double.rnd_dyadic (-3) 4 (by norm_num) (by norm_num)
    norm_num at this ⊢
    exact this
  obtain ⟨em, m1, m2⟩ := Double.round_between (q := 3 / 4 * l) r1 r2 (by linarith)
    (by linarith) (by norm_num) (by norm_num)
  have hm0 : Double.mul (Double.fin (3 / 4)) (Double.fin l)
      = Double.fin (Double.rnd (3 / 4 * l)) := by
    rw [Double.mul_fin, em]
  have hneg : Double.sub (Double.fin 0) (Double.fin (Double.rnd (3 / 4 * l)))
      = Double.fin (-Double.rnd (3 / 4 * l)) := by
    rw [Double.sub_fin, zero_sub]
    apply Double.round_exact
    · rw [Double.rnd_neg, Double.rnd_idem]
    · rw [abs_neg, abs_of_nonpos (by linarith)]
      linarith [show (1 : ℚ) < 2 ^ 1024 by norm_num]
  have hm1 : Double.mul (Double.fin (1 / 4)) (Double.fin (-2)) = Double.fin (-(1 / 2)) := by
    rw [Double.mul_fin]
    have e : (1 / 4 : ℚ) * -2 = -(1 / 2) := by norm_num
    rw [e, Double.round_neg_half]
  have r0 : Double.rnd (0 : ℚ) = 0 := Double.rnd_zero
  have r78 : Double.rnd (7 / 8 : ℚ) = 7 / 8 := by
    have := Double.rnd_dyadic 7 3 (by norm_num) (by norm_num)
    norm_num at this ⊢
    exact this
  obtain ⟨ev, _, v2⟩ := Double.round_between
    (q := -Double.rnd (3 / 4 * l) - -(1 / 2)) r0 r78 (by linarith) (by linarith)
    (by norm_num) (by norm_num)
  have hfin : Double.sub (Double.fin (-Double.rnd (3 / 4 * l))) (Double.fin (-(1 / 2)))
      = Double.fin (Double.rnd (-Double.rnd (3 / 4 * l) - -(1 / 2))) := by
    rw [Double.sub_fin, ev]
  refine ⟨_, v2, ?_⟩
  unfold QRNG.calculate_shannon_entropy
  simp only [hemp, hacc, hN, hdiv, hsub, hg0, hg1, hl, logLib_log2_quarter, hm0, hneg, hm1,
    hfin, if_true, Bool.false_eq_true, if_false]

/-- The range of the entropy bound cannot be extended to every length of the model: the
sequence of `2^54` ones followed by `2^54` zeros (32 PiB of bytes) has the fraction of ones
`1/2`, but the `double` sum of `calculate_shannon_entropy` stalls at `2^53` and the function,
with a `log2` that is accurate to `10^-3`, returns at most `7/8`. -/
theorem shannon_entropy_sum_stalls :
    Log2Accurate logLib ∧
      (∀ b ∈ List.replicate (2 ^ 54) 1 ++ List.replicate (2 ^ 54) 0, b = 0 ∨ b = 1) ∧
      (((List.replicate (2 ^ 54) 1 ++ List.replicate (2 ^ 54) 0).count 1 : ℕ) : ℚ)
          / (List.replicate (2 ^ 54) 1 ++ List.replicate (2 ^ 54) 0).length = 1 / 2 ∧
      ∃ v : ℚ, v ≤ 7 / 8 ∧
        QRNG.calculate_shannon_entropy logLib
          (List.replicate (2 ^ 54) 1 ++ List.replicate (2 ^ 54) 0) = Double.fin v := by
  refine ⟨logLib_accurate, ?_, ?_, shannon_entropy_saturated (2 ^ 54) rfl⟩
  · intro b hb
    rcases List.mem_append.1 hb with h | h
    · right; exact (List.mem_replicate.1 h).2
    · left; exact (List.mem_replicate.1 h).2
  · rw [List.count_append, List.count_replicate, List.count_replicate, List.length_append,
      List.length_replicate, List.length_replicate]
    norm_num

/-- C21: for every non-empty sequence of 0/1 values whose fraction of ones lies in
`[0.45, 0.55]`, `calculate_shannon_entropy` returns a finite value greater than `0.99` (and so
greater than `0.9`), in the generator and in the tester, for every math library whose `log2`
is within `10^-3` of the base-2 logarithm on `[0.4, 0.6]`.  The length is below `2^53`, which
holds for every vector that fits in memory; there the `double` sum of the bits is exact. -/
theorem C21_entropy_of_balanced_fraction (L : StdLib) (hL : Log2Accurate L) (bits : List ℕ)
    (hne : bits ≠ []) (h01 : ∀ b ∈ bits, b = 0 ∨ b = 1) (hlen : bits.length < 2 ^ 53)
    (hlo : (9 / 20 : ℚ) ≤ (bits.count 1 : ℚ) / bits.length)
    (hhi : (bits.count 1 : ℚ) / bits.length ≤ 11 / 20) :
    ∃ v : ℚ, 99 / 100 < v ∧ 9 / 10 < v ∧ QRNG.calculate_shannon_entropy L bits = Double.fin v ∧
      RandomnessTester.calculate_shannon_entropy L bits = Double.fin v := by
  have h01' : ∀ b ∈ bits, b ≤ 1 := by
    intro b hb
    rcases h01 b hb with h | h <;> omega
  obtain ⟨v, hv, h1, h2⟩ := shannon_entropy_in_range L hL bits hne h01' hlen hlo hhi
  exact ⟨v, by linarith [show (99 : ℚ) / 100 < 507 / 512 by norm_num],
    by linarith [show (9 : ℚ) / 10 < 507 / 512 by norm_num], h1, h2⟩

theorem C21_entropy_of_balanced_fraction_witness :
    Log2Accurate logLib ∧
      [1, 1, 1, 1, 1, 1, 1, 1, 1, 0, 0, 0, 0, 0, 0, 0, 0, 0, 0, 0] ≠ ([] : List ℕ) ∧
      (∀ b ∈ [1, 1, 1, 1, 1, 1, 1, 1, 1, 0, 0, 0, 0, 0, 0, 0, 0, 0, 0, 0], b = 0 ∨ b = 1) ∧
      ([1, 1, 1, 1, 1, 1, 1, 1, 1, 0, 0, 0, 0, 0, 0, 0, 0, 0, 0, 0] : List ℕ).length < 2 ^ 53 ∧
      (9 / 20 : ℚ)
        ≤ ((([1, 1, 1, 1, 1, 1, 1, 1, 1, 0, 0, 0, 0, 0, 0, 0, 0, 0, 0, 0] : List ℕ).count 1 : ℕ) : ℚ)
          / ([1, 1, 1, 1, 1, 1, 1, 1, 1, 0, 0, 0, 0, 0, 0, 0, 0, 0, 0, 0] : List ℕ).length ∧
      ((([1, 1, 1, 1, 1, 1, 1, 1, 1, 0, 0, 0, 0, 0, 0, 0, 0, 0, 0, 0] : List ℕ).count 1 : ℕ) : ℚ)
          / ([1, 1, 1, 1, 1, 1, 1, 1, 1, 0, 0, 0, 0, 0, 0, 0, 0, 0, 0, 0] : List ℕ).length
        ≤ 11 / 20 ∧
      ∃ v : ℚ, 99 / 100 < v ∧ 9 / 10 < v ∧
        QRNG.calculate_shannon_entropy logLib
          [1, 1, 1, 1, 1, 1, 1, 1, 1, 0, 0, 0, 0, 0, 0, 0, 0, 0, 0, 0] = Double.fin v ∧
        RandomnessTester.calculate_shannon_entropy logLib
          [1, 1, 1, 1, 1, 1, 1, 1, 1, 0, 0, 0, 0, 0, 0, 0, 0, 0, 0, 0] = Double.fin v :=
  ⟨logLib_accurate, by simp, by decide, by norm_num, by norm_num [List.count_cons],
    by norm_num [List.count_cons],
    C21_entropy_of_balanced_fraction logLib logLib_accurate
      [1, 1, 1, 1, 1, 1, 1, 1, 1, 0, 0, 0, 0, 0, 0, 0, 0, 0, 0, 0] (by simp) (by decide)
      (by norm_num) (by norm_num [List.count_cons]) (by norm_num [List.count_cons])⟩
